import Mathlib

/-!
Shallow embedding of `fpgrowth.py` (FP-Growth frequent itemset mining).

The Python program builds a prefix tree (`FPTree`) of `FPNode` objects linked
both by parent/child edges and by an auxiliary per-item singly linked list
(`_link` fields threaded through the `hyperlinks` dictionary), then mines
frequent itemsets by recursive conditional-tree projection (`project`) and
search (`fp_search`).

The mutable object graph is embedded as an arena: nodes live in an array,
node references are array indices (index 0 is the root), and every mutation
of the Python code becomes a functional update of the arena.  Indices are
assigned in creation order, so "insertion order" of nodes is the order of
their indices.  Python dictionaries (`FPNode.children`, `FPTree.hyperlinks`)
are association lists with unique keys; assignment to a fresh key appends at
the end, mirroring Python's insertion-ordered dicts.
-/

set_option maxHeartbeats 1000000

deriving instance DecidableEq for Except

/-- Items are Python ints. -/
abbrev Item := Int

/-- `FPNode.__init__`: `item` and `support` are `None` exactly on the root
(`FPTree.__init__` passes `None, None`); `parent` starts as `None`;
`children` is an (insertion-ordered, unique-key) dict from item to child
node; `_link` is the same-item forward pointer. -/
structure FPNode where
  item : Option Item
  support : Option Nat
  parent : Option Nat
  children : List (Item × Nat)
  link : Option Nat
deriving Repr, DecidableEq, Inhabited

/-- `FPTree.__init__`: the arena of nodes (index 0 is the root created as
`FPNode(self, None, None)`) plus the `hyperlinks` dict mapping an item to the
`(head, tail)` pair of its linked list. -/
structure FPTree where
  nodes : Array FPNode
  hyperlinks : List (Item × (Nat × Nat))
deriving Repr, DecidableEq, Inhabited

/-- Dereference a node id in the arena (ids are always in bounds for trees
built by the operations below; the default is never reached there). -/
def FPTree.nodeAt (t : FPTree) (nid : Nat) : FPNode :=
  t.nodes.getD nid default

/-- Functional update of one node of the arena. -/
def FPTree.setNode (t : FPTree) (nid : Nat) (n : FPNode) : FPTree :=
  { t with nodes := t.nodes.setD nid n }

/-- `FPNode.root` property: `self.item is None and self.support is None`. -/
def FPNode.isRoot (n : FPNode) : Bool :=
  n.item == none && n.support == none

/-- `FPNode.search`: child dict lookup, `None` when absent. -/
def FPNode.search (n : FPNode) (i : Item) : Option Nat :=
  n.children.lookup i

/-- `FPNode.increment_node_support`: `self.support += 1`.  On the root,
`support` is `None` and Python raises `TypeError` (`None + 1`); that
unrecoverable fault is the `.error` case. -/
def FPNode.increment_node_support (n : FPNode) : Except Unit FPNode :=
  match n.support with
  | none => .error ()
  | some s => .ok { n with support := some (s + 1) }

/-- `FPTree.__init__`: a fresh tree holding only the root node. -/
def FPTree.new : FPTree :=
  { nodes := #[{ item := none, support := none, parent := none,
                 children := [], link := none }],
    hyperlinks := [] }

/-- The `root` attribute of a tree. -/
def FPTree.root (t : FPTree) : FPNode :=
  t.nodeAt 0

/-- Assignment to an existing key of a Python dict: the value is replaced in
place (the key keeps its position).  Keys are unique in every dict built by
this program, so mapping over all entries replaces exactly one. -/
def replaceAssoc (l : List (Item × (Nat × Nat))) (i : Item) (v : Nat × Nat) :
    List (Item × (Nat × Nat)) :=
  l.map (fun kv => if kv.1 == i then (kv.1, v) else kv)

/-- `FPNode.add`: `if not child.item in self.children: self.children[child.item]
= child; child.parent = self`.  `add` is only ever invoked on freshly created
non-root children, which all carry `some` item. -/
def FPTree.addChild (t : FPTree) (pid cid : Nat) : FPTree :=
  match (t.nodeAt cid).item with
  | none => t
  | some i =>
    if ((t.nodeAt pid).children.lookup i).isSome then t
    else
      let t1 := t.setNode pid
        { t.nodeAt pid with children := (t.nodeAt pid).children ++ [(i, cid)] }
      t1.setNode cid { t1.nodeAt cid with parent := some pid }

/-- `FPTree.update_route`: append `point` to the tail of its item's linked
list, or create the singleton list if the item is new.  `update_route` is only
ever invoked on freshly created non-root nodes, which carry `some` item. -/
def FPTree.update_route (t : FPTree) (pid : Nat) : FPTree :=
  match (t.nodeAt pid).item with
  | none => t
  | some i =>
    match t.hyperlinks.lookup i with
    | some (h, tl) =>
      let t1 := t.setNode tl { t.nodeAt tl with link := some pid }
      { t1 with hyperlinks := replaceAssoc t1.hyperlinks i (h, pid) }
    | none => { t with hyperlinks := t.hyperlinks ++ [(i, (pid, pid))] }

/-- `FPNode.__init__` invoked from `add_transaction`/`project`: push a fresh
node (no parent, no children, no link yet) and return its id. -/
def FPTree.newNode (t : FPTree) (i : Item) (s : Nat) : FPTree × Nat :=
  let n : FPNode := { item := some i, support := some s, parent := none,
                      children := [], link := none }
  ({ t with nodes := t.nodes.push n }, t.nodes.size)

/-- The `FPNode(self, item)` / `point.add` / `self.update_route` sequence
shared by the miss branches of `add_transaction` and `project`. -/
def FPTree.attach (t : FPTree) (pid : Nat) (i : Item) (s : Nat) :
    FPTree × Nat :=
  let (t1, nid) := t.newNode i s
  (((t1.addChild pid nid).update_route nid), nid)

/-- The loop of `FPTree.add_transaction`, with `point` made explicit.
On a hit, `increment_node_support` adds 1 to the child's support (every child
carries `some` support, so the `TypeError` branch is unreachable and the
update is written as `Option.map`); on a miss, a fresh node with the default
support 1 is created, attached and registered. -/
def FPTree.addTransactionFrom (t : FPTree) (point : Nat) :
    List Item → FPTree
  | [] => t
  | i :: rest =>
    match (t.nodeAt point).search i with
    | some nxt =>
      let t1 := t.setNode nxt
        { t.nodeAt nxt with support := (t.nodeAt nxt).support.map (· + 1) }
      t1.addTransactionFrom nxt rest
    | none =>
      let (t1, nxt) := t.attach point i 1
      t1.addTransactionFrom nxt rest

/-- `FPTree.add_transaction`: the walk starts at the root. -/
def FPTree.add_transaction (t : FPTree) (itemset : List Item) : FPTree :=
  t.addTransactionFrom 0 itemset

/-- Build a tree from a transaction list (the `START_TREE` construction loop
of the `__main__` block). -/
def buildTree (ts : List (List Item)) : FPTree :=
  ts.foldl FPTree.add_transaction FPTree.new

/-- Follow `link` pointers from a node, with fuel.  In every tree built by
the operations of this file a link always points to a strictly later-created
node, so `t.nodes.size` fuel lets the walk reach the terminal node. -/
def FPTree.chainFrom (t : FPTree) : Nat → Nat → List Nat
  | 0, _ => []
  | fuel + 1, nid =>
    nid :: (match (t.nodeAt nid).link with
            | none => []
            | some nxt => t.chainFrom fuel nxt)

/-- `FPTree.nodes`: the generator body reads `self.hyperlinks[item][0]` only
inside `if item in self.hyperlinks`; when the item is absent the following
`while node:` hits an unbound local variable and consuming the generator
raises `UnboundLocalError` — the `.error` case. -/
def FPTree.nodesOf (t : FPTree) (i : Item) : Except Unit (List Nat) :=
  match t.hyperlinks.lookup i with
  | some (h, _) => .ok (t.chainFrom t.nodes.size h)
  | none => .error ()

/-- `FPTree.items`: iterate the `hyperlinks` dict in key-insertion order. -/
def FPTree.itemKeys (t : FPTree) : List Item :=
  t.hyperlinks.map Prod.fst

/-- The `while not node.root and node:` upward walk of `prefix_paths`,
collecting `[node] + path` (shallow to deep, the start node last), with fuel.
Parents are always earlier-created nodes, so `t.nodes.size` fuel suffices.
Every non-root node of a tree built by this file has a parent, so the
`none` parent fallback is unreachable there. -/
def FPTree.pathTo (t : FPTree) : Nat → Nat → List Nat
  | 0, _ => []
  | fuel + 1, nid =>
    if (t.nodeAt nid).isRoot then []
    else
      match (t.nodeAt nid).parent with
      | none => [nid]
      | some p => t.pathTo fuel p ++ [nid]

/-- `FPTree.prefix_paths`: one upward path per node of the item's linked
list; fails exactly when `self.nodes(item)` raises (item absent). -/
def FPTree.prefix_paths (t : FPTree) (i : Item) :
    Except Unit (List (List Nat)) :=
  (t.nodesOf i).map (fun ns => ns.map (t.pathTo t.nodes.size))

/-- What `project` reads from a node of an incoming prefix path: its `item`
and its `support`.  Path nodes are never the root, so both fields are `some`
and the defaults are never reached. -/
structure PathNode where
  item : Item
  support : Nat
deriving Repr, DecidableEq, Inhabited

/-- Extract the data `project` consumes from a path of node ids. -/
def pathData (t : FPTree) (path : List Nat) : List PathNode :=
  path.map (fun nid =>
    { item := (t.nodeAt nid).item.getD 0,
      support := (t.nodeAt nid).support.getD 0 })

/-- Python truthiness of the `seed` variable of `project`: it starts as
`False` (modelled `none`) and afterwards holds an item; `bool(seed)` is
`False` for `False` and for the item `0`. -/
def seedTruthy : Option Item → Bool
  | none => false
  | some v => v != 0

/-- The inner loop of `project`: walk one path from the root of the new
tree, creating the missing nodes; a created node whose item equals the
current seed receives the original node's support, every other created node
receives support 0.  (The local `itemset` accumulator of `project` is dead
code and is not modelled.) -/
def FPTree.insertPath (t : FPTree) (seed : Item) (cur : Nat) :
    List PathNode → FPTree
  | [] => t
  | pn :: rest =>
    match (t.nodeAt cur).search pn.item with
    | some nxt => t.insertPath seed nxt rest
    | none =>
      let s := if pn.item == seed then pn.support else 0
      let (t1, nxt) := t.attach cur pn.item s
      t1.insertPath seed nxt rest

/-- One iteration of the outer loop of `project`: when `seed` is falsy it is
(re)assigned from `path[-1].item` — an `IndexError` (the `.error` case) if
that path is empty — and then the path is inserted under the current seed. -/
def projectStep (t : FPTree) (seed : Option Item) (path : List PathNode) :
    Except Unit (FPTree × Option Item) :=
  if seedTruthy seed then
    .ok (t.insertPath (seed.getD 0) 0 path, seed)
  else
    match path.getLast? with
    | none => .error ()
    | some pn => .ok (t.insertPath pn.item 0 path, some pn.item)

/-- The insertion pass of `project`: fold `projectStep` over the paths,
threading the new tree and the `seed` variable. -/
def projectBuild (paths : List (List PathNode)) :
    Except Unit (FPTree × Option Item) :=
  paths.foldlM (fun ts path => projectStep ts.1 ts.2 path)
    (FPTree.new, (none : Option Item))

/-- The final `seed` value computed by `project`'s insertion pass. -/
def projectSeed (paths : List (List PathNode)) : Except Unit (Option Item) :=
  (projectBuild paths).map (·.2)

/-- One iteration of the support-propagation pass of `project`: read the
seed node's support (`path[-1].support`, on a never-empty path) once, then
add it to every ancestor on the path, deepest first (`path[:-1][::-1]`). -/
def propagateOne (t : FPTree) (path : List Nat) : FPTree :=
  match path.getLast? with
  | none => t
  | some lastId =>
    let s := ((t.nodeAt lastId).support).getD 0
    (path.dropLast.reverse).foldl
      (fun t2 nid => t2.setNode nid
        { t2.nodeAt nid with support := (t2.nodeAt nid).support.map (· + s) })
      t

/-- `project`: insertion pass, then the upward support-propagation pass over
`new_tree.prefix_paths(seed)`.  When the path list is empty, `seed` is still
`False` and `prefix_paths(False)` raises (unbound local in `nodes`). -/
def project (paths : List (List PathNode)) : Except Unit FPTree :=
  match projectBuild paths with
  | .error _ => .error ()
  | .ok (t, seed) =>
    match seed with
    | none => .error ()
    | some v =>
      match t.prefix_paths v with
      | .error _ => .error ()
      | .ok ps => .ok (ps.foldl propagateOne t)

/-- Support of an item inside one tree: `sum(n.support for n in nodes)` over
the ids of its linked list.  Non-root nodes always carry `some` support, so
the default is never reached. -/
def chainSupport (t : FPTree) (ns : List Nat) : Nat :=
  (ns.map (fun n => (t.nodeAt n).support.getD 0)).sum

/-- `fp_search`, fueled: the outer `for item, nodes in tree.items()` loop is
structural recursion over the remaining keys (the `rec` parameter is the
recursive descent at one unit less fuel).  `none` means the fuel ran out
(the Python function, being recursive, has no such bound; sufficient fuel is
established separately) — the unreachable `Except.error` branches of the
helpers are also mapped to `none`. -/
def fpSearchKeys
    (rec : FPTree → List Item → Option (List (List Item × Nat)))
    (t : FPTree) (eps : Nat) (suffix : List Item) :
    List Item → Option (List (List Item × Nat))
  | [] => some []
  | i :: ks =>
    match t.nodesOf i with
    | .error _ => none
    | .ok ns =>
      let ts := chainSupport t ns
      if eps ≤ ts ∧ i ∉ suffix then
        match t.prefix_paths i with
        | .error _ => none
        | .ok ps =>
          match project (ps.map (pathData t)) with
          | .error _ => none
          | .ok pt =>
            match rec pt (i :: suffix) with
            | none => none
            | some sub =>
              match fpSearchKeys rec t eps suffix ks with
              | none => none
              | some rest => some (((i :: suffix), ts) :: sub ++ rest)
      else fpSearchKeys rec t eps suffix ks

/-- The recursion of `fp_search`: one unit of fuel per recursive descent
into a projected tree. -/
def fpSearch : Nat → FPTree → Nat → List Item → Option (List (List Item × Nat))
  | 0, _, _, _ => none
  | fuel + 1, t, eps, suffix =>
    fpSearchKeys (fun pt suf => fpSearch fuel pt eps suf) t eps suffix
      t.itemKeys

/-- `fp_search(tree, epsilon)` with the default empty suffix, fueled. -/
def fp_search (fuel : Nat) (t : FPTree) (eps : Nat) :
    Option (List (List Item × Nat)) :=
  fpSearch fuel t eps []

/-- The concrete scenario of the spec: transactions
`[{1,2,3},{1,2},{1,3},{2,3},{1,2,3,4}]` pre-filtered (item 4 removed at
threshold 3) and reordered by descending global support `1:4, 2:4, 3:4`. -/
def demoTransactions : List (List Item) :=
  [[1, 2, 3], [1, 2], [1, 3], [2, 3], [1, 2, 3]]

/-- The tree the demo scenario builds. -/
def demoTree : FPTree :=
  buildTree demoTransactions

/-- The itemsets the demo scenario must discover, in emission order. -/
def demoExpected : List (List Item × Nat) :=
  [([1], 4), ([2], 4), ([1, 2], 3), ([3], 4), ([1, 3], 3), ([2, 3], 3)]

/-!
Semantic functions used to state and prove properties of the embedding.
-/

/-- All node ids of a tree carrying a given item, in creation
(= insertion) order. -/
def itemIds (t : FPTree) (i : Item) : List Nat :=
  (List.range t.nodes.size).filter (fun nid => (t.nodeAt nid).item == some i)

/-- The next node id after `nid` carrying item `i`, if any. -/
def nextSame (t : FPTree) (nid : Nat) (i : Item) : Option Nat :=
  ((List.range t.nodes.size).filter
    (fun m => decide (nid < m) && ((t.nodeAt m).item == some i))).head?

/-- The support a node reports (0 never occurs: non-root nodes always carry
`some` support and the root is never summed). -/
def supAt (t : FPTree) (nid : Nat) : Nat :=
  ((t.nodeAt nid).support).getD 0

/-- Total support an item carries over all of a tree's nodes. -/
def supSum (t : FPTree) (i : Item) : Nat :=
  ((itemIds t i).map (supAt t)).sum

/-- Descend from a node following child pointers along a word of items:
the trie address of a node. -/
def trieFind (t : FPTree) : Nat → List Item → Option Nat
  | nid, [] => some nid
  | nid, i :: rest =>
    match (t.nodeAt nid).search i with
    | some c => trieFind t c rest
    | none => none

/-- `isPre q l` iff `q` is a prefix of `l`. -/
def isPre (q l : List Item) : Bool :=
  l.take q.length == q

/-- How many transactions start with the word `q`. -/
def prefixCount (ts : List (List Item)) (q : List Item) : Nat :=
  ts.countP (isPre q)

/-- The word of items along the rootward path of a node. -/
def itemPath (t : FPTree) (nid : Nat) : List Item :=
  (t.pathTo t.nodes.size nid).map (fun m => ((t.nodeAt m).item).getD 0)

/-- Number of distinct items of the tree not yet fixed in the suffix: the
measure that shrinks across recursive `fp_search` calls. -/
def liveKeys (t : FPTree) (suffix : List Item) : Nat :=
  (t.itemKeys.filter (fun i => decide (i ∉ suffix))).length

/-- The support `project` reads off the seed node of an incoming path:
`path[-1].support` (paths are never empty when it is read). -/
def lastSup (q : List PathNode) : Nat :=
  ((q.getLast?).map PathNode.support).getD 0

/-- Structural well-formedness of a tree: the invariants every tree reachable
by the operations of `fpgrowth.py` maintains.  Node ids are creation order;
parents are older than children; the `children` dicts and the `hyperlinks`
dict have unique keys and agree with the `item`/`parent`/`link` fields; each
item's linked list threads exactly its nodes in creation order. -/
structure WF (t : FPTree) : Prop where
  size_pos : 0 < t.nodes.size
  root_item : (t.nodeAt 0).item = none
  root_support : (t.nodeAt 0).support = none
  nonroot_item : ∀ nid, 0 < nid → nid < t.nodes.size →
    ((t.nodeAt nid).item).isSome
  nonroot_support : ∀ nid, 0 < nid → nid < t.nodes.size →
    ((t.nodeAt nid).support).isSome
  nonroot_parent : ∀ nid, 0 < nid → nid < t.nodes.size →
    ∃ p, (t.nodeAt nid).parent = some p ∧ p < nid
  children_wf : ∀ nid, nid < t.nodes.size → ∀ i c,
    (i, c) ∈ (t.nodeAt nid).children →
    nid < c ∧ c < t.nodes.size ∧ (t.nodeAt c).item = some i ∧
      (t.nodeAt c).parent = some nid
  children_keys : ∀ nid, nid < t.nodes.size →
    (((t.nodeAt nid).children).map Prod.fst).Nodup
  parent_lookup : ∀ nid, 0 < nid → nid < t.nodes.size → ∀ i p,
    (t.nodeAt nid).item = some i → (t.nodeAt nid).parent = some p →
    (t.nodeAt p).children.lookup i = some nid
  link_next : ∀ nid, nid < t.nodes.size → ∀ i,
    (t.nodeAt nid).item = some i → (t.nodeAt nid).link = nextSame t nid i
  hyper_keys : (t.hyperlinks.map Prod.fst).Nodup
  hyper_lookup : ∀ i h tl, t.hyperlinks.lookup i = some (h, tl) →
    (itemIds t i).head? = some h ∧ (itemIds t i).getLast? = some tl
  hyper_complete : ∀ i, itemIds t i ≠ [] → (t.hyperlinks.lookup i).isSome

/-- The trees reachable by the program: a fresh tree, insertion of a
transaction, and projection of the prefix paths of an item of a reachable
tree (the only way `project` is invoked by `fp_search`). -/
inductive Built : FPTree → Prop
  | new : Built FPTree.new
  | add (t : FPTree) (l : List Item) : Built t → Built (t.add_transaction l)
  | proj (t : FPTree) (i : Item) (ps : List (List Nat)) (ct : FPTree) :
      Built t → t.prefix_paths i = .ok ps →
      project (ps.map (pathData t)) = .ok ct → Built ct

/-!
Closed forms for the tree obtained by inserting a single (duplicate-free)
transaction into a fresh tree once and twice.
-/

/-- The node a single-chain tree holds at depth `k + 1`: item `i`, support
`c`, parent at depth `k`, one child (the next chain node) or none. -/
def chainCell (i : Item) (c : Nat) (k : Nat) (nxt : Option Item) : FPNode :=
  { item := some i, support := some c, parent := some k,
    children := match nxt with | none => [] | some j => [(j, k + 2)],
    link := none }

/-- The non-root nodes of a single-chain tree for the items `l`, all with
support `c`, starting at depth `k`. -/
def chainNodes : List Item → Nat → Nat → List FPNode
  | [], _, _ => []
  | i :: rest, c, k => chainCell i c k rest.head? :: chainNodes rest c (k + 1)

/-- The root node of a single-chain tree. -/
def chainRoot (l : List Item) : FPNode :=
  { item := none, support := none, parent := none,
    children := match l with | [] => [] | i :: _ => [(i, 1)], link := none }

/-- The `hyperlinks` dict of a single-chain tree over duplicate-free items:
every item's list is the singleton of its chain node. -/
def chainLinks : List Item → Nat → List (Item × (Nat × Nat))
  | [], _ => []
  | i :: rest, k => (i, (k + 1, k + 1)) :: chainLinks rest (k + 1)

/-- The tree built by inserting the duplicate-free transaction `l` into a
fresh tree, with every non-root support equal to `c`. -/
def chainTree (l : List Item) (c : Nat) : FPTree :=
  { nodes := (chainRoot l :: chainNodes l c 0).toArray,
    hyperlinks := chainLinks l 0 }

/-- A single-chain tree mid-way through its second insertion: the first
`done` nodes already re-visited (support `c + 1`), the rest still at `c`. -/
def chainNodes2 : List Item → List Item → Nat → Nat → List FPNode
  | [], todo, c, k => chainNodes todo c k
  | i :: d, todo, c, k =>
      chainCell i (c + 1) k ((d ++ todo).head?) :: chainNodes2 d todo c (k + 1)

/-- The whole-tree version of `chainNodes2`. -/
def chainTree2 (done todo : List Item) (c : Nat) : FPTree :=
  { nodes := (chainRoot (done ++ todo) :: chainNodes2 done todo c 0).toArray,
    hyperlinks := chainLinks (done ++ todo) 0 }

/-- What `attach` does to the pre-existing node `m` of a tree: the target of
the insertion gains a child entry for the fresh node, and (when the item
already has a linked list) the old tail's `link` is pointed at the fresh
node.  Both can hit the same node. -/
def attachSpecNode (t : FPTree) (pid : Nat) (i : Item) (m : Nat) : FPNode :=
  let b := t.nodeAt m
  let b1 := if m = pid then
    { b with children := b.children ++ [(i, t.nodes.size)] } else b
  match t.hyperlinks.lookup i with
  | some (_, tl) => if m = tl then { b1 with link := some t.nodes.size } else b1
  | none => b1

/-!
Basic lemmas about the arena primitives and association lists.
-/

theorem FPTree.size_setNode (t : FPTree) (nid : Nat) (n : FPNode) :
    (t.setNode nid n).nodes.size = t.nodes.size :=
  Array.size_setD ..

theorem FPTree.hyperlinks_setNode (t : FPTree) (nid : Nat) (n : FPNode) :
    (t.setNode nid n).hyperlinks = t.hyperlinks := rfl

theorem FPTree.nodeAt_setNode (t : FPTree) (nid m : Nat) (n : FPNode) :
    (t.setNode nid n).nodeAt m =
      if nid = m ∧ nid < t.nodes.size then n else t.nodeAt m := by
  unfold FPTree.setNode FPTree.nodeAt Array.setD
  by_cases hlt : nid < t.nodes.size
  · simp only [dif_pos hlt]
    show (t.nodes.set ⟨nid, hlt⟩ n).getD m default = _
    unfold Array.getD
    by_cases hm : m < t.nodes.size
    · simp only [Array.size_set, dif_pos hm, Array.get_eq_getElem]
      rw [Array.get_set _ _ _ hm]
      by_cases he : nid = m
      · simp [he, hlt, hm]
      · simp [he]
    · simp only [Array.size_set, dif_neg hm]
      have h2 : ¬(nid = m ∧ nid < t.nodes.size) := by
        rintro ⟨rfl, h⟩; exact hm h
      simp [h2]
  · simp only [dif_neg hlt]
    have h2 : ¬(nid = m ∧ nid < t.nodes.size) := by tauto
    show t.nodes.getD m default = _
    simp [h2, FPTree.nodeAt]

theorem FPTree.nodeAt_default (t : FPTree) (m : Nat) (h : t.nodes.size ≤ m) :
    t.nodeAt m = default := by
  unfold FPTree.nodeAt Array.getD
  simp [Nat.not_lt.mpr h]

theorem FPTree.newNode_snd (t : FPTree) (i : Item) (s : Nat) :
    (t.newNode i s).2 = t.nodes.size := rfl

theorem FPTree.newNode_size (t : FPTree) (i : Item) (s : Nat) :
    (t.newNode i s).1.nodes.size = t.nodes.size + 1 :=
  Array.size_push ..

theorem FPTree.newNode_hyperlinks (t : FPTree) (i : Item) (s : Nat) :
    (t.newNode i s).1.hyperlinks = t.hyperlinks := rfl

theorem FPTree.nodeAt_newNode (t : FPTree) (i : Item) (s : Nat) (m : Nat) :
    (t.newNode i s).1.nodeAt m =
      if m = t.nodes.size then
        { item := some i, support := some s, parent := none,
          children := [], link := none }
      else t.nodeAt m := by
  unfold FPTree.newNode FPTree.nodeAt
  unfold Array.getD
  by_cases hm : m < t.nodes.size + 1
  · simp only [Array.size_push, dif_pos hm, Array.get_eq_getElem, Array.getElem_push]
    by_cases h2 : m < t.nodes.size
    · have h3 : m ≠ t.nodes.size := by omega
      simp [h2, h3, dif_pos h2]
    · have h3 : m = t.nodes.size := by omega
      simp [h2, h3]
  · have h2 : ¬ m < t.nodes.size := by omega
    have h3 : m ≠ t.nodes.size := by omega
    simp only [Array.size_push, dif_neg hm, dif_neg h2, if_neg h3]

theorem lookup_cons {β : Type} (k : Item) (w : β) (rest : List (Item × β))
    (i : Item) :
    ((k, w) :: rest).lookup i = if i = k then some w else rest.lookup i := by
  by_cases h : i = k
  · subst h
    simp [List.lookup]
  · have hbe : (i == k) = false := by simp [h]
    simp [List.lookup, hbe, h]

theorem replaceAssoc_cons (k : Item) (w : Nat × Nat)
    (rest : List (Item × (Nat × Nat))) (i : Item) (v : Nat × Nat) :
    replaceAssoc ((k, w) :: rest) i v =
      (if k = i then (k, v) else (k, w)) :: replaceAssoc rest i v := by
  by_cases h : k = i
  · simp [replaceAssoc, h]
  · simp [replaceAssoc, h]

theorem lookup_eq_none_iff {β : Type} (l : List (Item × β)) (i : Item) :
    l.lookup i = none ↔ i ∉ l.map Prod.fst := by
  induction l with
  | nil => simp [List.lookup]
  | cons kv rest ih =>
    obtain ⟨k, v⟩ := kv
    rw [lookup_cons]
    by_cases h : i = k
    · subst h; simp
    · simp [h, ih]

theorem lookup_append {β : Type} (l₁ l₂ : List (Item × β)) (i : Item) :
    (l₁ ++ l₂).lookup i =
      match l₁.lookup i with
      | some v => some v
      | none => l₂.lookup i := by
  induction l₁ with
  | nil => simp [List.lookup]
  | cons kv rest ih =>
    obtain ⟨k, v⟩ := kv
    rw [List.cons_append, lookup_cons, lookup_cons]
    by_cases h : i = k
    · simp [h]
    · simp [h, ih]

theorem lookup_mem {β : Type} (l : List (Item × β)) (i : Item) (v : β)
    (h : l.lookup i = some v) : (i, v) ∈ l := by
  induction l with
  | nil => simp [List.lookup] at h
  | cons kv rest ih =>
    obtain ⟨k, w⟩ := kv
    rw [lookup_cons] at h
    by_cases he : i = k
    · subst he
      simp at h
      simp [h]
    · rw [if_neg he] at h
      simp [ih h]

theorem lookup_of_mem {β : Type} (l : List (Item × β)) (i : Item) (v : β)
    (hnd : (l.map Prod.fst).Nodup) (h : (i, v) ∈ l) : l.lookup i = some v := by
  induction l with
  | nil => simp at h
  | cons kv rest ih =>
    obtain ⟨k, w⟩ := kv
    simp only [List.map_cons, List.nodup_cons] at hnd
    rw [lookup_cons]
    rcases List.mem_cons.mp h with h1 | h1
    · obtain ⟨rfl, rfl⟩ := Prod.mk.injEq .. ▸ h1
      simp
    · have hik : i ≠ k := by
        rintro rfl
        exact hnd.1 (List.mem_map.mpr ⟨(i, v), h1, rfl⟩)
      simp [hik, ih hnd.2 h1]

theorem replaceAssoc_map_fst (l : List (Item × (Nat × Nat))) (i : Item)
    (v : Nat × Nat) : (replaceAssoc l i v).map Prod.fst = l.map Prod.fst := by
  induction l with
  | nil => rfl
  | cons kv rest ih =>
    obtain ⟨k, w⟩ := kv
    rw [replaceAssoc_cons]
    by_cases h : k = i <;> simp [h, ih]

theorem lookup_replaceAssoc_self (l : List (Item × (Nat × Nat))) (i : Item)
    (v : Nat × Nat) :
    (replaceAssoc l i v).lookup i = (l.lookup i).map (fun _ => v) := by
  induction l with
  | nil => rfl
  | cons kv rest ih =>
    obtain ⟨k, w⟩ := kv
    rw [replaceAssoc_cons]
    by_cases h : k = i
    · subst h
      simp only [if_pos rfl]
      rw [lookup_cons, lookup_cons]
      simp
    · have h2 : i ≠ k := Ne.symm h
      simp only [if_neg h]
      rw [lookup_cons, lookup_cons, if_neg h2, if_neg h2, ih]

theorem lookup_replaceAssoc_ne (l : List (Item × (Nat × Nat))) (i j : Item)
    (v : Nat × Nat) (hij : j ≠ i) :
    (replaceAssoc l i v).lookup j = l.lookup j := by
  induction l with
  | nil => rfl
  | cons kv rest ih =>
    obtain ⟨k, w⟩ := kv
    rw [replaceAssoc_cons]
    by_cases h : k = i
    · subst h
      simp only [if_pos rfl, if_true]
      rw [lookup_cons, lookup_cons, if_neg hij, if_neg hij, ih]
    · simp only [if_neg h]
      rw [lookup_cons, lookup_cons, ih]

/-!
Helper for the `project` seed analysis (claim C5).
-/

theorem projectBuild_const_seed (paths : List (List PathNode)) (t : FPTree)
    (v : Item)
    (hall : ∀ p ∈ paths, (p.getLast?).map PathNode.item = some v) :
    paths.foldlM (fun ts path => projectStep ts.1 ts.2 path) (t, some v) =
      .ok (paths.foldl (fun t2 p => t2.insertPath v 0 p) t, some v) := by
  induction paths generalizing t with
  | nil => rfl
  | cons p rest ih =>
    have hp := hall p (List.mem_cons_self ..)
    have hrest : ∀ q ∈ rest, (q.getLast?).map PathNode.item = some v :=
      fun q hq => hall q (List.mem_cons_of_mem _ hq)
    rw [List.foldlM_cons]
    have hstep : projectStep t (some v) p = .ok (t.insertPath v 0 p, some v) := by
      unfold projectStep
      by_cases hv : v = 0
      · subst hv
        match hlast : p.getLast? with
        | none => rw [hlast] at hp; simp at hp
        | some q =>
          rw [hlast] at hp
          have hq : q.item = 0 := by simpa using hp
          simp [seedTruthy, hlast, hq]
      · simp [seedTruthy, hv]
    rw [hstep]
    simpa [List.foldl_cons] using ih _ hrest

/-- C5, counterexample.  The claim says the seed used by `project` is the
item of the last node of the first path, for every non-empty path sequence.
With paths `[[(item 0, supp 1)], [(item 5, supp 1)]]` the first path's last
node has item `0`, but `bool(0)` is falsy in Python, so the loop re-assigns
`seed` and the seed actually used for the final propagation pass is `5`. -/
theorem c5_seed_counterexample :
    projectSeed [[{ item := 0, support := 1 }], [{ item := 5, support := 1 }]]
        = .ok (some 5) ∧
      (([[{ item := 0, support := 1 }], [{ item := 5, support := 1 }]] :
          List (List PathNode)).head?.bind List.getLast?).map PathNode.item
        = some 0 ∧
      (5 : Item) ≠ 0 := by
  decide

/-- C5, amended: when every path passed to `project` ends in a node of one
common item — as `prefix_paths`, the only caller, guarantees — the seed used
to assign supports for every inserted path and the seed used for the final
upward propagation pass is exactly the item of the last node of the first
path (even when that item is the falsy `0`). -/
theorem c5_seed_of_first_path (paths : List (List PathNode))
    (p0 : List PathNode) (pn : PathNode)
    (h0 : paths.head? = some p0) (hl : p0.getLast? = some pn)
    (hall : ∀ p ∈ paths, (p.getLast?).map PathNode.item = some pn.item) :
    projectSeed paths = .ok (some pn.item) ∧
    projectBuild paths =
      .ok (paths.foldl (fun t p => t.insertPath pn.item 0 p) FPTree.new,
           some pn.item) := by
  rcases paths with _ | ⟨q0, rest⟩
  · simp at h0
  · have hq : q0 = p0 := by simpa using h0
    subst hq
    have hrest : ∀ q ∈ rest, (q.getLast?).map PathNode.item = some pn.item :=
      fun q hq => hall q (List.mem_cons_of_mem _ hq)
    have hbuild : projectBuild (q0 :: rest) =
        .ok ((q0 :: rest).foldl
              (fun t p => t.insertPath pn.item 0 p) FPTree.new,
             some pn.item) := by
      unfold projectBuild
      rw [List.foldlM_cons]
      have hstep : projectStep FPTree.new none q0 =
          .ok (FPTree.new.insertPath pn.item 0 q0, some pn.item) := by
        unfold projectStep
        simp [seedTruthy, hl]
      rw [hstep]
      simpa [List.foldl_cons] using
        projectBuild_const_seed rest (FPTree.new.insertPath pn.item 0 q0)
          pn.item hrest
    refine ⟨?_, hbuild⟩
    unfold projectSeed
    rw [hbuild]
    rfl

/-- C5, witness for the amended theorem: two paths both ending in the falsy
item `0`; the seed stays `0`, the item of the last node of the first path. -/
theorem c5_seed_of_first_path_witness :
    projectSeed [[{ item := 0, support := 1 }],
                 [{ item := 3, support := 2 }, { item := 0, support := 1 }]]
        = .ok (some 0) ∧
    projectBuild [[{ item := 0, support := 1 }],
                  [{ item := 3, support := 2 }, { item := 0, support := 1 }]]
        = .ok ([[{ item := 0, support := 1 }],
                [{ item := 3, support := 2 }, { item := 0, support := 1 }]].foldl
                 (fun t p => t.insertPath 0 0 p) FPTree.new,
               some 0) :=
  c5_seed_of_first_path
    [[{ item := 0, support := 1 }],
     [{ item := 3, support := 2 }, { item := 0, support := 1 }]]
    [{ item := 0, support := 1 }] { item := 0, support := 1 }
    (by decide) (by decide) (by decide)

/-- C1: on the concrete scenario (transactions pre-filtered at threshold 3
and reordered by descending global support), `fp_search` with epsilon 3 on
the tree built by `add_transaction` emits exactly `{1}:4, {2}:4, {3}:4,
`{1,2}:3, {1,3}:3, {2,3}:3` (in generator order), and emits neither
`{1,2,3}` nor any itemset containing item 4. -/
theorem c1_concrete_scenario :
    fp_search 10 demoTree 3 = some demoExpected ∧
    (∀ p ∈ demoExpected,
      ¬((1 : Item) ∈ p.1 ∧ (2 : Item) ∈ p.1 ∧ (3 : Item) ∈ p.1) ∧
      (4 : Item) ∉ p.1) := by
  decide

/-- C9: the support-increment operation on a root node — the node whose
`item` and `support` are both absent, per the code's own `root` test —
raises (`TypeError`: `None + 1`) rather than silently completing. -/
theorem c9_increment_on_root_errors (n : FPNode) (h : n.isRoot = true) :
    n.increment_node_support = .error () := by
  unfold FPNode.isRoot at h
  have hs : n.support = none := by
    rcases hsup : n.support with _ | s
    · rfl
    · rw [hsup] at h
      simp at h
  unfold FPNode.increment_node_support
  rw [hs]

/-- C9, witness: the root of a fresh tree. -/
theorem c9_increment_on_root_errors_witness :
    FPTree.new.root.isRoot = true ∧
      FPTree.new.root.increment_node_support = .error () :=
  ⟨by decide, c9_increment_on_root_errors FPTree.new.root (by decide)⟩

/-- C10: consuming `FPTree.nodes(item)` for an item absent from the item
index raises (`UnboundLocalError`) instead of yielding an empty sequence;
and whenever it does yield, the sequence is non-empty — absence is never
reported as emptiness. -/
theorem c10_nodes_absent_item_raises (t : FPTree) (i : Item) :
    (t.hyperlinks.lookup i = none → t.nodesOf i = .error ()) ∧
    (0 < t.nodes.size → ∀ ns, t.nodesOf i = .ok ns → ns ≠ []) := by
  constructor
  · intro h
    unfold FPTree.nodesOf
    rw [h]
  · intro hpos ns h
    unfold FPTree.nodesOf at h
    rcases hl : t.hyperlinks.lookup i with _ | ⟨h1, tl⟩
    · rw [hl] at h
      exact absurd h (by simp)
    · rw [hl] at h
      obtain rfl : t.chainFrom t.nodes.size h1 = ns := by
        simpa using h
      match hsz : t.nodes.size, hpos with
      | fuel + 1, _ => simp [FPTree.chainFrom]

/-- C10, witness: in the demo tree, item 7 is absent and `nodes(7)` raises;
item 1 is present and its node sequence is non-empty. -/
theorem c10_nodes_absent_item_raises_witness :
    demoTree.nodesOf 7 = .error () ∧
      ((demoTree.nodesOf 1 = .ok [1]) ∧ ([1] : List Nat) ≠ []) :=
  ⟨(c10_nodes_absent_item_raises demoTree 7).1 (by decide),
   by decide,
   (c10_nodes_absent_item_raises demoTree 1).2 (by decide) [1] (by decide)⟩

theorem FPTree.nodeAt_hyperSet (t : FPTree) (x : List (Item × (Nat × Nat)))
    (m : Nat) : (FPTree.mk t.nodes x).nodeAt m = t.nodeAt m := rfl

theorem attach_spec (t : FPTree) (pid : Nat) (i : Item) (s : Nat)
    (hpid : pid < t.nodes.size)
    (hmiss : (t.nodeAt pid).children.lookup i = none)
    (htl : ∀ h0 tl, t.hyperlinks.lookup i = some (h0, tl) →
      tl < t.nodes.size) :
    (t.attach pid i s).2 = t.nodes.size ∧
    (t.attach pid i s).1.nodes.size = t.nodes.size + 1 ∧
    (t.attach pid i s).1.nodeAt t.nodes.size =
      { item := some i, support := some s, parent := some pid,
        children := [], link := none } ∧
    (∀ m, m < t.nodes.size →
      (t.attach pid i s).1.nodeAt m = attachSpecNode t pid i m) ∧
    (t.attach pid i s).1.hyperlinks =
      (match t.hyperlinks.lookup i with
       | some (h0, _) => replaceAssoc t.hyperlinks i (h0, t.nodes.size)
       | none => t.hyperlinks ++ [(i, (t.nodes.size, t.nodes.size))]) := by
  have hne : pid ≠ t.nodes.size := Nat.ne_of_lt hpid
  set t1 := (t.newNode i s).1 with ht1
  have h1size : t1.nodes.size = t.nodes.size + 1 := FPTree.newNode_size ..
  have h1at : ∀ m, t1.nodeAt m =
      if m = t.nodes.size then
        { item := some i, support := some s, parent := none,
          children := [], link := none }
      else t.nodeAt m := fun m => FPTree.nodeAt_newNode ..
  have h1hl : t1.hyperlinks = t.hyperlinks := rfl
  have hattach : t.attach pid i s =
      ((t1.addChild pid t.nodes.size).update_route t.nodes.size,
        t.nodes.size) := rfl
  have hac : t1.addChild pid t.nodes.size =
      (t1.setNode pid { t1.nodeAt pid with
          children := (t1.nodeAt pid).children ++ [(i, t.nodes.size)] }).setNode
        t.nodes.size
        { ((t1.setNode pid { t1.nodeAt pid with
            children := (t1.nodeAt pid).children ++ [(i, t.nodes.size)] }).nodeAt
            t.nodes.size)
          with parent := some pid } := by
    unfold FPTree.addChild
    rw [h1at t.nodes.size, if_pos rfl]
    simp only []
    rw [h1at pid, if_neg hne, hmiss]
    rfl
  set t2 := t1.addChild pid t.nodes.size with ht2
  have h2size : t2.nodes.size = t.nodes.size + 1 := by
    rw [hac, FPTree.size_setNode, FPTree.size_setNode, h1size]
  have h2hl : t2.hyperlinks = t.hyperlinks := by
    rw [hac, FPTree.hyperlinks_setNode, FPTree.hyperlinks_setNode, h1hl]
  have h2at_nid : t2.nodeAt t.nodes.size =
      { item := some i, support := some s, parent := some pid,
        children := [], link := none } := by
    rw [hac, FPTree.nodeAt_setNode]
    rw [if_pos ⟨rfl, by rw [FPTree.size_setNode, h1size]; omega⟩]
    rw [FPTree.nodeAt_setNode, if_neg (fun hc => hne hc.1)]
    rw [h1at t.nodes.size, if_pos rfl]
  have h2at_m : ∀ m, m < t.nodes.size → t2.nodeAt m =
      if m = pid then
        { t.nodeAt pid with
          children := (t.nodeAt pid).children ++ [(i, t.nodes.size)] }
      else t.nodeAt m := by
    intro m hm
    have hmne : m ≠ t.nodes.size := by omega
    rw [hac, FPTree.nodeAt_setNode,
      if_neg (fun hc => hmne hc.1.symm)]
    rw [FPTree.nodeAt_setNode]
    by_cases hmp : m = pid
    · subst hmp
      rw [if_pos ⟨rfl, by rw [h1size]; omega⟩, h1at m, if_neg hmne]
      simp
    · rw [if_neg (fun hc => hmp hc.1.symm), h1at m, if_neg hmne]
      simp [hmp]
  rcases hlook : t.hyperlinks.lookup i with _ | ⟨h0, tl⟩
  · -- the item is new to the index
    have hlook2 : t2.hyperlinks.lookup i = none := by
      rw [h2hl]; exact hlook
    have hur : t2.update_route t.nodes.size =
        { t2 with hyperlinks := t2.hyperlinks ++
            [(i, (t.nodes.size, t.nodes.size))] } := by
      unfold FPTree.update_route
      rw [h2at_nid]
      simp only []
      rw [hlook2]
    refine ⟨rfl, ?_, ?_, ?_, ?_⟩
    · rw [hattach]
      simp only []
      rw [hur]
      show t2.nodes.size = _
      exact h2size
    · rw [hattach]
      simp only []
      rw [hur, FPTree.nodeAt_hyperSet]
      exact h2at_nid
    · intro m hm
      rw [hattach]
      simp only []
      rw [hur, FPTree.nodeAt_hyperSet, h2at_m m hm]
      simp only [attachSpecNode, hlook]
      by_cases hmp : m = pid
      · subst hmp; simp
      · simp [hmp]
    · rw [hattach]
      simp only []
      rw [hur]
      show t2.hyperlinks ++ _ = _
      rw [h2hl]
  · -- the item already has a linked list; the old tail gains a link
    have htl' : tl < t.nodes.size := htl h0 tl hlook
    have htlne : tl ≠ t.nodes.size := by omega
    have hlook2 : t2.hyperlinks.lookup i = some (h0, tl) := by
      rw [h2hl]; exact hlook
    have hur : t2.update_route t.nodes.size =
        { (t2.setNode tl { t2.nodeAt tl with link := some t.nodes.size }) with
          hyperlinks := replaceAssoc t2.hyperlinks i (h0, t.nodes.size) } := by
      unfold FPTree.update_route
      rw [h2at_nid]
      simp only []
      rw [hlook2]
      rfl
    refine ⟨rfl, ?_, ?_, ?_, ?_⟩
    · rw [hattach]
      simp only []
      rw [hur]
      show (t2.setNode tl _).nodes.size = _
      rw [FPTree.size_setNode, h2size]
    · rw [hattach]
      simp only []
      rw [hur, FPTree.nodeAt_hyperSet, FPTree.nodeAt_setNode,
        if_neg (fun hc => htlne hc.1)]
      exact h2at_nid
    · intro m hm
      rw [hattach]
      simp only []
      rw [hur, FPTree.nodeAt_hyperSet, FPTree.nodeAt_setNode]
      simp only [attachSpecNode, hlook]
      by_cases hmt : m = tl
      · subst hmt
        rw [if_pos ⟨rfl, by rw [h2size]; omega⟩]
        rw [h2at_m m hm]
        by_cases hmp : m = pid
        · subst hmp; simp
        · simp [hmp]
      · rw [if_neg (fun hc => hmt hc.1.symm), h2at_m m hm]
        by_cases hmp : m = pid
        · subst hmp; simp [hmt]
        · simp [hmp, hmt]
    · rw [hattach]
      simp only []
      rw [hur]
      show replaceAssoc t2.hyperlinks i (h0, t.nodes.size) = _
      rw [h2hl]

/-- C3: one step of the `add_transaction` walk.  At position `p` with next
item `i`: on a hit, the existing child's support is incremented by 1, nothing
else changes, and the walk descends into that child; on a miss, a fresh node
with support 1 is created at the next free id, attached as a child of `p`
(its parent set to `p`, the child entry appended), registered into the item
index — extending the item's linked list at its tail, or creating a new
singleton entry — and the walk descends into it. -/
theorem c3_add_transaction_step (t : FPTree) (p : Nat) (i : Item)
    (rest : List Item) (hp : p < t.nodes.size)
    (htl : ∀ h0 tl, t.hyperlinks.lookup i = some (h0, tl) →
      tl < t.nodes.size) :
    (∀ c, (t.nodeAt p).search i = some c →
      t.addTransactionFrom p (i :: rest) =
        (t.setNode c { t.nodeAt c with
            support := (t.nodeAt c).support.map (· + 1) }).addTransactionFrom
          c rest ∧
      (t.setNode c { t.nodeAt c with
          support := (t.nodeAt c).support.map (· + 1) }).hyperlinks =
        t.hyperlinks ∧
      (t.setNode c { t.nodeAt c with
          support := (t.nodeAt c).support.map (· + 1) }).nodes.size =
        t.nodes.size ∧
      (c < t.nodes.size →
        (t.setNode c { t.nodeAt c with
            support := (t.nodeAt c).support.map (· + 1) }).nodeAt c =
          { t.nodeAt c with
            support := (t.nodeAt c).support.map (· + 1) }) ∧
      (∀ m, m ≠ c →
        (t.setNode c { t.nodeAt c with
            support := (t.nodeAt c).support.map (· + 1) }).nodeAt m =
          t.nodeAt m)) ∧
    ((t.nodeAt p).search i = none →
      t.addTransactionFrom p (i :: rest) =
        (t.attach p i 1).1.addTransactionFrom t.nodes.size rest ∧
      (t.attach p i 1).2 = t.nodes.size ∧
      (t.attach p i 1).1.nodes.size = t.nodes.size + 1 ∧
      (t.attach p i 1).1.nodeAt t.nodes.size =
        { item := some i, support := some 1, parent := some p,
          children := [], link := none } ∧
      ((t.attach p i 1).1.nodeAt p).children =
        (t.nodeAt p).children ++ [(i, t.nodes.size)] ∧
      (t.attach p i 1).1.hyperlinks =
        (match t.hyperlinks.lookup i with
         | some (h0, _) => replaceAssoc t.hyperlinks i (h0, t.nodes.size)
         | none => t.hyperlinks ++ [(i, (t.nodes.size, t.nodes.size))])) := by
  constructor
  · intro c hsearch
    refine ⟨?_, rfl, FPTree.size_setNode .., ?_, ?_⟩
    · show (match (t.nodeAt p).search i with
        | some nxt =>
          (t.setNode nxt { t.nodeAt nxt with
              support := (t.nodeAt nxt).support.map (· + 1) }).addTransactionFrom
            nxt rest
        | none =>
          ((t.attach p i 1).1).addTransactionFrom (t.attach p i 1).2 rest) = _
      rw [hsearch]
    · intro hc
      rw [FPTree.nodeAt_setNode, if_pos ⟨rfl, hc⟩]
    · intro m hm
      rw [FPTree.nodeAt_setNode, if_neg (fun hcon => hm hcon.1.symm)]
  · intro hsearch
    have hmiss : (t.nodeAt p).children.lookup i = none := hsearch
    obtain ⟨ha1, ha2, ha3, ha4, ha5⟩ := attach_spec t p i 1 hp hmiss htl
    refine ⟨?_, ha1, ha2, ha3, ?_, ha5⟩
    · show (match (t.nodeAt p).search i with
        | some nxt =>
          (t.setNode nxt { t.nodeAt nxt with
              support := (t.nodeAt nxt).support.map (· + 1) }).addTransactionFrom
            nxt rest
        | none =>
          ((t.attach p i 1).1).addTransactionFrom (t.attach p i 1).2 rest) = _
      rw [hsearch, ha1]
    · rw [ha4 p hp]
      unfold attachSpecNode
      rcases t.hyperlinks.lookup i with _ | ⟨h0, tl⟩
      · simp
      · by_cases hpt : p = tl
        · simp [hpt]
        · simp [hpt]

/-- C3, witness: in the demo tree, inserting `[2]` from the root hits the
existing item-2 child (node 5) and descends into it after incrementing. -/
theorem c3_add_transaction_step_witness :
    demoTree.addTransactionFrom 0 [2] =
      (demoTree.setNode 5 { demoTree.nodeAt 5 with
          support := (demoTree.nodeAt 5).support.map (· + 1) }).addTransactionFrom
        5 [] :=
  ((c3_add_transaction_step demoTree 0 2 [] (by decide)
      (by
        intro h0 tl h
        have h2 : demoTree.hyperlinks.lookup 2 = some (2, 5) := by decide
        rw [h2] at h
        injection h with h3
        injection h3 with h4 h5
        rw [← h5]
        decide)).1 5 (by decide)).1

theorem size_toArray_eq {α : Type} (xs : List α) : xs.toArray.size = xs.length :=
  rfl

theorem FPTree.nodeAt_ofList (xs : List FPNode)
    (hx : List (Item × (Nat × Nat))) (m : Nat) :
    (FPTree.mk xs.toArray hx).nodeAt m = xs.getD m default := by
  unfold FPTree.nodeAt Array.getD
  by_cases hm : m < xs.length
  · simp only [size_toArray_eq, dif_pos hm, Array.get_eq_getElem,
      List.getElem_toArray]
    rw [List.getD_eq_getElem xs default hm]
  · simp only [size_toArray_eq, dif_neg hm]
    rw [List.getD_eq_default xs default (Nat.le_of_not_lt hm)]

theorem FPTree.eq_of (t1 t2 : FPTree) (hs : t1.nodes.size = t2.nodes.size)
    (hn : ∀ m, m < t1.nodes.size → t1.nodeAt m = t2.nodeAt m)
    (hh : t1.hyperlinks = t2.hyperlinks) : t1 = t2 := by
  obtain ⟨n1, h1⟩ := t1
  obtain ⟨n2, h2⟩ := t2
  simp only [FPTree.mk.injEq]
  refine ⟨?_, hh⟩
  apply Array.ext _ _ hs
  intro m hm1 hm2
  have := hn m hm1
  unfold FPTree.nodeAt Array.getD at this
  simpa [dif_pos hm1, dif_pos hm2] using this

theorem chainNodes_length (l : List Item) (c k : Nat) :
    (chainNodes l c k).length = l.length := by
  induction l generalizing k with
  | nil => rfl
  | cons i rest ih => simp [chainNodes, ih]

theorem chainNodes_getD (l : List Item) (c k m : Nat) (hm : m < l.length) :
    (chainNodes l c k).getD m default =
      chainCell (l.getD m 0) c (k + m) ((l.drop (m + 1)).head?) := by
  induction l generalizing k m with
  | nil => simp at hm
  | cons i rest ih =>
    match m with
    | 0 => simp [chainNodes]
    | m + 1 =>
      have hm2 : m < rest.length := by simpa using hm
      show (chainNodes rest c (k + 1)).getD m default = _
      rw [ih (k + 1) m hm2]
      congr 1
      omega

theorem chainTree_size (l : List Item) (c : Nat) :
    (chainTree l c).nodes.size = l.length + 1 := by
  show (chainRoot l :: chainNodes l c 0).toArray.size = _
  rw [size_toArray_eq]
  simp [chainNodes_length]

theorem chainTree_nodeAt_zero (l : List Item) (c : Nat) :
    (chainTree l c).nodeAt 0 = chainRoot l := by
  rw [show chainTree l c =
    FPTree.mk (chainRoot l :: chainNodes l c 0).toArray (chainLinks l 0) from rfl]
  rw [FPTree.nodeAt_ofList]
  rfl

theorem chainTree_nodeAt_succ (l : List Item) (c m : Nat) (hm : m < l.length) :
    (chainTree l c).nodeAt (m + 1) =
      chainCell (l.getD m 0) c m ((l.drop (m + 1)).head?) := by
  rw [show chainTree l c =
    FPTree.mk (chainRoot l :: chainNodes l c 0).toArray (chainLinks l 0) from rfl]
  rw [FPTree.nodeAt_ofList]
  show (chainNodes l c 0).getD m default = _
  rw [chainNodes_getD l c 0 m hm]
  simp

theorem chainTree_nodeAt_default (l : List Item) (c m : Nat)
    (hm : l.length + 1 ≤ m) : (chainTree l c).nodeAt m = default := by
  apply FPTree.nodeAt_default
  rw [chainTree_size]
  omega

theorem chainLinks_append (xs ys : List Item) (k : Nat) :
    chainLinks (xs ++ ys) k = chainLinks xs k ++ chainLinks ys (k + xs.length) := by
  induction xs generalizing k with
  | nil => simp [chainLinks]
  | cons i rest ih =>
    show (i, (k + 1, k + 1)) :: chainLinks (rest ++ ys) (k + 1) = _
    have harith : k + 1 + rest.length = k + (rest.length + 1) := by omega
    rw [ih (k + 1), harith]
    simp [chainLinks]

theorem chainLinks_lookup_none (l : List Item) (i : Item) (hi : i ∉ l)
    (k : Nat) : (chainLinks l k).lookup i = none := by
  induction l generalizing k with
  | nil => rfl
  | cons j rest ih =>
    show ((j, (k + 1, k + 1)) :: chainLinks rest (k + 1)).lookup i = none
    rw [lookup_cons, if_neg (by rintro rfl; exact hi (List.mem_cons_self ..))]
    exact ih (fun hc => hi (List.mem_cons_of_mem _ hc)) (k + 1)

theorem getD_append_lt {α : Type} (xs ys : List α) (n : Nat) (d : α)
    (h : n < xs.length) : (xs ++ ys).getD n d = xs.getD n d := by
  induction xs generalizing n with
  | nil => simp at h
  | cons x rest ih =>
    match n with
    | 0 => rfl
    | n + 1 => exact ih n (by simpa using h)

theorem getD_append_len {α : Type} (xs : List α) (y : α) (ys : List α)
    (d : α) : (xs ++ y :: ys).getD xs.length d = y := by
  induction xs with
  | nil => rfl
  | cons x rest ih => exact ih

theorem head?_append_ne {α : Type} (xs ys : List α) (h : xs ≠ []) :
    (xs ++ ys).head? = xs.head? := by
  cases xs with
  | nil => exact absurd rfl h
  | cons x rest => rfl

theorem chainTree_last_children (l : List Item) (c : Nat) :
    ((chainTree l c).nodeAt l.length).children = [] := by
  cases l with
  | nil =>
    show ((chainTree [] c).nodeAt 0).children = []
    rw [chainTree_nodeAt_zero]
    rfl
  | cons i rest =>
    rw [show (i :: rest).length = rest.length + 1 from rfl,
      chainTree_nodeAt_succ (i :: rest) c rest.length (by simp)]
    rw [show (i :: rest).drop (rest.length + 1) = [] from by simp]
    rfl

theorem chainRoot_append_ne (l : List Item) (i : Item) (h : l ≠ []) :
    chainRoot (l ++ [i]) = chainRoot l := by
  cases l with
  | nil => exact absurd rfl h
  | cons x rest => rfl

theorem addFrom_chain1 (rest : List Item) : ∀ (done : List Item),
    (done ++ rest).Nodup →
    (chainTree done 1).addTransactionFrom done.length rest =
      chainTree (done ++ rest) 1 := by
  induction rest with
  | nil => intro done _; simp [FPTree.addTransactionFrom]
  | cons i rest2 ih =>
    intro done hnd
    have hi_done : i ∉ done := by
      rw [List.nodup_append] at hnd
      intro hc
      exact hnd.2.2 hc (List.mem_cons_self ..)
    have hsize := chainTree_size done 1
    have hp : done.length < (chainTree done 1).nodes.size := by
      rw [hsize]; omega
    have hmiss : ((chainTree done 1).nodeAt done.length).children.lookup i
        = none := by
      rw [chainTree_last_children]; rfl
    have hlook : (chainTree done 1).hyperlinks.lookup i = none :=
      chainLinks_lookup_none done i hi_done 0
    have htl : ∀ h0 tl, (chainTree done 1).hyperlinks.lookup i
        = some (h0, tl) → tl < (chainTree done 1).nodes.size := by
      intro h0 tl hcon
      rw [hlook] at hcon
      exact absurd hcon (by simp)
    obtain ⟨ha1, ha2, ha3, ha4, ha5⟩ :=
      attach_spec (chainTree done 1) done.length i 1 hp hmiss htl
    have hstep : (chainTree done 1).addTransactionFrom done.length
        (i :: rest2) =
        ((chainTree done 1).attach done.length i 1).1.addTransactionFrom
          ((chainTree done 1).attach done.length i 1).2 rest2 := by
      show (match ((chainTree done 1).nodeAt done.length).search i with
        | some nxt =>
          ((chainTree done 1).setNode nxt
            { (chainTree done 1).nodeAt nxt with
              support := ((chainTree done 1).nodeAt nxt).support.map
                (· + 1) }).addTransactionFrom nxt rest2
        | none =>
          ((chainTree done 1).attach done.length i
            1).1.addTransactionFrom
            ((chainTree done 1).attach done.length i 1).2 rest2) = _
      rw [show ((chainTree done 1).nodeAt done.length).search i = none
        from hmiss]
    have heq : ((chainTree done 1).attach done.length i 1).1 =
        chainTree (done ++ [i]) 1 := by
      apply FPTree.eq_of
      · rw [ha2, hsize, chainTree_size]
        simp
      · intro m hm
        rw [ha2, hsize] at hm
        by_cases hmN : m = done.length + 1
        · subst hmN
          have h3 := ha3
          rw [hsize] at h3
          rw [h3, chainTree_nodeAt_succ (done ++ [i]) 1 done.length (by simp)]
          rw [show (done ++ [i]).getD done.length 0 = i from
            getD_append_len ..]
          rw [show (done ++ [i]).drop (done.length + 1) = [] from by simp]
          rfl
        · have hm2 : m < done.length + 1 := by omega
          have h4 := ha4 m (by rw [hsize]; omega)
          rw [h4]
          simp only [attachSpecNode, hlook, hsize]
          match m, hm2 with
          | 0, _ =>
            cases hdone : done with
            | nil =>
              subst hdone
              simp only [List.length_nil, if_pos rfl]
              rw [chainTree_nodeAt_zero, chainTree_nodeAt_zero]
              rfl
            | cons d ds =>
              simp only [if_neg (show ¬(0 : Nat) = (d :: ds).length by simp)]
              rw [chainTree_nodeAt_zero, chainTree_nodeAt_zero]
              rfl
          | m' + 1, hm2 =>
            have hm3 : m' < done.length := by omega
            rw [chainTree_nodeAt_succ done 1 m' hm3]
            rw [chainTree_nodeAt_succ (done ++ [i]) 1 m' (by simp; omega)]
            rw [getD_append_lt done [i] m' 0 hm3]
            by_cases hmL : m' + 1 = done.length
            · rw [if_pos hmL]
              rw [show done.drop (m' + 1) = [] from by
                rw [hmL]; exact List.drop_length _]
              rw [show (done ++ [i]).drop (m' + 1) = [i] from by
                rw [hmL]; exact List.drop_left ..]
              rw [← hmL]
              simp [chainCell]
            · rw [if_neg hmL]
              rw [List.drop_append_of_le_length (by omega)]
              rw [head?_append_ne _ _ (by
                intro hc
                have := congrArg List.length hc
                simp at this
                omega)]
      · rw [ha5, hlook]
        show (chainTree done 1).hyperlinks ++
            [(i, ((chainTree done 1).nodes.size,
                  (chainTree done 1).nodes.size))] = _
        rw [hsize]
        show chainLinks done 0 ++ [(i, (done.length + 1, done.length + 1))] =
          chainLinks (done ++ [i]) 0
        rw [chainLinks_append]
        have hsing : chainLinks [i] (0 + done.length) =
            [(i, (done.length + 1, done.length + 1))] := by
          show [(i, (0 + done.length + 1, 0 + done.length + 1))] = _
          rw [Nat.zero_add]
        rw [hsing]
    rw [hstep, ha1, heq, hsize]
    rw [show done.length + 1 = (done ++ [i]).length from by simp]
    have hnd2 : ((done ++ [i]) ++ rest2).Nodup := by
      simpa [List.append_assoc] using hnd
    rw [ih (done ++ [i]) hnd2]
    simp [List.append_assoc]

theorem getD_set_ne {α : Type} (l : List α) (n m : Nat) (v d : α)
    (h : m ≠ n) : (l.set n v).getD m d = l.getD m d := by
  induction l generalizing n m with
  | nil => simp [List.set]
  | cons x rest ih =>
    match n, m with
    | 0, 0 => exact absurd rfl h
    | 0, m + 1 => rfl
    | n + 1, 0 => rfl
    | n + 1, m + 1 => exact ih n m (by omega)

theorem getD_set_self {α : Type} (l : List α) (n : Nat) (v d : α)
    (h : n < l.length) : (l.set n v).getD n d = v := by
  induction l generalizing n with
  | nil => simp at h
  | cons x rest ih =>
    match n with
    | 0 => rfl
    | n + 1 => exact ih n (by simpa using h)

theorem chainNodes2_length (done todo : List Item) (c k : Nat) :
    (chainNodes2 done todo c k).length = done.length + todo.length := by
  induction done generalizing k with
  | nil => simp [chainNodes2, chainNodes_length]
  | cons d ds ih =>
    show (chainNodes2 ds todo c (k + 1)).length + 1 = _
    rw [ih (k + 1)]
    simp only [List.length_cons]
    omega

theorem chainTree2_size (done todo : List Item) (c : Nat) :
    (chainTree2 done todo c).nodes.size = done.length + todo.length + 1 := by
  show (chainRoot (done ++ todo) :: chainNodes2 done todo c 0).toArray.size = _
  rw [size_toArray_eq]
  simp only [List.length_cons, chainNodes2_length]

theorem chainTree2_nodeAt_zero (done todo : List Item) (c : Nat) :
    (chainTree2 done todo c).nodeAt 0 = chainRoot (done ++ todo) := by
  rw [show chainTree2 done todo c =
    FPTree.mk (chainRoot (done ++ todo) :: chainNodes2 done todo c 0).toArray
      (chainLinks (done ++ todo) 0) from rfl]
  rw [FPTree.nodeAt_ofList]
  rfl

theorem chainTree2_nodeAt_succ (done todo : List Item) (c m : Nat) :
    (chainTree2 done todo c).nodeAt (m + 1) =
      (chainNodes2 done todo c 0).getD m default := by
  rw [show chainTree2 done todo c =
    FPTree.mk (chainRoot (done ++ todo) :: chainNodes2 done todo c 0).toArray
      (chainLinks (done ++ todo) 0) from rfl]
  rw [FPTree.nodeAt_ofList]
  rfl

theorem chainNodes2_getD_first_todo (done : List Item) (i : Item)
    (todo : List Item) (c k : Nat) :
    (chainNodes2 done (i :: todo) c k).getD done.length default =
      chainCell i c (k + done.length) todo.head? := by
  induction done generalizing k with
  | nil => simp [chainNodes2, chainNodes]
  | cons d ds ih =>
    show (chainNodes2 ds (i :: todo) c (k + 1)).getD ds.length default = _
    rw [ih (k + 1)]
    congr 1
    simp only [List.length_cons]
    omega

theorem chainNodes2_shift (done : List Item) (i : Item) (todo2 : List Item)
    (c k : Nat) :
    chainNodes2 (done ++ [i]) todo2 c k =
      (chainNodes2 done (i :: todo2) c k).set done.length
        (chainCell i (c + 1) (k + done.length) todo2.head?) := by
  induction done generalizing k with
  | nil => rfl
  | cons d ds ih =>
    show chainCell d (c + 1) k (((ds ++ [i]) ++ todo2).head?) ::
        chainNodes2 (ds ++ [i]) todo2 c (k + 1) = _
    rw [show ((ds ++ [i]) ++ todo2) = ds ++ (i :: todo2) from by
      simp [List.append_assoc]]
    rw [ih (k + 1)]
    show _ = (chainCell d (c + 1) k ((ds ++ i :: todo2).head?) ::
        chainNodes2 ds (i :: todo2) c (k + 1)).set (ds.length + 1)
        (chainCell i (c + 1) (k + (ds.length + 1)) todo2.head?)
    rw [List.set_cons_succ,
      show k + 1 + ds.length = k + (ds.length + 1) from by omega]

theorem chainNodes2_nil_todo (l : List Item) (c k : Nat) :
    chainNodes2 l [] c k = chainNodes l (c + 1) k := by
  induction l generalizing k with
  | nil => rfl
  | cons d ds ih =>
    show chainCell d (c + 1) k ((ds ++ ([] : List Item)).head?) ::
        chainNodes2 ds [] c (k + 1)
      = chainCell d (c + 1) k ds.head? :: chainNodes ds (c + 1) (k + 1)
    rw [List.append_nil, ih (k + 1)]

theorem chainTree2_nil_done (todo : List Item) (c : Nat) :
    chainTree2 [] todo c = chainTree todo c := rfl

theorem chainTree2_nil_todo (l : List Item) (c : Nat) :
    chainTree2 l [] c = chainTree l (c + 1) := by
  show FPTree.mk (chainRoot (l ++ []) :: chainNodes2 l [] c 0).toArray
      (chainLinks (l ++ []) 0) = _
  rw [List.append_nil, chainNodes2_nil_todo]
  rfl

theorem addFrom_chain2 (todo : List Item) : ∀ (done : List Item) (c : Nat),
    (chainTree2 done todo c).addTransactionFrom done.length todo =
      chainTree2 (done ++ todo) [] c := by
  induction todo with
  | nil =>
    intro done c
    show chainTree2 done [] c = chainTree2 (done ++ []) [] c
    rw [List.append_nil]
  | cons i todo2 ih =>
    intro done c
    have hsearch : ((chainTree2 done (i :: todo2) c).nodeAt
        done.length).search i = some (done.length + 1) := by
      rcases List.eq_nil_or_concat done with rfl | ⟨ds, d, rfl⟩
      · show ((chainTree2 [] (i :: todo2) c).nodeAt 0).search i = some 1
        rw [chainTree2_nodeAt_zero]
        show ([(i, 1)] : List (Item × Nat)).lookup i = some 1
        rw [lookup_cons, if_pos rfl]
      · simp only [List.concat_eq_append]
        have hlen : (ds ++ [d]).length = ds.length + 1 := by simp
        rw [hlen, chainTree2_nodeAt_succ]
        rw [chainNodes2_shift ds d (i :: todo2) c 0]
        rw [getD_set_self _ _ _ _ (by rw [chainNodes2_length]; simp)]
        show ([(i, 0 + ds.length + 2)] : List (Item × Nat)).lookup i = _
        rw [lookup_cons, if_pos rfl, Nat.zero_add]
    have hstep : (chainTree2 done (i :: todo2) c).addTransactionFrom
        done.length (i :: todo2) =
        ((chainTree2 done (i :: todo2) c).setNode (done.length + 1)
          { (chainTree2 done (i :: todo2) c).nodeAt (done.length + 1) with
            support := ((chainTree2 done (i :: todo2) c).nodeAt
              (done.length + 1)).support.map (· + 1) }).addTransactionFrom
          (done.length + 1) todo2 := by
      show (match ((chainTree2 done (i :: todo2) c).nodeAt
          done.length).search i with
        | some nxt =>
          ((chainTree2 done (i :: todo2) c).setNode nxt
            { (chainTree2 done (i :: todo2) c).nodeAt nxt with
              support := ((chainTree2 done (i :: todo2) c).nodeAt
                nxt).support.map (· + 1) }).addTransactionFrom nxt todo2
        | none =>
          (((chainTree2 done (i :: todo2) c).attach done.length i
            1).1).addTransactionFrom
            ((chainTree2 done (i :: todo2) c).attach done.length i 1).2
            todo2) = _
      rw [hsearch]
    have horg : (chainTree2 done (i :: todo2) c).nodeAt (done.length + 1) =
        chainCell i c done.length todo2.head? := by
      rw [chainTree2_nodeAt_succ, chainNodes2_getD_first_todo, Nat.zero_add]
    have heq : (chainTree2 done (i :: todo2) c).setNode (done.length + 1)
        { (chainTree2 done (i :: todo2) c).nodeAt (done.length + 1) with
          support := ((chainTree2 done (i :: todo2) c).nodeAt
            (done.length + 1)).support.map (· + 1) } =
        chainTree2 (done ++ [i]) todo2 c := by
      apply FPTree.eq_of
      · rw [FPTree.size_setNode, chainTree2_size, chainTree2_size]
        simp only [List.length_cons, List.length_append, List.length_nil]
        omega
      · intro m hm
        rw [FPTree.size_setNode] at hm
        rw [FPTree.nodeAt_setNode]
        by_cases hmd : done.length + 1 = m
        · subst hmd
          rw [if_pos ⟨rfl, by rw [chainTree2_size]; simp only [List.length_cons]; omega⟩]
          rw [horg]
          rw [chainTree2_nodeAt_succ, chainNodes2_shift done i todo2 c 0]
          rw [getD_set_self _ _ _ _ (by rw [chainNodes2_length]; simp)]
          rw [Nat.zero_add]
          simp [chainCell]
        · rw [if_neg (fun hc => hmd hc.1)]
          match m with
          | 0 =>
            rw [chainTree2_nodeAt_zero, chainTree2_nodeAt_zero]
            rw [show (done ++ [i]) ++ todo2 = done ++ i :: todo2 from by simp]
          | m' + 1 =>
            rw [chainTree2_nodeAt_succ, chainTree2_nodeAt_succ]
            rw [chainNodes2_shift done i todo2 c 0]
            rw [getD_set_ne _ _ _ _ _ (by omega)]
      · show chainLinks (done ++ i :: todo2) 0 =
          chainLinks ((done ++ [i]) ++ todo2) 0
        rw [show (done ++ [i]) ++ todo2 = done ++ i :: todo2 from by simp]
    rw [hstep, heq]
    rw [show done.length + 1 = (done ++ [i]).length from by simp]
    rw [ih (done ++ [i]) c]
    rw [show (done ++ [i]) ++ todo2 = done ++ i :: todo2 from by simp]

theorem fresh_insert_eq_chainTree (l : List Item) (hnd : l.Nodup) :
    FPTree.new.add_transaction l = chainTree l 1 := by
  show FPTree.new.addTransactionFrom 0 l = _
  rw [show FPTree.new = chainTree [] 1 from by decide]
  calc (chainTree [] 1).addTransactionFrom 0 l
      = (chainTree [] 1).addTransactionFrom ([] : List Item).length l := rfl
    _ = chainTree ([] ++ l) 1 := addFrom_chain1 l [] (by simpa using hnd)
    _ = chainTree l 1 := by rw [List.nil_append]

theorem second_insert_eq_chainTree (l : List Item) :
    (chainTree l 1).add_transaction l = chainTree l 2 := by
  show (chainTree l 1).addTransactionFrom 0 l = _
  calc (chainTree l 1).addTransactionFrom 0 l
      = (chainTree2 [] l 1).addTransactionFrom ([] : List Item).length l := rfl
    _ = chainTree2 ([] ++ l) [] 1 := addFrom_chain2 l [] 1
    _ = chainTree l 2 := by rw [List.nil_append, chainTree2_nil_todo]

/-- C7: inserting the same duplicate-free ordered transaction twice into a
fresh tree yields exactly the tree of the single insertion with every node's
support doubled (1 becomes 2 along the inserted path, the root stays
support-free), and no node ends up with two child entries for one item. -/
theorem c7_reinsertion_doubles (l : List Item) (hnd : l.Nodup) :
    ((FPTree.new.add_transaction l).add_transaction l).nodes.size =
      (FPTree.new.add_transaction l).nodes.size ∧
    (∀ nid, (((FPTree.new.add_transaction l).add_transaction l).nodeAt
        nid).support =
      ((FPTree.new.add_transaction l).nodeAt nid).support.map (· * 2)) ∧
    (∀ nid, ((((FPTree.new.add_transaction l).add_transaction l).nodeAt
        nid).children.map Prod.fst).Nodup) := by
  have hOnce : FPTree.new.add_transaction l = chainTree l 1 :=
    fresh_insert_eq_chainTree l hnd
  have hTwice : (FPTree.new.add_transaction l).add_transaction l =
      chainTree l 2 := by
    rw [hOnce]
    exact second_insert_eq_chainTree l
  refine ⟨?_, ?_, ?_⟩
  · rw [hTwice, hOnce, chainTree_size, chainTree_size]
  · intro nid
    rw [hTwice, hOnce]
    match nid with
    | 0 => rw [chainTree_nodeAt_zero, chainTree_nodeAt_zero]; rfl
    | m + 1 =>
      by_cases hm : m < l.length
      · rw [chainTree_nodeAt_succ _ _ _ hm, chainTree_nodeAt_succ _ _ _ hm]
        rfl
      · rw [chainTree_nodeAt_default _ _ _ (by omega),
          chainTree_nodeAt_default _ _ _ (by omega)]
        rfl
  · intro nid
    rw [hTwice]
    match nid with
    | 0 =>
      rw [chainTree_nodeAt_zero]
      rcases l with _ | ⟨i, rest⟩ <;> simp [chainRoot]
    | m + 1 =>
      by_cases hm : m < l.length
      · rw [chainTree_nodeAt_succ _ _ _ hm]
        rcases hh : (l.drop (m + 1)).head? with _ | j
        · simp [chainCell, hh]
        · simp [chainCell, hh]
      · rw [chainTree_nodeAt_default _ _ _ (by omega)]
        decide

/-- C7, witness: the transaction `[1, 2, 3]`. -/
theorem c7_reinsertion_doubles_witness :
    ([1, 2, 3] : List Item).Nodup ∧
    (((FPTree.new.add_transaction [1, 2, 3]).add_transaction
        [1, 2, 3]).nodes.size =
      (FPTree.new.add_transaction [1, 2, 3]).nodes.size ∧
    (∀ nid, (((FPTree.new.add_transaction [1, 2, 3]).add_transaction
        [1, 2, 3]).nodeAt nid).support =
      ((FPTree.new.add_transaction [1, 2, 3]).nodeAt nid).support.map
        (· * 2)) ∧
    (∀ nid, ((((FPTree.new.add_transaction [1, 2, 3]).add_transaction
        [1, 2, 3]).nodeAt nid).children.map Prod.fst).Nodup)) :=
  ⟨by decide, c7_reinsertion_doubles [1, 2, 3] (by decide)⟩

theorem mem_itemIds (t : FPTree) (i : Item) (m : Nat) :
    m ∈ itemIds t i ↔ m < t.nodes.size ∧ (t.nodeAt m).item = some i := by
  unfold itemIds
  rw [List.mem_filter, List.mem_range]
  simp

theorem itemIds_nodup (t : FPTree) (i : Item) : (itemIds t i).Nodup :=
  (List.nodup_range _).filter _

theorem itemIds_sorted (t : FPTree) (i : Item) :
    (itemIds t i).Pairwise (· < ·) :=
  (List.pairwise_lt_range _).filter _

theorem itemIds_congr (t1 t2 : FPTree) (i : Item)
    (hs : t1.nodes.size = t2.nodes.size)
    (hn : ∀ m, m < t1.nodes.size →
      (t1.nodeAt m).item = (t2.nodeAt m).item) :
    itemIds t1 i = itemIds t2 i := by
  unfold itemIds
  rw [← hs]
  apply List.filter_congr
  intro m hm
  rw [hn m (List.mem_range.mp hm)]

theorem itemIds_succ (t1 t2 : FPTree) (i j : Item)
    (hs : t2.nodes.size = t1.nodes.size + 1)
    (hn : ∀ m, m < t1.nodes.size →
      (t2.nodeAt m).item = (t1.nodeAt m).item)
    (hnew : (t2.nodeAt t1.nodes.size).item = some i) :
    itemIds t2 j =
      if j = i then itemIds t1 j ++ [t1.nodes.size] else itemIds t1 j := by
  unfold itemIds
  rw [hs, List.range_succ, List.filter_append]
  have h1 : (List.range t1.nodes.size).filter
      (fun nid => (t2.nodeAt nid).item == some j) =
      (List.range t1.nodes.size).filter
      (fun nid => (t1.nodeAt nid).item == some j) := by
    apply List.filter_congr
    intro m hm
    rw [hn m (List.mem_range.mp hm)]
  rw [h1]
  by_cases hj : j = i
  · subst hj
    rw [if_pos rfl]
    congr 1
    rw [List.filter_cons]
    rw [if_pos (by rw [hnew]; simp)]
    simp
  · rw [if_neg hj]
    rw [List.filter_cons]
    rw [if_neg (by rw [hnew]; simp; exact fun hc => hj hc.symm)]
    simp

theorem nextSame_congr (t1 t2 : FPTree) (i : Item) (nid : Nat)
    (hs : t1.nodes.size = t2.nodes.size)
    (hn : ∀ m, m < t1.nodes.size →
      (t1.nodeAt m).item = (t2.nodeAt m).item) :
    nextSame t1 nid i = nextSame t2 nid i := by
  unfold nextSame
  rw [← hs]
  congr 1
  apply List.filter_congr
  intro m hm
  rw [hn m (List.mem_range.mp hm)]

theorem nextSame_succ (t1 t2 : FPTree) (i j : Item) (nid : Nat)
    (hs : t2.nodes.size = t1.nodes.size + 1)
    (hn : ∀ m, m < t1.nodes.size →
      (t2.nodeAt m).item = (t1.nodeAt m).item)
    (hnew : (t2.nodeAt t1.nodes.size).item = some i) :
    nextSame t2 nid j =
      ((nextSame t1 nid j).orElse (fun _ =>
        if j = i ∧ nid < t1.nodes.size then some t1.nodes.size else none)) := by
  unfold nextSame
  rw [hs, List.range_succ, List.filter_append]
  have h1 : (List.range t1.nodes.size).filter
      (fun m => decide (nid < m) && ((t2.nodeAt m).item == some j)) =
      (List.range t1.nodes.size).filter
      (fun m => decide (nid < m) && ((t1.nodeAt m).item == some j)) := by
    apply List.filter_congr
    intro m hm
    rw [hn m (List.mem_range.mp hm)]
  rw [h1]
  rcases hfil : (List.range t1.nodes.size).filter
      (fun m => decide (nid < m) && ((t1.nodeAt m).item == some j)) with _ | ⟨x, xs⟩
  · simp only [List.nil_append, Option.orElse]
    rw [List.filter_cons, hnew]
    by_cases hj : j = i
    · subst hj
      by_cases hlt : nid < t1.nodes.size
      · rw [if_pos (by simp [hlt])]
        simp [hlt]
      · rw [if_neg (by simp [hlt])]
        simp [hlt]
    · rw [if_neg (by simp; intro _ hc; exact hj hc.symm)]
      simp [hj]
  · simp [Option.orElse]

theorem new_nodeAt_item (nid : Nat) : (FPTree.new.nodeAt nid).item = none := by
  match nid with
  | 0 => rfl
  | k + 1 =>
    rw [FPTree.nodeAt_default _ _ (by show 1 ≤ k + 1; omega)]
    rfl

theorem new_nodeAt_children (nid : Nat) : (FPTree.new.nodeAt nid).children = [] := by
  match nid with
  | 0 => rfl
  | k + 1 =>
    rw [FPTree.nodeAt_default _ _ (by show 1 ≤ k + 1; omega)]
    rfl

theorem itemIds_new (i : Item) : itemIds FPTree.new i = [] := by
  unfold itemIds
  show List.filter (fun nid => (FPTree.new.nodeAt nid).item == some i)
    (List.range 1) = []
  rw [show List.range 1 = [0] from rfl, List.filter_cons,
    if_neg (by rw [new_nodeAt_item]; simp)]
  rfl

theorem wf_new : WF FPTree.new := by
  constructor
  · decide
  · decide
  · decide
  · intro nid h1 h2
    simp only [show FPTree.new.nodes.size = 1 from rfl] at h2
    omega
  · intro nid h1 h2
    simp only [show FPTree.new.nodes.size = 1 from rfl] at h2
    omega
  · intro nid h1 h2
    simp only [show FPTree.new.nodes.size = 1 from rfl] at h2
    omega
  · intro nid h1 i c hc
    rw [new_nodeAt_children] at hc
    exact absurd hc (by simp)
  · intro nid h1
    rw [new_nodeAt_children]
    simp
  · intro nid h1 h2
    simp only [show FPTree.new.nodes.size = 1 from rfl] at h2
    omega
  · intro nid h1 i hi
    rw [new_nodeAt_item] at hi
    exact absurd hi (by simp)
  · decide
  · intro i h tl hl
    exact absurd hl (by simp [FPTree.new, List.lookup])
  · intro i hne
    exact absurd (itemIds_new i) hne

theorem wf_setSupportMap (t : FPTree) (hwf : WF t) (nid : Nat)
    (f : Nat → Nat) :
    WF (t.setNode nid
      { t.nodeAt nid with support := (t.nodeAt nid).support.map f }) := by
  have hsize : (t.setNode nid
      { t.nodeAt nid with support := (t.nodeAt nid).support.map f
      }).nodes.size = t.nodes.size := FPTree.size_setNode ..
  have hitem : ∀ m, ((t.setNode nid
      { t.nodeAt nid with support := (t.nodeAt nid).support.map f
      }).nodeAt m).item = (t.nodeAt m).item := by
    intro m
    rw [FPTree.nodeAt_setNode]
    by_cases hc : nid = m ∧ nid < t.nodes.size
    · rw [if_pos hc, hc.1]
    · rw [if_neg hc]
  have hparent : ∀ m, ((t.setNode nid
      { t.nodeAt nid with support := (t.nodeAt nid).support.map f
      }).nodeAt m).parent = (t.nodeAt m).parent := by
    intro m
    rw [FPTree.nodeAt_setNode]
    by_cases hc : nid = m ∧ nid < t.nodes.size
    · rw [if_pos hc, hc.1]
    · rw [if_neg hc]
  have hchildren : ∀ m, ((t.setNode nid
      { t.nodeAt nid with support := (t.nodeAt nid).support.map f
      }).nodeAt m).children = (t.nodeAt m).children := by
    intro m
    rw [FPTree.nodeAt_setNode]
    by_cases hc : nid = m ∧ nid < t.nodes.size
    · rw [if_pos hc, hc.1]
    · rw [if_neg hc]
  have hlink : ∀ m, ((t.setNode nid
      { t.nodeAt nid with support := (t.nodeAt nid).support.map f
      }).nodeAt m).link = (t.nodeAt m).link := by
    intro m
    rw [FPTree.nodeAt_setNode]
    by_cases hc : nid = m ∧ nid < t.nodes.size
    · rw [if_pos hc, hc.1]
    · rw [if_neg hc]
  have hsupp : ∀ m, ((t.setNode nid
      { t.nodeAt nid with support := (t.nodeAt nid).support.map f
      }).nodeAt m).support =
        if nid = m ∧ nid < t.nodes.size then (t.nodeAt m).support.map f
        else (t.nodeAt m).support := by
    intro m
    rw [FPTree.nodeAt_setNode]
    by_cases hc : nid = m ∧ nid < t.nodes.size
    · rw [if_pos hc, if_pos hc, hc.1]
    · rw [if_neg hc, if_neg hc]
  have hids : ∀ i, itemIds (t.setNode nid
      { t.nodeAt nid with support := (t.nodeAt nid).support.map f }) i =
      itemIds t i := by
    intro i
    exact itemIds_congr _ _ i hsize (fun m _ => hitem m)
  have hnxt : ∀ m i, nextSame (t.setNode nid
      { t.nodeAt nid with support := (t.nodeAt nid).support.map f }) m i =
      nextSame t m i := by
    intro m i
    exact nextSame_congr _ _ i m hsize (fun m2 _ => hitem m2)
  constructor
  · rw [hsize]; exact hwf.size_pos
  · rw [hitem]; exact hwf.root_item
  · rw [hsupp]
    by_cases hc : nid = 0 ∧ nid < t.nodes.size
    · rw [if_pos hc, hwf.root_support]; rfl
    · rw [if_neg hc]; exact hwf.root_support
  · intro m h1 h2
    rw [hsize] at h2
    rw [hitem]
    exact hwf.nonroot_item m h1 h2
  · intro m h1 h2
    rw [hsize] at h2
    rw [hsupp]
    by_cases hc : nid = m ∧ nid < t.nodes.size
    · rw [if_pos hc]
      have := hwf.nonroot_support m h1 h2
      rcases Option.isSome_iff_exists.mp this with ⟨s, hs⟩
      rw [hs]; rfl
    · rw [if_neg hc]
      exact hwf.nonroot_support m h1 h2
  · intro m h1 h2
    rw [hsize] at h2
    rw [hparent]
    exact hwf.nonroot_parent m h1 h2
  · intro m h2 i c hc
    rw [hsize] at h2
    rw [hchildren] at hc
    obtain ⟨hx1, hx2, hx3, hx4⟩ := hwf.children_wf m h2 i c hc
    exact ⟨hx1, by rw [hsize]; exact hx2, by rw [hitem]; exact hx3,
      by rw [hparent]; exact hx4⟩
  · intro m h2
    rw [hsize] at h2
    rw [hchildren]
    exact hwf.children_keys m h2
  · intro m h1 h2 i p hi hp
    rw [hsize] at h2
    rw [hitem] at hi
    rw [hparent] at hp
    rw [hchildren]
    exact hwf.parent_lookup m h1 h2 i p hi hp
  · intro m h2 i hi
    rw [hsize] at h2
    rw [hitem] at hi
    rw [hlink, hnxt]
    exact hwf.link_next m h2 i hi
  · exact hwf.hyper_keys
  · intro i h tl hl
    rw [hids]
    exact hwf.hyper_lookup i h tl hl
  · intro i hne
    rw [hids] at hne
    exact hwf.hyper_complete i hne

theorem attachSpecNode_item (t : FPTree) (pid : Nat) (i : Item) (m : Nat) :
    (attachSpecNode t pid i m).item = (t.nodeAt m).item := by
  unfold attachSpecNode
  rcases t.hyperlinks.lookup i with _ | ⟨h0, tl⟩
  · by_cases hc : m = pid <;> simp [hc]
  · by_cases hc : m = pid <;> by_cases hd : m = tl <;>
      simp [hc, hd] <;> split <;> simp_all

theorem attachSpecNode_support (t : FPTree) (pid : Nat) (i : Item) (m : Nat) :
    (attachSpecNode t pid i m).support = (t.nodeAt m).support := by
  unfold attachSpecNode
  rcases t.hyperlinks.lookup i with _ | ⟨h0, tl⟩
  · by_cases hc : m = pid <;> simp [hc]
  · by_cases hc : m = pid <;> by_cases hd : m = tl <;>
      simp [hc, hd] <;> split <;> simp_all

theorem attachSpecNode_parent (t : FPTree) (pid : Nat) (i : Item) (m : Nat) :
    (attachSpecNode t pid i m).parent = (t.nodeAt m).parent := by
  unfold attachSpecNode
  rcases t.hyperlinks.lookup i with _ | ⟨h0, tl⟩
  · by_cases hc : m = pid <;> simp [hc]
  · by_cases hc : m = pid <;> by_cases hd : m = tl <;>
      simp [hc, hd] <;> split <;> simp_all

theorem attachSpecNode_children (t : FPTree) (pid : Nat) (i : Item)
    (m : Nat) :
    (attachSpecNode t pid i m).children =
      if m = pid then (t.nodeAt m).children ++ [(i, t.nodes.size)]
      else (t.nodeAt m).children := by
  unfold attachSpecNode
  rcases t.hyperlinks.lookup i with _ | ⟨h0, tl⟩
  · by_cases hc : m = pid <;> simp [hc]
  · by_cases hc : m = pid <;> by_cases hd : m = tl <;>
      simp [hc, hd] <;> split <;> simp_all

theorem attachSpecNode_link (t : FPTree) (pid : Nat) (i : Item) (m : Nat) :
    (attachSpecNode t pid i m).link =
      (match t.hyperlinks.lookup i with
       | some (_, tl) =>
          if m = tl then some t.nodes.size else (t.nodeAt m).link
       | none => (t.nodeAt m).link) := by
  unfold attachSpecNode
  rcases t.hyperlinks.lookup i with _ | ⟨h0, tl⟩
  · by_cases hc : m = pid <;> simp [hc]
  · by_cases hc : m = pid <;> by_cases hd : m = tl <;>
      simp [hc, hd] <;> split <;> simp_all

theorem orElse_none_right {α : Type} (x : Option α) :
    (x.orElse (fun _ => none)) = x := by
  cases x <;> rfl

theorem orElse_some_left {α : Type} (y : α) (x : Option α)
    (f : Unit → Option α) (h : x = some y) : (x.orElse f) = some y := by
  rw [h]; rfl

theorem getLast?_mem {α : Type} (l : List α) (a : α)
    (h : l.getLast? = some a) : a ∈ l := by
  induction l with
  | nil => simp at h
  | cons x rest ih =>
    cases hr : rest with
    | nil =>
      rw [hr] at h
      simp at h
      simp [h]
    | cons y ys =>
      rw [hr] at h ih
      rw [List.getLast?_cons_cons] at h
      exact List.mem_cons_of_mem _ (ih h)

theorem sorted_le_getLast (l : List Nat) (hs : l.Pairwise (· < ·))
    (tl : Nat) (h : l.getLast? = some tl) : ∀ x ∈ l, x ≤ tl := by
  induction l with
  | nil => simp
  | cons a rest ih =>
    intro x hx
    cases hr : rest with
    | nil =>
      rw [hr] at h hx
      simp at h
      simp at hx
      omega
    | cons y ys =>
      rw [hr] at h ih hx
      rw [List.getLast?_cons_cons] at h
      rw [List.pairwise_cons] at hs
      rcases List.mem_cons.mp hx with rfl | hx2
      · have htl : tl ∈ y :: ys := getLast?_mem _ _ h
        have := hs.1 tl (by rw [hr]; exact htl)
        omega
      · exact ih (by rw [← hr]; exact hs.2) h x hx2

theorem nextSame_eq_filter (t : FPTree) (nid : Nat) (i : Item) :
    nextSame t nid i =
      ((itemIds t i).filter (fun m => decide (nid < m))).head? := by
  unfold nextSame itemIds
  rw [List.filter_filter]

theorem nextSame_none_of_ge (t : FPTree) (nid : Nat) (i : Item)
    (h : t.nodes.size ≤ nid) : nextSame t nid i = none := by
  unfold nextSame
  rw [show (List.range t.nodes.size).filter
      (fun m => decide (nid < m) && ((t.nodeAt m).item == some i)) = [] from ?_]
  · rfl
  · rw [List.filter_eq_nil_iff]
    intro a ha
    have := List.mem_range.mp ha
    simp only [Bool.and_eq_true, decide_eq_true_eq]
    rintro ⟨h1, _⟩
    omega

theorem nextSame_last (t : FPTree) (i : Item) (tl : Nat)
    (hlast : (itemIds t i).getLast? = some tl) : nextSame t tl i = none := by
  rw [nextSame_eq_filter]
  rw [show (itemIds t i).filter (fun m => decide (tl < m)) = [] from ?_]
  · rfl
  · rw [List.filter_eq_nil_iff]
    intro a ha
    have := sorted_le_getLast _ (itemIds_sorted t i) tl hlast a ha
    simp
    omega

theorem nextSame_isSome_of_not_last (t : FPTree) (i : Item) (m tl : Nat)
    (hlast : (itemIds t i).getLast? = some tl) (hm : m ∈ itemIds t i)
    (hne : m ≠ tl) : (nextSame t m i).isSome := by
  rw [nextSame_eq_filter]
  have hle := sorted_le_getLast _ (itemIds_sorted t i) tl hlast m hm
  have htl_mem : tl ∈ itemIds t i := getLast?_mem _ _ hlast
  have hmem : tl ∈ (itemIds t i).filter (fun x => decide (m < x)) := by
    rw [List.mem_filter]
    exact ⟨htl_mem, by simp; omega⟩
  rcases hfil : (itemIds t i).filter (fun x => decide (m < x)) with _ | ⟨y, ys⟩
  · rw [hfil] at hmem; simp at hmem
  · rfl

theorem wf_attach (t : FPTree) (hwf : WF t) (pid : Nat) (i : Item) (s : Nat)
    (hpid : pid < t.nodes.size)
    (hmiss : (t.nodeAt pid).children.lookup i = none) :
    WF (t.attach pid i s).1 := by
  have htl : ∀ h0 tl, t.hyperlinks.lookup i = some (h0, tl) →
      tl < t.nodes.size := by
    intro h0 tl hl
    have h2 := (hwf.hyper_lookup i h0 tl hl).2
    exact ((mem_itemIds t i tl).mp (getLast?_mem _ _ h2)).1
  obtain ⟨ha1, ha2, ha3, ha4, ha5⟩ := attach_spec t pid i s hpid hmiss htl
  have hitem : ∀ m, m < t.nodes.size →
      ((t.attach pid i s).1.nodeAt m).item = (t.nodeAt m).item := by
    intro m hm; rw [ha4 m hm, attachSpecNode_item]
  have hsupp : ∀ m, m < t.nodes.size →
      ((t.attach pid i s).1.nodeAt m).support = (t.nodeAt m).support := by
    intro m hm; rw [ha4 m hm, attachSpecNode_support]
  have hpar : ∀ m, m < t.nodes.size →
      ((t.attach pid i s).1.nodeAt m).parent = (t.nodeAt m).parent := by
    intro m hm; rw [ha4 m hm, attachSpecNode_parent]
  have hchild : ∀ m, m < t.nodes.size →
      ((t.attach pid i s).1.nodeAt m).children =
        (if m = pid then (t.nodeAt m).children ++ [(i, t.nodes.size)]
         else (t.nodeAt m).children) := by
    intro m hm; rw [ha4 m hm, attachSpecNode_children]
  have hids : ∀ j, itemIds (t.attach pid i s).1 j =
      if j = i then itemIds t j ++ [t.nodes.size] else itemIds t j :=
    fun j => itemIds_succ t (t.attach pid i s).1 i j ha2 hitem
      (by rw [ha3])
  have hnxt : ∀ nid j, nextSame (t.attach pid i s).1 nid j =
      ((nextSame t nid j).orElse (fun _ =>
        if j = i ∧ nid < t.nodes.size then some t.nodes.size else none)) :=
    fun nid j => nextSame_succ t (t.attach pid i s).1 i j nid ha2 hitem
      (by rw [ha3])
  -- fields not depending on the index state of item i
  have F1 : 0 < (t.attach pid i s).1.nodes.size := by rw [ha2]; omega
  have F2 : ((t.attach pid i s).1.nodeAt 0).item = none := by
    rw [hitem 0 hwf.size_pos]; exact hwf.root_item
  have F3 : ((t.attach pid i s).1.nodeAt 0).support = none := by
    rw [hsupp 0 hwf.size_pos]; exact hwf.root_support
  have F4 : ∀ m, 0 < m → m < (t.attach pid i s).1.nodes.size →
      (((t.attach pid i s).1.nodeAt m).item).isSome := by
    intro m h1 h2
    rw [ha2] at h2
    by_cases hm : m < t.nodes.size
    · rw [hitem m hm]
      exact hwf.nonroot_item m h1 hm
    · have : m = t.nodes.size := by omega
      rw [this, ha3]
      rfl
  have F5 : ∀ m, 0 < m → m < (t.attach pid i s).1.nodes.size →
      (((t.attach pid i s).1.nodeAt m).support).isSome := by
    intro m h1 h2
    rw [ha2] at h2
    by_cases hm : m < t.nodes.size
    · rw [hsupp m hm]
      exact hwf.nonroot_support m h1 hm
    · have : m = t.nodes.size := by omega
      rw [this, ha3]
      rfl
  have F6 : ∀ m, 0 < m → m < (t.attach pid i s).1.nodes.size →
      ∃ p, ((t.attach pid i s).1.nodeAt m).parent = some p ∧ p < m := by
    intro m h1 h2
    rw [ha2] at h2
    by_cases hm : m < t.nodes.size
    · rw [hpar m hm]
      exact hwf.nonroot_parent m h1 hm
    · have he : m = t.nodes.size := by omega
      rw [he, ha3]
      exact ⟨pid, rfl, by omega⟩
  have F7 : ∀ m, m < (t.attach pid i s).1.nodes.size → ∀ j c,
      (j, c) ∈ ((t.attach pid i s).1.nodeAt m).children →
      m < c ∧ c < (t.attach pid i s).1.nodes.size ∧
        ((t.attach pid i s).1.nodeAt c).item = some j ∧
        ((t.attach pid i s).1.nodeAt c).parent = some m := by
    intro m h2 j c hc
    rw [ha2] at h2
    by_cases hm : m < t.nodes.size
    · rw [hchild m hm] at hc
      by_cases hmp : m = pid
      · rw [if_pos hmp] at hc
        rcases List.mem_append.mp hc with hold | hnew
        · obtain ⟨o1, o2, o3, o4⟩ := hwf.children_wf m hm j c hold
          exact ⟨o1, by rw [ha2]; omega, by rw [hitem c o2]; exact o3,
            by rw [hpar c o2]; exact o4⟩
        · simp only [List.mem_singleton, Prod.mk.injEq] at hnew
          obtain ⟨rfl, rfl⟩ := hnew
          refine ⟨hm, by rw [ha2]; omega, by rw [ha3], by rw [ha3, hmp]⟩
      · rw [if_neg hmp] at hc
        obtain ⟨o1, o2, o3, o4⟩ := hwf.children_wf m hm j c hc
        exact ⟨o1, by rw [ha2]; omega, by rw [hitem c o2]; exact o3,
          by rw [hpar c o2]; exact o4⟩
    · have he : m = t.nodes.size := by omega
      rw [he, ha3] at hc
      exact absurd hc (by simp)
  have F8 : ∀ m, m < (t.attach pid i s).1.nodes.size →
      ((((t.attach pid i s).1.nodeAt m).children).map Prod.fst).Nodup := by
    intro m h2
    rw [ha2] at h2
    by_cases hm : m < t.nodes.size
    · rw [hchild m hm]
      by_cases hmp : m = pid
      · rw [if_pos hmp]
        rw [List.map_append, List.nodup_append]
        refine ⟨hwf.children_keys m hm, by simp, ?_⟩
        intro x hx
        simp only [List.map_cons, List.map_nil, List.mem_singleton]
        intro hxi
        subst hxi
        subst hmp
        exact (lookup_eq_none_iff _ _).mp hmiss hx
      · rw [if_neg hmp]
        exact hwf.children_keys m hm
    · have he : m = t.nodes.size := by omega
      rw [he, ha3]
      simp
  have F9 : ∀ m, 0 < m → m < (t.attach pid i s).1.nodes.size → ∀ j p,
      ((t.attach pid i s).1.nodeAt m).item = some j →
      ((t.attach pid i s).1.nodeAt m).parent = some p →
      ((t.attach pid i s).1.nodeAt p).children.lookup j = some m := by
    intro m h1 h2 j p hji hp
    rw [ha2] at h2
    by_cases hm : m < t.nodes.size
    · rw [hitem m hm] at hji
      rw [hpar m hm] at hp
      have hold := hwf.parent_lookup m h1 hm j p hji hp
      obtain ⟨p2, hp2, hplt⟩ := hwf.nonroot_parent m h1 hm
      have hps : p < t.nodes.size := by
        rw [hp2] at hp
        injection hp with hpe
        omega
      rw [hchild p hps]
      by_cases hpp : p = pid
      · rw [if_pos hpp, lookup_append, hold]
      · rw [if_neg hpp]
        exact hold
    · have he : m = t.nodes.size := by omega
      subst he
      rw [ha3] at hji hp
      injection hji with hji2
      injection hp with hp2
      subst hji2
      rw [← hp2, hchild pid hpid, if_pos rfl, lookup_append, hmiss]
      show List.lookup i [(i, t.nodes.size)] = some t.nodes.size
      rw [lookup_cons, if_pos rfl]
  rcases hlook : t.hyperlinks.lookup i with _ | ⟨h0, tl⟩
  · -- item i new to the index
    have hempty : itemIds t i = [] := by
      by_contra hne
      have := hwf.hyper_complete i hne
      rw [hlook] at this
      exact absurd this (by simp)
    have hh : (t.attach pid i s).1.hyperlinks =
        t.hyperlinks ++ [(i, (t.nodes.size, t.nodes.size))] := by
      rw [ha5, hlook]
    have hinotin : i ∉ t.hyperlinks.map Prod.fst :=
      (lookup_eq_none_iff _ _).mp hlook
    have F10 : ∀ m, m < (t.attach pid i s).1.nodes.size → ∀ j,
        ((t.attach pid i s).1.nodeAt m).item = some j →
        ((t.attach pid i s).1.nodeAt m).link =
          nextSame (t.attach pid i s).1 m j := by
      intro m h2 j hj
      rw [ha2] at h2
      by_cases hm : m < t.nodes.size
      · have hjt : (t.nodeAt m).item = some j := by
          rw [← hitem m hm]; exact hj
        have hji : j ≠ i := by
          rintro rfl
          have : m ∈ itemIds t j := (mem_itemIds t j m).mpr ⟨hm, hjt⟩
          rw [hempty] at this
          simp at this
        have hlk : ((t.attach pid i s).1.nodeAt m).link =
            (t.nodeAt m).link := by
          rw [ha4 m hm, attachSpecNode_link, hlook]
        rw [hlk, hwf.link_next m hm j hjt, hnxt m j,
          if_neg (fun hc => hji hc.1), orElse_none_right]
      · have he : m = t.nodes.size := by omega
        subst he
        rw [ha3] at hj ⊢
        injection hj with hj2
        subst hj2
        rw [hnxt, nextSame_none_of_ge t _ _ (le_refl _)]
        simp
    refine ⟨F1, F2, F3, F4, F5, F6, F7, F8, F9, F10, ?_, ?_, ?_⟩
    · rw [hh, List.map_append, List.nodup_append]
      refine ⟨hwf.hyper_keys, by simp, ?_⟩
      intro x hx
      simp only [List.map_cons, List.map_nil, List.mem_singleton]
      rintro rfl
      exact hinotin hx
    · intro j h1 tl1 hl
      rw [hh, lookup_append] at hl
      rcases hcase : t.hyperlinks.lookup j with _ | ⟨hj0, tlj⟩
      · rw [hcase] at hl
        simp only [lookup_cons] at hl
        by_cases hji : j = i
        · subst hji
          rw [if_pos rfl] at hl
          injection hl with hl2
          injection hl2 with hl3 hl4
          rw [hids, if_pos rfl, hempty]
          subst hl3
          subst hl4
          exact ⟨rfl, rfl⟩
        · rw [if_neg hji] at hl
          exact absurd hl (by simp)
      · rw [hcase] at hl
        injection hl with hl2
        have hji : j ≠ i := by
          rintro rfl
          rw [hcase] at hlook
          exact absurd hlook (by simp)
        injection hl2 with e1 e2
        subst e1
        subst e2
        obtain ⟨o1, o2⟩ := hwf.hyper_lookup j hj0 tlj hcase
        rw [hids, if_neg hji]
        exact ⟨o1, o2⟩
    · intro j hne
      rw [hids] at hne
      rw [hh]
      by_cases hji : j = i
      · rw [hji]
        rw [lookup_append, hlook]
        show (List.lookup i [(i, (t.nodes.size, t.nodes.size))]).isSome = true
        rw [lookup_cons, if_pos rfl]
        rfl
      · rw [if_neg hji] at hne
        have := hwf.hyper_complete j hne
        rcases hcase : t.hyperlinks.lookup j with _ | v
        · rw [hcase] at this; exact absurd this (by simp)
        · rw [lookup_append, hcase]
          rfl
  · -- item i already indexed: tail tl gains the link
    have hlast := (hwf.hyper_lookup i h0 tl hlook).2
    have hhead := (hwf.hyper_lookup i h0 tl hlook).1
    have htl' : tl < t.nodes.size := htl h0 tl hlook
    have hitl : (t.nodeAt tl).item = some i :=
      ((mem_itemIds t i tl).mp (getLast?_mem _ _ hlast)).2
    have hh : (t.attach pid i s).1.hyperlinks =
        replaceAssoc t.hyperlinks i (h0, t.nodes.size) := by
      rw [ha5, hlook]
    have F10 : ∀ m, m < (t.attach pid i s).1.nodes.size → ∀ j,
        ((t.attach pid i s).1.nodeAt m).item = some j →
        ((t.attach pid i s).1.nodeAt m).link =
          nextSame (t.attach pid i s).1 m j := by
      intro m h2 j hj
      rw [ha2] at h2
      by_cases hm : m < t.nodes.size
      · have hjt : (t.nodeAt m).item = some j := by
          rw [← hitem m hm]; exact hj
        by_cases hmtl : m = tl
        · subst hmtl
          have hji : j = i := by
            rw [hitl] at hjt
            injection hjt with h3
            exact h3.symm
          rw [hji] at hj ⊢
          have hlk : ((t.attach pid i s).1.nodeAt m).link =
              some t.nodes.size := by
            rw [ha4 m hm, attachSpecNode_link, hlook]
            show (if m = m then some t.nodes.size else (t.nodeAt m).link) =
              some t.nodes.size
            rw [if_pos rfl]
          rw [hlk, hnxt m i, nextSame_last t i m hlast]
          show some t.nodes.size =
            if i = i ∧ m < t.nodes.size then some t.nodes.size else none
          rw [if_pos ⟨rfl, hm⟩]
        · have hlk : ((t.attach pid i s).1.nodeAt m).link =
              (t.nodeAt m).link := by
            rw [ha4 m hm, attachSpecNode_link, hlook]
            show (if m = tl then some t.nodes.size else (t.nodeAt m).link) =
              (t.nodeAt m).link
            rw [if_neg hmtl]
          rw [hlk, hwf.link_next m hm j hjt, hnxt m j]
          by_cases hji : j = i
          · subst hji
            have hmem : m ∈ itemIds t j := (mem_itemIds t j m).mpr ⟨hm, hjt⟩
            have hsome := nextSame_isSome_of_not_last t j m tl hlast hmem hmtl
            rcases hy : nextSame t m j with _ | y
            · rw [hy] at hsome; exact absurd hsome (by simp)
            · rfl
          · rw [if_neg (fun hc => hji hc.1), orElse_none_right]
      · have he : m = t.nodes.size := by omega
        subst he
        rw [ha3] at hj ⊢
        injection hj with hj2
        subst hj2
        rw [hnxt, nextSame_none_of_ge t _ _ (le_refl _)]
        simp
    refine ⟨F1, F2, F3, F4, F5, F6, F7, F8, F9, F10, ?_, ?_, ?_⟩
    · rw [hh, replaceAssoc_map_fst]
      exact hwf.hyper_keys
    · intro j h1 tl1 hl
      rw [hh] at hl
      by_cases hji : j = i
      · subst hji
        rw [lookup_replaceAssoc_self, hlook] at hl
        injection hl with hl2
        injection hl2 with hl3 hl4
        subst hl3
        subst hl4
        rw [hids, if_pos rfl]
        constructor
        · rcases hcase : itemIds t j with _ | ⟨x, xs⟩
          · rw [hcase] at hhead; simp at hhead
          · rw [hcase] at hhead
            simpa using hhead
        · rw [List.getLast?_concat]
      · rw [lookup_replaceAssoc_ne _ _ _ _ hji] at hl
        obtain ⟨o1, o2⟩ := hwf.hyper_lookup j h1 tl1 hl
        rw [hids, if_neg hji]
        exact ⟨o1, o2⟩
    · intro j hne
      rw [hids] at hne
      rw [hh]
      by_cases hji : j = i
      · subst hji
        rw [lookup_replaceAssoc_self, hlook]
        rfl
      · rw [if_neg hji] at hne
        rw [lookup_replaceAssoc_ne _ _ _ _ hji]
        exact hwf.hyper_complete j hne

theorem wf_addTransactionFrom (l : List Item) : ∀ (t : FPTree) (p : Nat),
    WF t → p < t.nodes.size → WF (t.addTransactionFrom p l) := by
  induction l with
  | nil => intro t p hwf _; exact hwf
  | cons i rest ih =>
    intro t p hwf hp
    rcases hsearch : (t.nodeAt p).search i with _ | c
    · have hstep : t.addTransactionFrom p (i :: rest) =
          (t.attach p i 1).1.addTransactionFrom (t.attach p i 1).2 rest := by
        show (match (t.nodeAt p).search i with
          | some nxt =>
            (t.setNode nxt { t.nodeAt nxt with
                support := (t.nodeAt nxt).support.map
                  (· + 1) }).addTransactionFrom nxt rest
          | none =>
            ((t.attach p i 1).1).addTransactionFrom (t.attach p i 1).2
              rest) = _
        rw [hsearch]
      rw [hstep]
      have hwf2 := wf_attach t hwf p i 1 hp hsearch
      obtain ⟨ha1, ha2, _, _, _⟩ := attach_spec t p i 1 hp hsearch (by
        intro h0 tl hl
        exact ((mem_itemIds t i tl).mp
          (getLast?_mem _ _ (hwf.hyper_lookup i h0 tl hl).2)).1)
      exact ih _ _ hwf2 (by rw [ha1, ha2]; omega)
    · have hstep : t.addTransactionFrom p (i :: rest) =
          (t.setNode c { t.nodeAt c with
            support := (t.nodeAt c).support.map
              (· + 1) }).addTransactionFrom c rest := by
        show (match (t.nodeAt p).search i with
          | some nxt =>
            (t.setNode nxt { t.nodeAt nxt with
                support := (t.nodeAt nxt).support.map
                  (· + 1) }).addTransactionFrom nxt rest
          | none =>
            ((t.attach p i 1).1).addTransactionFrom (t.attach p i 1).2
              rest) = _
        rw [hsearch]
      rw [hstep]
      have hc : c < t.nodes.size :=
        (hwf.children_wf p hp i c (lookup_mem _ _ _ hsearch)).2.1
      exact ih _ _ (wf_setSupportMap t hwf c _)
        (by rw [FPTree.size_setNode]; exact hc)

theorem wf_add_transaction (t : FPTree) (hwf : WF t) (l : List Item) :
    WF (t.add_transaction l) :=
  wf_addTransactionFrom l t 0 hwf hwf.size_pos

theorem wf_foldl_add (ts : List (List Item)) : ∀ (t : FPTree), WF t →
    WF (ts.foldl FPTree.add_transaction t) := by
  induction ts with
  | nil => intro t hwf; exact hwf
  | cons l rest ih =>
    intro t hwf
    exact ih _ (wf_add_transaction t hwf l)

theorem wf_buildTree (ts : List (List Item)) : WF (buildTree ts) :=
  wf_foldl_add ts FPTree.new wf_new

theorem wf_insertPath (path : List PathNode) : ∀ (t : FPTree) (seed : Item)
    (cur : Nat), WF t → cur < t.nodes.size →
    WF (t.insertPath seed cur path) := by
  induction path with
  | nil => intro t seed cur hwf _; exact hwf
  | cons pn rest ih =>
    intro t seed cur hwf hcur
    rcases hsearch : (t.nodeAt cur).search pn.item with _ | c
    · have hstep : t.insertPath seed cur (pn :: rest) =
          (t.attach cur pn.item
            (if pn.item == seed then pn.support else 0)).1.insertPath seed
            (t.attach cur pn.item
              (if pn.item == seed then pn.support else 0)).2 rest := by
        show (match (t.nodeAt cur).search pn.item with
          | some nxt => t.insertPath seed nxt rest
          | none =>
            ((t.attach cur pn.item
              (if pn.item == seed then pn.support else 0)).1).insertPath
              seed
              (t.attach cur pn.item
                (if pn.item == seed then pn.support else 0)).2 rest) = _
        rw [hsearch]
      rw [hstep]
      have hwf2 := wf_attach t hwf cur pn.item
        (if pn.item == seed then pn.support else 0) hcur hsearch
      obtain ⟨ha1, ha2, _, _, _⟩ := attach_spec t cur pn.item
        (if pn.item == seed then pn.support else 0) hcur hsearch (by
          intro h0 tl hl
          exact ((mem_itemIds t pn.item tl).mp
            (getLast?_mem _ _ (hwf.hyper_lookup pn.item h0 tl hl).2)).1)
      exact ih _ _ _ hwf2 (by rw [ha1, ha2]; omega)
    · have hstep : t.insertPath seed cur (pn :: rest) =
          t.insertPath seed c rest := by
        show (match (t.nodeAt cur).search pn.item with
          | some nxt => t.insertPath seed nxt rest
          | none =>
            ((t.attach cur pn.item
              (if pn.item == seed then pn.support else 0)).1).insertPath
              seed
              (t.attach cur pn.item
                (if pn.item == seed then pn.support else 0)).2 rest) = _
        rw [hsearch]
      rw [hstep]
      have hc : c < t.nodes.size :=
        (hwf.children_wf cur hcur pn.item c (lookup_mem _ _ _ hsearch)).2.1
      exact ih _ _ _ hwf hc

theorem wf_projectStep (t : FPTree) (seed : Option Item)
    (path : List PathNode) (t2 : FPTree) (seed2 : Option Item) (hwf : WF t)
    (h : projectStep t seed path = .ok (t2, seed2)) : WF t2 := by
  unfold projectStep at h
  by_cases hs : seedTruthy seed = true
  · rw [if_pos hs] at h
    injection h with h2
    obtain rfl : t.insertPath (seed.getD 0) 0 path = t2 :=
      congrArg Prod.fst h2
    exact wf_insertPath path t _ 0 hwf hwf.size_pos
  · rw [if_neg hs] at h
    rcases hl : path.getLast? with _ | pn
    · rw [hl] at h
      exact absurd h (by simp)
    · rw [hl] at h
      injection h with h2
      obtain rfl : t.insertPath pn.item 0 path = t2 :=
        congrArg Prod.fst h2
      exact wf_insertPath path t _ 0 hwf hwf.size_pos

theorem wf_projectBuildAux (paths : List (List PathNode)) :
    ∀ (t0 : FPTree) (seed0 : Option Item) (t : FPTree)
      (seed : Option Item), WF t0 →
      paths.foldlM (fun ts path => projectStep ts.1 ts.2 path) (t0, seed0) =
        .ok (t, seed) → WF t := by
  induction paths with
  | nil =>
    intro t0 seed0 t seed hwf h
    injection h with h2
    obtain rfl : t0 = t := congrArg Prod.fst h2
    exact hwf
  | cons p rest ih =>
    intro t0 seed0 t seed hwf h
    rw [List.foldlM_cons] at h
    rcases hstep : projectStep t0 seed0 p with _ | ⟨t1, seed1⟩
    · rw [hstep] at h
      exact Except.noConfusion h
    · rw [hstep] at h
      have hwf1 := wf_projectStep t0 seed0 p t1 seed1 hwf hstep
      exact ih t1 seed1 t seed hwf1 h

theorem wf_propagate_fold (ids : List Nat) : ∀ (t : FPTree) (s : Nat),
    WF t →
    WF (ids.foldl (fun t2 nid => t2.setNode nid
      { t2.nodeAt nid with
        support := (t2.nodeAt nid).support.map (· + s) }) t) := by
  induction ids with
  | nil => intro t s hwf; exact hwf
  | cons x xs ih =>
    intro t s hwf
    exact ih _ s (wf_setSupportMap t hwf x _)

theorem wf_propagateOne (t : FPTree) (path : List Nat) (hwf : WF t) :
    WF (propagateOne t path) := by
  unfold propagateOne
  rcases path.getLast? with _ | lastId
  · exact hwf
  · exact wf_propagate_fold _ t _ hwf

theorem wf_propagate_paths (ps : List (List Nat)) : ∀ (t : FPTree), WF t →
    WF (ps.foldl propagateOne t) := by
  induction ps with
  | nil => intro t hwf; exact hwf
  | cons p rest ih =>
    intro t hwf
    exact ih _ (wf_propagateOne t p hwf)

theorem wf_project (paths : List (List PathNode)) (ct : FPTree)
    (h : project paths = .ok ct) : WF ct := by
  unfold project at h
  rcases hb : projectBuild paths with _ | ⟨t, seed⟩
  · rw [hb] at h
    exact Except.noConfusion h
  · rw [hb] at h
    rcases seed with _ | v
    · exact Except.noConfusion h
    · replace h : (match t.prefix_paths v with
        | Except.error _ => (Except.error () : Except Unit FPTree)
        | Except.ok ps => Except.ok (ps.foldl propagateOne t)) =
          Except.ok ct := h
      rcases hp : t.prefix_paths v with _ | ps
      · rw [hp] at h
        exact Except.noConfusion h
      · rw [hp] at h
        replace h : Except.ok (ps.foldl propagateOne t) = Except.ok ct := h
        injection h with h2
        rw [← h2]
        have hwft : WF t :=
          wf_projectBuildAux paths FPTree.new none t (some v) wf_new hb
        exact wf_propagate_paths ps t hwft

theorem wf_built (t : FPTree) (h : Built t) : WF t := by
  induction h with
  | new => exact wf_new
  | add t2 l _ ih => exact wf_add_transaction t2 ih l
  | proj t2 i ps ct _ _ hproj _ => exact wf_project _ ct hproj

theorem itemIds_length_le (t : FPTree) (i : Item) :
    (itemIds t i).length ≤ t.nodes.size := by
  unfold itemIds
  calc ((List.range t.nodes.size).filter _).length
      ≤ (List.range t.nodes.size).length := List.length_filter_le _ _
    _ = t.nodes.size := List.length_range _

theorem chainFrom_split (t : FPTree) (hwf : WF t) (i : Item) :
    ∀ (l2 : List Nat) (fuel m : Nat) (l1 : List Nat),
      itemIds t i = l1 ++ m :: l2 → l2.length < fuel →
      t.chainFrom fuel m = m :: l2 := by
  intro l2
  induction l2 generalizing i with
  | nil =>
    intro fuel m l1 hsplit hfuel
    match fuel, hfuel with
    | fuel + 1, _ =>
      have hmem : m ∈ itemIds t i := by rw [hsplit]; simp
      obtain ⟨hms, hmi⟩ := (mem_itemIds t i m).mp hmem
      have hlink : (t.nodeAt m).link = nextSame t m i :=
        hwf.link_next m hms i hmi
      have hnone : nextSame t m i = none := by
        rw [nextSame_eq_filter]
        rw [show (itemIds t i).filter (fun x => decide (m < x)) = []
          from ?_]
        · rfl
        · rw [List.filter_eq_nil_iff]
          intro a ha
          have := sorted_le_getLast _ (itemIds_sorted t i) m
            (by rw [hsplit, List.getLast?_concat]) a ha
          simp
          omega
      show m :: (match (t.nodeAt m).link with
        | none => []
        | some nxt => t.chainFrom fuel nxt) = m :: []
      rw [hlink, hnone]
  | cons m2 l2x ih =>
    intro fuel m l1 hsplit hfuel
    match fuel, hfuel with
    | fuel + 1, hfuel =>
      have hmem : m ∈ itemIds t i := by rw [hsplit]; simp
      obtain ⟨hms, hmi⟩ := (mem_itemIds t i m).mp hmem
      have hlink : (t.nodeAt m).link = nextSame t m i :=
        hwf.link_next m hms i hmi
      have hsorted := itemIds_sorted t i
      rw [hsplit, List.pairwise_append] at hsorted
      have hnext : nextSame t m i = some m2 := by
        rw [nextSame_eq_filter]
        rw [show (itemIds t i).filter (fun x => decide (m < x)) =
            m2 :: l2x from ?_]
        · rfl
        · rw [hsplit, List.filter_append]
          rw [show l1.filter (fun x => decide (m < x)) = [] from by
            rw [List.filter_eq_nil_iff]
            intro a ha
            have := hsorted.2.2 a ha m (by simp)
            simp
            omega]
          rw [List.nil_append, List.filter_cons,
            if_neg (by simp)]
          rw [List.filter_eq_self.mpr ?_]
          intro a ha
          have := hsorted.2.1
          rw [List.pairwise_cons] at this
          have := this.1 a ha
          simp
          omega
      show m :: (match (t.nodeAt m).link with
        | none => []
        | some nxt => t.chainFrom fuel nxt) = m :: m2 :: l2x
      rw [hlink, hnext]
      show m :: t.chainFrom fuel m2 = m :: m2 :: l2x
      rw [ih i fuel m2 (l1 ++ [m])
        (by rw [hsplit]; simp) (by simpa using hfuel)]

theorem chain_eq_itemIds (t : FPTree) (hwf : WF t) (i : Item)
    (h0 tl : Nat) (hl : t.hyperlinks.lookup i = some (h0, tl)) :
    t.chainFrom t.nodes.size h0 = itemIds t i := by
  have hhead := (hwf.hyper_lookup i h0 tl hl).1
  rcases hcase : itemIds t i with _ | ⟨x, xs⟩
  · rw [hcase] at hhead; simp at hhead
  · rw [hcase] at hhead
    have hx : x = h0 := by simpa using hhead
    subst hx
    rw [chainFrom_split t hwf i xs t.nodes.size x [] hcase ?_]
    have := itemIds_length_le t i
    rw [hcase] at this
    simp at this
    omega

/-- C8: in every tree the program can reach, following `link` from
`item_index[i].head` visits exactly the non-root nodes carrying item `i` —
each exactly once (the id list is duplicate-free), in creation (= insertion)
order (ids strictly increase along the chain) — and every node carrying an
item is reachable this way (the item is always indexed). -/
theorem c8_item_chain (t : FPTree) (hb : Built t) :
    (∀ i h0 tl, t.hyperlinks.lookup i = some (h0, tl) →
      t.chainFrom t.nodes.size h0 = itemIds t i ∧
      (itemIds t i).Nodup ∧ (itemIds t i).Pairwise (· < ·)) ∧
    (∀ i nid, 0 < nid → nid < t.nodes.size →
      (t.nodeAt nid).item = some i →
      ∃ h0 tl, t.hyperlinks.lookup i = some (h0, tl) ∧
        nid ∈ t.chainFrom t.nodes.size h0) := by
  have hwf := wf_built t hb
  constructor
  · intro i h0 tl hl
    exact ⟨chain_eq_itemIds t hwf i h0 tl hl, itemIds_nodup t i,
      itemIds_sorted t i⟩
  · intro i nid h1 h2 hitem
    have hmem : nid ∈ itemIds t i := (mem_itemIds t i nid).mpr ⟨h2, hitem⟩
    have hne : itemIds t i ≠ [] := by
      intro hc
      rw [hc] at hmem
      simp at hmem
    have hsome := hwf.hyper_complete i hne
    rcases hl : t.hyperlinks.lookup i with _ | ⟨h0, tl⟩
    · rw [hl] at hsome; exact absurd hsome (by simp)
    · refine ⟨h0, tl, rfl, ?_⟩
      rw [chain_eq_itemIds t hwf i h0 tl hl]
      exact hmem

theorem built_demoTree : Built demoTree :=
  Built.add _ [1, 2, 3] (Built.add _ [2, 3] (Built.add _ [1, 3]
    (Built.add _ [1, 2] (Built.add _ [1, 2, 3] Built.new))))

/-- C8, witness: the demo tree. -/
theorem c8_item_chain_witness :
    (∀ i h0 tl, demoTree.hyperlinks.lookup i = some (h0, tl) →
      demoTree.chainFrom demoTree.nodes.size h0 = itemIds demoTree i ∧
      (itemIds demoTree i).Nodup ∧
      (itemIds demoTree i).Pairwise (· < ·)) ∧
    (∀ i nid, 0 < nid → nid < demoTree.nodes.size →
      (demoTree.nodeAt nid).item = some i →
      ∃ h0 tl, demoTree.hyperlinks.lookup i = some (h0, tl) ∧
        nid ∈ demoTree.chainFrom demoTree.nodes.size h0) :=
  c8_item_chain demoTree built_demoTree

theorem sum_map_bump (l : List Nat) (f g : Nat → Nat) (c : Nat)
    (h : ∀ m ∈ l, g m = if m = c then f m + 1 else f m) (hnd : l.Nodup) :
    (l.map g).sum = (l.map f).sum + (if c ∈ l then 1 else 0) := by
  induction l with
  | nil => simp
  | cons x xs ih =>
    rw [List.nodup_cons] at hnd
    have hx := h x (List.mem_cons_self ..)
    have hxs : ∀ m ∈ xs, g m = if m = c then f m + 1 else f m :=
      fun m hm => h m (List.mem_cons_of_mem _ hm)
    rw [List.map_cons, List.map_cons, List.sum_cons, List.sum_cons,
      ih hxs hnd.2, hx]
    by_cases hxc : x = c
    · subst hxc
      rw [if_pos rfl, if_pos (List.mem_cons_self ..),
        if_neg hnd.1]
      omega
    · rw [if_neg hxc]
      by_cases hcm : c ∈ xs
      · rw [if_pos hcm, if_pos (List.mem_cons_of_mem _ hcm)]
        omega
      · rw [if_neg hcm, if_neg (by
          rw [List.mem_cons]
          rintro (rfl | hc2)
          · exact hxc rfl
          · exact hcm hc2)]
        omega

theorem supSum_set_bump (t : FPTree) (hwf : WF t) (c : Nat)
    (hc : c < t.nodes.size) (h0c : 0 < c) (i : Item) :
    supSum (t.setNode c { t.nodeAt c with
      support := (t.nodeAt c).support.map (· + 1) }) i =
      supSum t i + (if (t.nodeAt c).item = some i then 1 else 0) := by
  have hitem : ∀ m, ((t.setNode c { t.nodeAt c with
      support := (t.nodeAt c).support.map (· + 1) }).nodeAt m).item =
      (t.nodeAt m).item := by
    intro m
    rw [FPTree.nodeAt_setNode]
    by_cases hcm : c = m ∧ c < t.nodes.size
    · rw [if_pos hcm, hcm.1]
    · rw [if_neg hcm]
  have hids : itemIds (t.setNode c { t.nodeAt c with
      support := (t.nodeAt c).support.map (· + 1) }) i = itemIds t i :=
    itemIds_congr _ _ i (FPTree.size_setNode ..) (fun m _ => hitem m)
  unfold supSum
  rw [hids]
  rw [sum_map_bump (itemIds t i) (supAt t) _ c ?_ (itemIds_nodup t i)]
  · congr 1
    by_cases hmem : c ∈ itemIds t i
    · rw [if_pos hmem,
        if_pos ((mem_itemIds t i c).mp hmem).2]
    · rw [if_neg hmem,
        if_neg (fun hc2 => hmem ((mem_itemIds t i c).mpr ⟨hc, hc2⟩))]
  · intro m hm
    unfold supAt
    rw [FPTree.nodeAt_setNode]
    by_cases hcm : m = c
    · subst hcm
      rw [if_pos ⟨rfl, hc⟩, if_pos rfl]
      obtain ⟨s, hs⟩ := Option.isSome_iff_exists.mp
        (hwf.nonroot_support m h0c hc)
      simp [hs]
    · rw [if_neg (fun hcon => hcm hcon.1.symm), if_neg hcm]

theorem supSum_attach (t : FPTree) (hwf : WF t) (pid : Nat) (i : Item)
    (s : Nat) (hpid : pid < t.nodes.size)
    (hmiss : (t.nodeAt pid).children.lookup i = none) (j : Item) :
    supSum (t.attach pid i s).1 j =
      supSum t j + (if j = i then s else 0) := by
  obtain ⟨ha1, ha2, ha3, ha4, ha5⟩ := attach_spec t pid i s hpid hmiss (by
    intro h0 tl hl
    exact ((mem_itemIds t i tl).mp
      (getLast?_mem _ _ (hwf.hyper_lookup i h0 tl hl).2)).1)
  have hitem : ∀ m, m < t.nodes.size →
      ((t.attach pid i s).1.nodeAt m).item = (t.nodeAt m).item := by
    intro m hm; rw [ha4 m hm, attachSpecNode_item]
  have hsupp : ∀ m, m < t.nodes.size →
      ((t.attach pid i s).1.nodeAt m).support = (t.nodeAt m).support := by
    intro m hm; rw [ha4 m hm, attachSpecNode_support]
  have hids := itemIds_succ t (t.attach pid i s).1 i j ha2 hitem
    (by rw [ha3])
  unfold supSum
  rw [hids]
  have hmapeq : ∀ (l : List Nat), (∀ m ∈ l, m < t.nodes.size) →
      (l.map (supAt (t.attach pid i s).1)).sum = (l.map (supAt t)).sum := by
    intro l hl
    congr 1
    apply List.map_congr_left
    intro m hm
    unfold supAt
    rw [hsupp m (hl m hm)]
  by_cases hji : j = i
  · rw [if_pos hji, if_pos hji, List.map_append, List.sum_append]
    rw [hmapeq (itemIds t j) (fun m hm => ((mem_itemIds t j m).mp hm).1)]
    have hlast : ((([t.nodes.size] : List Nat)).map
        (supAt (t.attach pid i s).1)).sum = s := by
      show supAt (t.attach pid i s).1 t.nodes.size + 0 = s
      unfold supAt
      rw [ha3]
      rfl
    rw [hlast]
  · rw [if_neg hji, if_neg hji]
    rw [hmapeq (itemIds t j) (fun m hm => ((mem_itemIds t j m).mp hm).1)]
    omega

theorem supSum_addTransactionFrom (l : List Item) : ∀ (t : FPTree) (p : Nat),
    WF t → p < t.nodes.size → ∀ j,
    supSum (t.addTransactionFrom p l) j = supSum t j + l.count j := by
  induction l with
  | nil => intro t p _ _ j; simp [FPTree.addTransactionFrom]
  | cons i rest ih =>
    intro t p hwf hp j
    rcases hsearch : (t.nodeAt p).search i with _ | c
    · have hstep : t.addTransactionFrom p (i :: rest) =
          (t.attach p i 1).1.addTransactionFrom (t.attach p i 1).2 rest := by
        show (match (t.nodeAt p).search i with
          | some nxt =>
            (t.setNode nxt { t.nodeAt nxt with
                support := (t.nodeAt nxt).support.map
                  (· + 1) }).addTransactionFrom nxt rest
          | none =>
            ((t.attach p i 1).1).addTransactionFrom (t.attach p i 1).2
              rest) = _
        rw [hsearch]
      rw [hstep]
      have hwf2 := wf_attach t hwf p i 1 hp hsearch
      obtain ⟨ha1, ha2, _, _, _⟩ := attach_spec t p i 1 hp hsearch (by
        intro h0 tl hl
        exact ((mem_itemIds t i tl).mp
          (getLast?_mem _ _ (hwf.hyper_lookup i h0 tl hl).2)).1)
      rw [ih _ _ hwf2 (by rw [ha1, ha2]; omega) j]
      rw [supSum_attach t hwf p i 1 hp hsearch j]
      rw [List.count_cons]
      by_cases hji : j = i
      · subst hji
        simp
        omega
      · rw [if_neg hji,
          if_neg (show ¬ (i == j) = true by simpa using Ne.symm hji)]
        omega
    · have hstep : t.addTransactionFrom p (i :: rest) =
          (t.setNode c { t.nodeAt c with
            support := (t.nodeAt c).support.map
              (· + 1) }).addTransactionFrom c rest := by
        show (match (t.nodeAt p).search i with
          | some nxt =>
            (t.setNode nxt { t.nodeAt nxt with
                support := (t.nodeAt nxt).support.map
                  (· + 1) }).addTransactionFrom nxt rest
          | none =>
            ((t.attach p i 1).1).addTransactionFrom (t.attach p i 1).2
              rest) = _
        rw [hsearch]
      rw [hstep]
      obtain ⟨hcw1, hcw2, hcw3, hcw4⟩ :=
        hwf.children_wf p hp i c (lookup_mem _ _ _ hsearch)
      rw [ih _ _ (wf_setSupportMap t hwf c _)
        (by rw [FPTree.size_setNode]; exact hcw2) j]
      rw [supSum_set_bump t hwf c hcw2 (by omega) j]
      rw [List.count_cons, hcw3]
      by_cases hji : j = i
      · subst hji
        simp
        omega
      · rw [if_neg (show ¬ ((some i : Option Item) = some j) by
            simpa using Ne.symm hji),
          if_neg (show ¬ (i == j) = true by simpa using Ne.symm hji)]
        omega

theorem supSum_new (j : Item) : supSum FPTree.new j = 0 := by
  unfold supSum
  rw [itemIds_new]
  rfl

theorem supSum_buildTree (ts : List (List Item)) : ∀ (t : FPTree), WF t →
    ∀ j, supSum (ts.foldl FPTree.add_transaction t) j =
      supSum t j + (ts.map (fun tr => tr.count j)).sum := by
  induction ts with
  | nil => intro t _ j; simp
  | cons tr rest ih =>
    intro t hwf j
    rw [List.foldl_cons]
    rw [ih _ (wf_add_transaction t hwf tr) j]
    show supSum (t.addTransactionFrom 0 tr) j + _ = _
    rw [supSum_addTransactionFrom tr t 0 hwf hwf.size_pos j]
    simp [List.sum_cons]
    omega

theorem count_eq_mem_of_nodup (tr : List Item) (hnd : tr.Nodup) (j : Item) :
    tr.count j = if j ∈ tr then 1 else 0 := by
  by_cases hm : j ∈ tr
  · rw [if_pos hm]
    exact List.count_eq_one_of_mem hnd hm
  · rw [if_neg hm]
    exact List.count_eq_zero_of_not_mem hm

theorem sum_count_eq_countP (i : Item) : ∀ ts : List (List Item),
    (∀ tr ∈ ts, tr.Nodup) →
    (ts.map (fun tr => tr.count i)).sum =
      ts.countP (fun tr => decide (i ∈ tr))
  | [], _ => rfl
  | tr :: rest, hnd => by
    rw [List.map_cons, List.sum_cons, List.countP_cons]
    rw [sum_count_eq_countP i rest
      (fun x hx => hnd x (List.mem_cons_of_mem _ hx))]
    rw [count_eq_mem_of_nodup tr (hnd tr (List.mem_cons_self ..)) i]
    by_cases hm : i ∈ tr
    · rw [if_pos hm, if_pos (by simpa using hm)]
      omega
    · rw [if_neg hm, if_neg (by simpa using hm)]
      omega

/-- C4: for a tree built by `add_transaction` from duplicate-free
(filtered) transactions, the supports along any item's linked list sum to
the number of inserted transactions containing that item. -/
theorem c4_support_conservation (ts : List (List Item))
    (hnd : ∀ tr ∈ ts, tr.Nodup) (i : Item) (ns : List Nat)
    (h : (buildTree ts).nodesOf i = .ok ns) :
    chainSupport (buildTree ts) ns =
      ts.countP (fun tr => decide (i ∈ tr)) := by
  have hwf := wf_buildTree ts
  rcases hl : (buildTree ts).hyperlinks.lookup i with _ | ⟨h0, tl⟩
  · unfold FPTree.nodesOf at h
    rw [hl] at h
    exact Except.noConfusion h
  · unfold FPTree.nodesOf at h
    rw [hl] at h
    replace h : Except.ok ((buildTree ts).chainFrom
        (buildTree ts).nodes.size h0) = Except.ok ns := h
    injection h with h2
    rw [← h2, chain_eq_itemIds _ hwf i h0 tl hl]
    show supSum (buildTree ts) i = _
    unfold buildTree
    rw [supSum_buildTree ts FPTree.new wf_new i, supSum_new,
      sum_count_eq_countP i ts hnd]
    omega

/-- C4, witness: item 3 of the demo tree has linked list `[3, 4, 6]` with
supports summing to 4, the number of transactions containing 3. -/
theorem c4_support_conservation_witness :
    chainSupport (buildTree demoTransactions) [3, 4, 6] =
      demoTransactions.countP (fun tr => decide ((3 : Item) ∈ tr)) :=
  c4_support_conservation demoTransactions (by decide) 3 [3, 4, 6]
    (by decide)

theorem lookup_isSome_iff_mem_keys {β : Type} (l : List (Item × β))
    (i : Item) : (l.lookup i).isSome ↔ i ∈ l.map Prod.fst := by
  constructor
  · intro h
    by_contra hmem
    rw [← lookup_eq_none_iff] at hmem
    rw [hmem] at h
    simp at h
  · intro h
    rcases hl : l.lookup i with _ | v
    · exact absurd h (fun hc => by
        rw [lookup_eq_none_iff] at hl
        exact hl hc)
    · rfl

theorem root_isRoot (t : FPTree) (hwf : WF t) :
    (t.nodeAt 0).isRoot = true := by
  unfold FPNode.isRoot
  rw [hwf.root_item, hwf.root_support]
  rfl

theorem isRoot_false_of_item (n : FPNode) (j : Item) (h : n.item = some j) :
    n.isRoot = false := by
  unfold FPNode.isRoot
  rw [h]
  rfl

theorem pathTo_mem (t : FPTree) (hwf : WF t) :
    ∀ (fuel nid : Nat), nid < t.nodes.size →
    ∀ m ∈ t.pathTo fuel nid, 0 < m ∧ m < t.nodes.size := by
  intro fuel
  induction fuel with
  | zero =>
    intro nid _ m hm
    simp [FPTree.pathTo] at hm
  | succ f ih =>
    intro nid hnid m hm
    replace hm : m ∈ (if (t.nodeAt nid).isRoot then ([] : List Nat)
        else match (t.nodeAt nid).parent with
          | none => [nid]
          | some p => t.pathTo f p ++ [nid]) := hm
    by_cases hr : (t.nodeAt nid).isRoot
    · rw [if_pos hr] at hm
      simp at hm
    · rw [if_neg hr] at hm
      have hnid0 : 0 < nid := by
        rcases Nat.eq_zero_or_pos nid with h0 | h0
        · rw [h0] at hr
          exact absurd (root_isRoot t hwf) hr
        · exact h0
      rcases hp : (t.nodeAt nid).parent with _ | p
      · rw [hp] at hm
        simp at hm
        rw [hm]
        exact ⟨hnid0, hnid⟩
      · rw [hp] at hm
        rcases List.mem_append.mp hm with h1 | h1
        · obtain ⟨q, hq1, hq2⟩ := hwf.nonroot_parent nid hnid0 hnid
          rw [hp] at hq1
          injection hq1 with hq1
          exact ih p (by omega) m h1
        · simp at h1
          rw [h1]
          exact ⟨hnid0, hnid⟩

theorem pathTo_getLast (t : FPTree) (fuel nid : Nat) (hfuel : 0 < fuel)
    (hr : (t.nodeAt nid).isRoot = false) :
    (t.pathTo fuel nid).getLast? = some nid := by
  rcases fuel with _ | f
  · omega
  · show (if (t.nodeAt nid).isRoot then ([] : List Nat)
        else match (t.nodeAt nid).parent with
          | none => [nid]
          | some p => t.pathTo f p ++ [nid]).getLast? = some nid
    rw [if_neg (by rw [hr]; exact Bool.false_ne_true)]
    rcases (t.nodeAt nid).parent with _ | p
    · rfl
    · exact List.getLast?_concat _

theorem pathData_getLast (t : FPTree) (p : List Nat) (nid : Nat)
    (h : p.getLast? = some nid) :
    (pathData t p).getLast? = some
      { item := (t.nodeAt nid).item.getD 0,
        support := (t.nodeAt nid).support.getD 0 } := by
  unfold pathData
  rw [List.getLast?_map, h]
  rfl

theorem attach_hyper_lookup (t : FPTree) (pid : Nat) (i : Item) (s : Nat)
    (hpid : pid < t.nodes.size)
    (hmiss : (t.nodeAt pid).children.lookup i = none)
    (htl : ∀ h0 tl, t.hyperlinks.lookup i = some (h0, tl) →
      tl < t.nodes.size) (j : Item) :
    ((t.attach pid i s).1.hyperlinks.lookup j).isSome ↔
      (j = i ∨ (t.hyperlinks.lookup j).isSome) := by
  obtain ⟨_, _, _, _, ha5⟩ := attach_spec t pid i s hpid hmiss htl
  rw [ha5]
  rcases hl : t.hyperlinks.lookup i with _ | ⟨h0, tl⟩
  · rw [lookup_append]
    rcases hj : t.hyperlinks.lookup j with _ | v
    · by_cases hji : j = i
      · rw [hji]
        simp [lookup_cons]
      · simp [lookup_cons, hji, hj]
    · simp [hj]
  · by_cases hji : j = i
    · rw [hji, lookup_replaceAssoc_self, hl]
      simp
    · rw [lookup_replaceAssoc_ne _ _ _ _ hji]
      simp [hji]

theorem wf_htl (t : FPTree) (hwf : WF t) (i : Item) :
    ∀ h0 tl, t.hyperlinks.lookup i = some (h0, tl) → tl < t.nodes.size := by
  intro h0 tl hl
  exact ((mem_itemIds t i tl).mp
    (getLast?_mem _ _ (hwf.hyper_lookup i h0 tl hl).2)).1

theorem child_hyper_isSome (t : FPTree) (hwf : WF t) (cur : Nat)
    (hcur : cur < t.nodes.size) (j : Item) (c : Nat)
    (hsearch : (t.nodeAt cur).search j = some c) :
    (t.hyperlinks.lookup j).isSome := by
  obtain ⟨hc1, hc2, hc3, _⟩ :=
    hwf.children_wf cur hcur j c (lookup_mem _ _ _ hsearch)
  apply hwf.hyper_complete
  intro hnil
  have : c ∈ itemIds t j := (mem_itemIds t j c).mpr ⟨hc2, hc3⟩
  rw [hnil] at this
  simp at this

theorem insertPath_lookup_mono (p : List PathNode) : ∀ (t : FPTree)
    (seed : Item) (cur : Nat) (j : Item), WF t → cur < t.nodes.size →
    (t.hyperlinks.lookup j).isSome →
    ((t.insertPath seed cur p).hyperlinks.lookup j).isSome := by
  induction p with
  | nil => intro t seed cur j _ _ h; exact h
  | cons pn rest ih =>
    intro t seed cur j hwf hcur h
    rcases hsearch : (t.nodeAt cur).search pn.item with _ | c
    · have hstep : t.insertPath seed cur (pn :: rest) =
          (t.attach cur pn.item
            (if pn.item == seed then pn.support else 0)).1.insertPath seed
            (t.attach cur pn.item
              (if pn.item == seed then pn.support else 0)).2 rest := by
        show (match (t.nodeAt cur).search pn.item with
          | some nxt => t.insertPath seed nxt rest
          | none =>
            ((t.attach cur pn.item
              (if pn.item == seed then pn.support else 0)).1).insertPath
              seed
              (t.attach cur pn.item
                (if pn.item == seed then pn.support else 0)).2 rest) = _
        rw [hsearch]
      rw [hstep]
      have hwf2 := wf_attach t hwf cur pn.item
        (if pn.item == seed then pn.support else 0) hcur hsearch
      obtain ⟨ha1, ha2, _, _, _⟩ := attach_spec t cur pn.item
        (if pn.item == seed then pn.support else 0) hcur hsearch
        (wf_htl t hwf pn.item)
      have hmono := (attach_hyper_lookup t cur pn.item
        (if pn.item == seed then pn.support else 0) hcur hsearch
        (wf_htl t hwf pn.item) j).mpr (Or.inr h)
      exact ih _ _ _ _ hwf2 (by rw [ha1, ha2]; omega) hmono
    · have hstep : t.insertPath seed cur (pn :: rest) =
          t.insertPath seed c rest := by
        show (match (t.nodeAt cur).search pn.item with
          | some nxt => t.insertPath seed nxt rest
          | none =>
            ((t.attach cur pn.item
              (if pn.item == seed then pn.support else 0)).1).insertPath
              seed
              (t.attach cur pn.item
                (if pn.item == seed then pn.support else 0)).2 rest) = _
        rw [hsearch]
      rw [hstep]
      have hc : c < t.nodes.size :=
        (hwf.children_wf cur hcur pn.item c (lookup_mem _ _ _ hsearch)).2.1
      exact ih _ _ _ _ hwf hc h

theorem insertPath_lookup_last (p : List PathNode) : ∀ (t : FPTree)
    (seed : Item) (cur : Nat) (pn : PathNode), WF t → cur < t.nodes.size →
    p.getLast? = some pn →
    ((t.insertPath seed cur p).hyperlinks.lookup pn.item).isSome := by
  induction p with
  | nil =>
    intro t seed cur pn _ _ h
    simp at h
  | cons q rest ih =>
    intro t seed cur pn hwf hcur h
    rcases hsearch : (t.nodeAt cur).search q.item with _ | c
    · have hstep : t.insertPath seed cur (q :: rest) =
          (t.attach cur q.item
            (if q.item == seed then q.support else 0)).1.insertPath seed
            (t.attach cur q.item
              (if q.item == seed then q.support else 0)).2 rest := by
        show (match (t.nodeAt cur).search q.item with
          | some nxt => t.insertPath seed nxt rest
          | none =>
            ((t.attach cur q.item
              (if q.item == seed then q.support else 0)).1).insertPath
              seed
              (t.attach cur q.item
                (if q.item == seed then q.support else 0)).2 rest) = _
        rw [hsearch]
      rw [hstep]
      have hwf2 := wf_attach t hwf cur q.item
        (if q.item == seed then q.support else 0) hcur hsearch
      obtain ⟨ha1, ha2, _, _, _⟩ := attach_spec t cur q.item
        (if q.item == seed then q.support else 0) hcur hsearch
        (wf_htl t hwf q.item)
      rcases rest with _ | ⟨r, rs⟩
      · simp at h
        rw [← h]
        show (((t.attach cur q.item
          (if q.item == seed then q.support else 0)).1).hyperlinks.lookup
            q.item).isSome
        exact (attach_hyper_lookup t cur q.item
          (if q.item == seed then q.support else 0) hcur hsearch
          (wf_htl t hwf q.item) q.item).mpr (Or.inl rfl)
      · rw [List.getLast?_cons_cons] at h
        exact ih _ _ _ _ hwf2 (by rw [ha1, ha2]; omega) h
    · have hstep : t.insertPath seed cur (q :: rest) =
          t.insertPath seed c rest := by
        show (match (t.nodeAt cur).search q.item with
          | some nxt => t.insertPath seed nxt rest
          | none =>
            ((t.attach cur q.item
              (if q.item == seed then q.support else 0)).1).insertPath
              seed
              (t.attach cur q.item
                (if q.item == seed then q.support else 0)).2 rest) = _
        rw [hsearch]
      rw [hstep]
      have hc : c < t.nodes.size :=
        (hwf.children_wf cur hcur q.item c (lookup_mem _ _ _ hsearch)).2.1
      rcases rest with _ | ⟨r, rs⟩
      · simp at h
        rw [← h]
        exact child_hyper_isSome t hwf cur hcur q.item c hsearch
      · rw [List.getLast?_cons_cons] at h
        exact ih _ _ _ _ hwf hc h

theorem insertPath_keys_sub (p : List PathNode) : ∀ (t : FPTree)
    (seed : Item) (cur : Nat) (j : Item), WF t → cur < t.nodes.size →
    j ∈ (t.insertPath seed cur p).itemKeys →
    j ∈ t.itemKeys ∨ ∃ pn ∈ p, pn.item = j := by
  induction p with
  | nil => intro t seed cur j _ _ h; exact Or.inl h
  | cons q rest ih =>
    intro t seed cur j hwf hcur h
    rcases hsearch : (t.nodeAt cur).search q.item with _ | c
    · have hstep : t.insertPath seed cur (q :: rest) =
          (t.attach cur q.item
            (if q.item == seed then q.support else 0)).1.insertPath seed
            (t.attach cur q.item
              (if q.item == seed then q.support else 0)).2 rest := by
        show (match (t.nodeAt cur).search q.item with
          | some nxt => t.insertPath seed nxt rest
          | none =>
            ((t.attach cur q.item
              (if q.item == seed then q.support else 0)).1).insertPath
              seed
              (t.attach cur q.item
                (if q.item == seed then q.support else 0)).2 rest) = _
        rw [hsearch]
      rw [hstep] at h
      have hwf2 := wf_attach t hwf cur q.item
        (if q.item == seed then q.support else 0) hcur hsearch
      obtain ⟨ha1, ha2, _, _, _⟩ := attach_spec t cur q.item
        (if q.item == seed then q.support else 0) hcur hsearch
        (wf_htl t hwf q.item)
      rcases ih _ _ _ _ hwf2 (by rw [ha1, ha2]; omega) h with h1 | h1
      · have h2 : (((t.attach cur q.item
            (if q.item == seed then q.support else 0)).1).hyperlinks.lookup
              j).isSome :=
          (lookup_isSome_iff_mem_keys _ _).mpr h1
        rcases (attach_hyper_lookup t cur q.item
          (if q.item == seed then q.support else 0) hcur hsearch
          (wf_htl t hwf q.item) j).mp h2 with h3 | h3
        · exact Or.inr ⟨q, List.mem_cons_self .., h3.symm⟩
        · exact Or.inl ((lookup_isSome_iff_mem_keys _ _).mp h3)
      · obtain ⟨pn, hpn1, hpn2⟩ := h1
        exact Or.inr ⟨pn, List.mem_cons_of_mem _ hpn1, hpn2⟩
    · have hstep : t.insertPath seed cur (q :: rest) =
          t.insertPath seed c rest := by
        show (match (t.nodeAt cur).search q.item with
          | some nxt => t.insertPath seed nxt rest
          | none =>
            ((t.attach cur q.item
              (if q.item == seed then q.support else 0)).1).insertPath
              seed
              (t.attach cur q.item
                (if q.item == seed then q.support else 0)).2 rest) = _
        rw [hsearch]
      rw [hstep] at h
      have hc : c < t.nodes.size :=
        (hwf.children_wf cur hcur q.item c (lookup_mem _ _ _ hsearch)).2.1
      rcases ih _ _ _ _ hwf hc h with h1 | h1
      · exact Or.inl h1
      · obtain ⟨pn, hpn1, hpn2⟩ := h1
        exact Or.inr ⟨pn, List.mem_cons_of_mem _ hpn1, hpn2⟩

theorem foldl_insertPath_wf (paths : List (List PathNode)) (v : Item) :
    ∀ t : FPTree, WF t →
    WF (paths.foldl (fun t2 p => t2.insertPath v 0 p) t) := by
  induction paths with
  | nil => intro t hwf; exact hwf
  | cons p rest ih =>
    intro t hwf
    rw [List.foldl_cons]
    exact ih _ (wf_insertPath p t v 0 hwf hwf.size_pos)

theorem foldl_insertPath_lookup_mono (paths : List (List PathNode))
    (v : Item) : ∀ (t : FPTree) (j : Item), WF t →
    (t.hyperlinks.lookup j).isSome →
    ((paths.foldl (fun t2 p => t2.insertPath v 0 p) t).hyperlinks.lookup
      j).isSome := by
  induction paths with
  | nil => intro t j _ h; exact h
  | cons p rest ih =>
    intro t j hwf h
    rw [List.foldl_cons]
    exact ih _ j (wf_insertPath p t v 0 hwf hwf.size_pos)
      (insertPath_lookup_mono p t v 0 j hwf hwf.size_pos h)

theorem foldl_insertPath_keys_sub (paths : List (List PathNode))
    (v : Item) : ∀ (t : FPTree) (j : Item), WF t →
    j ∈ (paths.foldl (fun t2 p => t2.insertPath v 0 p) t).itemKeys →
    j ∈ t.itemKeys ∨ ∃ p ∈ paths, ∃ pn ∈ p, pn.item = j := by
  induction paths with
  | nil => intro t j _ h; exact Or.inl h
  | cons p rest ih =>
    intro t j hwf h
    rw [List.foldl_cons] at h
    rcases ih _ j (wf_insertPath p t v 0 hwf hwf.size_pos) h with h1 | h1
    · rcases insertPath_keys_sub p t v 0 j hwf hwf.size_pos h1 with h2 | h2
      · exact Or.inl h2
      · obtain ⟨pn, hpn1, hpn2⟩ := h2
        exact Or.inr ⟨p, List.mem_cons_self .., pn, hpn1, hpn2⟩
    · obtain ⟨q, hq1, pn, hpn1, hpn2⟩ := h1
      exact Or.inr ⟨q, List.mem_cons_of_mem _ hq1, pn, hpn1, hpn2⟩

theorem projectBuild_all_end (p0 : List PathNode)
    (rest : List (List PathNode)) (v : Item) (pn0 : PathNode)
    (h0 : p0.getLast? = some pn0) (hv : pn0.item = v)
    (hall : ∀ p ∈ rest, (p.getLast?).map PathNode.item = some v) :
    projectBuild (p0 :: rest) =
      .ok ((p0 :: rest).foldl (fun t2 p => t2.insertPath v 0 p) FPTree.new,
        some v) := by
  unfold projectBuild
  rw [List.foldlM_cons]
  have hstep : projectStep FPTree.new none p0 =
      .ok (FPTree.new.insertPath v 0 p0, some v) := by
    show (if seedTruthy none then
        Except.ok (FPTree.new.insertPath ((none : Option Item).getD 0) 0 p0,
          (none : Option Item))
      else
        match p0.getLast? with
        | none => Except.error ()
        | some pn =>
          Except.ok (FPTree.new.insertPath pn.item 0 p0, some pn.item)) = _
    rw [if_neg (show ¬ seedTruthy none = true from Bool.false_ne_true), h0]
    show Except.ok (FPTree.new.insertPath pn0.item 0 p0, some pn0.item) = _
    rw [hv]
  rw [hstep]
  have hcs := projectBuild_const_seed rest (FPTree.new.insertPath v 0 p0) v
    hall
  rw [List.foldl_cons]
  exact hcs

theorem foldl_setSupport_hyperlinks (ids : List Nat) : ∀ (t : FPTree)
    (s : Nat),
    (ids.foldl (fun t2 nid => t2.setNode nid
      { t2.nodeAt nid with
        support := (t2.nodeAt nid).support.map (· + s) }) t).hyperlinks =
      t.hyperlinks := by
  induction ids with
  | nil => intro t s; rfl
  | cons x xs ih =>
    intro t s
    rw [List.foldl_cons, ih]
    exact FPTree.hyperlinks_setNode ..

theorem propagateOne_hyperlinks (t : FPTree) (path : List Nat) :
    (propagateOne t path).hyperlinks = t.hyperlinks := by
  unfold propagateOne
  rcases path.getLast? with _ | lastId
  · rfl
  · exact foldl_setSupport_hyperlinks ..

theorem foldl_propagate_hyperlinks (ps : List (List Nat)) : ∀ (t : FPTree),
    (ps.foldl propagateOne t).hyperlinks = t.hyperlinks := by
  induction ps with
  | nil => intro t; rfl
  | cons p rest ih =>
    intro t
    rw [List.foldl_cons, ih, propagateOne_hyperlinks]

theorem project_ok (t : FPTree) (hwf : WF t) (i : Item)
    (ps : List (List Nat)) (hpp : t.prefix_paths i = .ok ps) :
    ∃ ct, project (ps.map (pathData t)) = .ok ct ∧
      ((ct.hyperlinks.lookup i).isSome ∧
        ∀ j, j ∈ ct.itemKeys → j ∈ t.itemKeys) := by
  rcases hl : t.hyperlinks.lookup i with _ | ⟨h0, tl⟩
  · exfalso
    unfold FPTree.prefix_paths FPTree.nodesOf at hpp
    rw [hl] at hpp
    exact Except.noConfusion hpp
  · have hns : t.nodesOf i = .ok (t.chainFrom t.nodes.size h0) := by
      unfold FPTree.nodesOf
      rw [hl]
    have hps : ps = (t.chainFrom t.nodes.size h0).map
        (t.pathTo t.nodes.size) := by
      unfold FPTree.prefix_paths at hpp
      rw [hns] at hpp
      replace hpp : Except.ok ((t.chainFrom t.nodes.size h0).map
        (t.pathTo t.nodes.size)) = Except.ok ps := hpp
      injection hpp with hpp
      exact hpp.symm
    have hchain : t.chainFrom t.nodes.size h0 = itemIds t i :=
      chain_eq_itemIds t hwf i h0 tl hl
    have hhead : (itemIds t i).head? = some h0 :=
      (hwf.hyper_lookup i h0 tl hl).1
    have hne : itemIds t i ≠ [] := by
      intro hc
      rw [hc] at hhead
      exact Option.noConfusion hhead
    have hmem : ∀ nid ∈ itemIds t i,
        0 < nid ∧ nid < t.nodes.size ∧ (t.nodeAt nid).item = some i := by
      intro nid hm
      obtain ⟨h1, h2⟩ := (mem_itemIds t i nid).mp hm
      refine ⟨?_, h1, h2⟩
      rcases Nat.eq_zero_or_pos nid with hz | hz
      · rw [hz] at h2
        rw [hwf.root_item] at h2
        exact Option.noConfusion h2
      · exact hz
    have hall : ∀ q ∈ ps.map (pathData t),
        (q.getLast?).map PathNode.item = some i := by
      intro q hq
      rw [hps] at hq
      rw [List.map_map] at hq
      obtain ⟨nid, hnid1, hnid2⟩ := List.mem_map.mp hq
      obtain ⟨hz, hlt, hit⟩ := hmem nid (by rw [← hchain]; exact hnid1)
      have hlast : (t.pathTo t.nodes.size nid).getLast? = some nid :=
        pathTo_getLast t t.nodes.size nid hwf.size_pos
          (isRoot_false_of_item _ i hit)
      have : q.getLast? = some
          { item := (t.nodeAt nid).item.getD 0,
            support := (t.nodeAt nid).support.getD 0 } := by
        rw [← hnid2]
        exact pathData_getLast t _ nid hlast
      rw [this, hit]
      rfl
    have hpsne : ps.map (pathData t) ≠ [] := by
      rw [hps, List.map_map]
      intro hc
      rw [List.map_eq_nil_iff] at hc
      rw [hchain] at hc
      exact hne hc
    rcases hq0 : ps.map (pathData t) with _ | ⟨q0, qrest⟩
    · exact absurd hq0 hpsne
    · have hq0all := hall q0 (by rw [hq0]; exact List.mem_cons_self ..)
      obtain ⟨pn0, hpn01, hpn02⟩ : ∃ pn0, q0.getLast? = some pn0 ∧
          pn0.item = i := by
        rcases hg : q0.getLast? with _ | pn0
        · rw [hg] at hq0all
          exact Option.noConfusion hq0all
        · rw [hg] at hq0all
          injection hq0all with hq0all
          exact ⟨pn0, rfl, hq0all⟩
      have hrestall : ∀ p ∈ qrest, (p.getLast?).map PathNode.item = some i :=
        fun p hp => hall p (by rw [hq0]; exact List.mem_cons_of_mem _ hp)
      have hpb := projectBuild_all_end q0 qrest i pn0 hpn01 hpn02 hrestall
      have hwfct : WF ((q0 :: qrest).foldl
          (fun t2 p => t2.insertPath i 0 p) FPTree.new) :=
        foldl_insertPath_wf _ i FPTree.new wf_new
      have hlk : (((q0 :: qrest).foldl
          (fun t2 p => t2.insertPath i 0 p)
            FPTree.new).hyperlinks.lookup i).isSome := by
        rw [List.foldl_cons]
        apply foldl_insertPath_lookup_mono qrest i _ i
          (wf_insertPath q0 FPTree.new i 0 wf_new wf_new.size_pos)
        have := insertPath_lookup_last q0 FPTree.new i 0 pn0 wf_new
          wf_new.size_pos hpn01
        rw [hpn02] at this
        exact this
      rcases hlk2 : ((q0 :: qrest).foldl
          (fun t2 p => t2.insertPath i 0 p)
            FPTree.new).hyperlinks.lookup i with _ | ⟨h1, tl1⟩
      · rw [hlk2] at hlk
        simp at hlk
      · obtain ⟨ps2, hpp2⟩ : ∃ ps2, ((q0 :: qrest).foldl
            (fun t2 p => t2.insertPath i 0 p) FPTree.new).prefix_paths i =
              .ok ps2 := by
          unfold FPTree.prefix_paths FPTree.nodesOf
          rw [hlk2]
          exact ⟨_, rfl⟩
        refine ⟨ps2.foldl propagateOne ((q0 :: qrest).foldl
          (fun t2 p => t2.insertPath i 0 p) FPTree.new), ?_, ?_, ?_⟩
        · unfold project
          rw [hpb]
          show (match ((q0 :: qrest).foldl
              (fun t2 p => t2.insertPath i 0 p)
                FPTree.new).prefix_paths i with
            | Except.error _ => (Except.error () : Except Unit FPTree)
            | Except.ok ps3 => Except.ok (ps3.foldl propagateOne
                ((q0 :: qrest).foldl (fun t2 p => t2.insertPath i 0 p)
                  FPTree.new))) = _
          rw [hpp2]
        · rw [foldl_propagate_hyperlinks]
          rw [hlk2]
          rfl
        · intro j hj
          replace hj : j ∈ ((q0 :: qrest).foldl
              (fun t2 p => t2.insertPath i 0 p) FPTree.new).itemKeys := by
            replace hj : j ∈ List.map Prod.fst ((ps2.foldl propagateOne
              ((q0 :: qrest).foldl (fun t2 p => t2.insertPath i 0 p)
                FPTree.new)).hyperlinks) := hj
            rw [foldl_propagate_hyperlinks] at hj
            exact hj
          rcases foldl_insertPath_keys_sub _ i FPTree.new j wf_new hj
            with h1 | h1
          · simp [FPTree.itemKeys, FPTree.new] at h1
          · obtain ⟨q, hq1, pn, hpn1, hpn2⟩ := h1
            have hq2 : q ∈ ps.map (pathData t) := by
              rw [hq0]
              exact hq1
            rw [hps, List.map_map] at hq2
            obtain ⟨nid, hnid1, hnid2⟩ := List.mem_map.mp hq2
            rw [← hnid2] at hpn1
            obtain ⟨m, hm1, hm2⟩ := List.mem_map.mp hpn1
            obtain ⟨hmz, hmlt⟩ := pathTo_mem t hwf t.nodes.size nid
              ((hmem nid (by rw [← hchain]; exact hnid1)).2.1) m hm1
            obtain ⟨jm, hjm⟩ := Option.isSome_iff_exists.mp
              (hwf.nonroot_item m hmz hmlt)
            have hjmj : jm = j := by
              rw [← hpn2, ← hm2]
              show jm = (t.nodeAt m).item.getD 0
              rw [hjm]
              rfl
            have hmem2 : m ∈ itemIds t j :=
              (mem_itemIds t j m).mpr ⟨hmlt, by rw [hjm, hjmj]⟩
            have hsome : (t.hyperlinks.lookup j).isSome := by
              apply hwf.hyper_complete
              intro hnil2
              rw [hnil2] at hmem2
              simp at hmem2
            exact (lookup_isSome_iff_mem_keys _ _).mp hsome

theorem liveKeys_lt (t pt : FPTree) (i : Item) (suffix : List Item)
    (hndt : t.itemKeys.Nodup) (hndp : pt.itemKeys.Nodup)
    (hsub : ∀ j, j ∈ pt.itemKeys → j ∈ t.itemKeys)
    (hi : i ∈ t.itemKeys) (hins : i ∉ suffix) :
    liveKeys pt (i :: suffix) < liveKeys t suffix := by
  unfold liveKeys
  have hA : (pt.itemKeys.filter
      (fun j => decide (j ∉ i :: suffix))).Nodup := hndp.filter _
  have hB : (t.itemKeys.filter
      (fun j => decide (j ∉ suffix))).Nodup := hndt.filter _
  rw [← List.toFinset_card_of_nodup hA, ← List.toFinset_card_of_nodup hB]
  apply Finset.card_lt_card
  have hsubF : (pt.itemKeys.filter
      (fun j => decide (j ∉ i :: suffix))).toFinset ⊆
        (t.itemKeys.filter (fun j => decide (j ∉ suffix))).toFinset := by
    intro j hj
    rw [List.mem_toFinset, List.mem_filter] at hj ⊢
    obtain ⟨hj1, hj2⟩ := hj
    rw [decide_eq_true_iff] at hj2
    refine ⟨hsub j hj1, ?_⟩
    rw [decide_eq_true_iff]
    exact fun hc => hj2 (List.mem_cons_of_mem _ hc)
  rw [Finset.ssubset_iff_of_subset hsubF]
  refine ⟨i, ?_, ?_⟩
  · rw [List.mem_toFinset, List.mem_filter]
    exact ⟨hi, by rw [decide_eq_true_iff]; exact hins⟩
  · rw [List.mem_toFinset, List.mem_filter]
    rintro ⟨-, hc⟩
    rw [decide_eq_true_iff] at hc
    exact hc (List.mem_cons_self ..)

theorem fpSearchKeys_isSome (fuel eps : Nat) (t : FPTree) (hb : Built t)
    (suffix : List Item)
    (hrec : ∀ pt suf, Built pt → liveKeys pt suf < fuel →
      (fpSearch fuel pt eps suf).isSome)
    (hfuel : liveKeys t suffix ≤ fuel) :
    ∀ ks, (∀ j ∈ ks, j ∈ t.itemKeys) →
    (fpSearchKeys (fun pt suf => fpSearch fuel pt eps suf) t eps suffix
      ks).isSome := by
  intro ks
  induction ks with
  | nil => intro _; rfl
  | cons i ks ih =>
    intro hmem
    have hwf : WF t := wf_built t hb
    have hik : i ∈ t.itemKeys := hmem i (List.mem_cons_self ..)
    have hlk : (t.hyperlinks.lookup i).isSome :=
      (lookup_isSome_iff_mem_keys _ _).mpr hik
    rcases hlkv : t.hyperlinks.lookup i with _ | ⟨h0, tl⟩
    · rw [hlkv] at hlk
      simp at hlk
    · have hno : t.nodesOf i = .ok (t.chainFrom t.nodes.size h0) := by
        unfold FPTree.nodesOf
        rw [hlkv]
      have hstep : fpSearchKeys (fun pt suf => fpSearch fuel pt eps suf) t
          eps suffix (i :: ks) =
          (if eps ≤ chainSupport t (t.chainFrom t.nodes.size h0) ∧
              i ∉ suffix then
            match t.prefix_paths i with
            | .error _ => none
            | .ok ps =>
              match project (ps.map (pathData t)) with
              | .error _ => none
              | .ok pt =>
                match fpSearch fuel pt eps (i :: suffix) with
                | none => none
                | some sub =>
                  match fpSearchKeys
                      (fun pt suf => fpSearch fuel pt eps suf) t eps
                      suffix ks with
                  | none => none
                  | some rest =>
                    some (((i :: suffix),
                      chainSupport t (t.chainFrom t.nodes.size h0)) ::
                        sub ++ rest)
          else fpSearchKeys (fun pt suf => fpSearch fuel pt eps suf) t eps
            suffix ks) := by
        show (match t.nodesOf i with
          | .error _ => none
          | .ok ns =>
            let ts := chainSupport t ns
            if eps ≤ ts ∧ i ∉ suffix then
              match t.prefix_paths i with
              | .error _ => none
              | .ok ps =>
                match project (ps.map (pathData t)) with
                | .error _ => none
                | .ok pt =>
                  match fpSearch fuel pt eps (i :: suffix) with
                  | none => none
                  | some sub =>
                    match fpSearchKeys
                        (fun pt suf => fpSearch fuel pt eps suf) t eps
                        suffix ks with
                    | none => none
                    | some rest => some (((i :: suffix), ts) :: sub ++ rest)
            else fpSearchKeys (fun pt suf => fpSearch fuel pt eps suf) t
              eps suffix ks) = _
        rw [hno]
      rw [hstep]
      by_cases hcond : eps ≤ chainSupport t (t.chainFrom t.nodes.size h0) ∧
          i ∉ suffix
      · rw [if_pos hcond]
        have hpp : t.prefix_paths i = .ok ((t.chainFrom t.nodes.size h0).map
            (t.pathTo t.nodes.size)) := by
          unfold FPTree.prefix_paths
          rw [hno]
          rfl
        rw [hpp]
        obtain ⟨ct, hproj, hctlk, hctsub⟩ := project_ok t hwf i _ hpp
        show (match project ((((t.chainFrom t.nodes.size h0).map
            (t.pathTo t.nodes.size))).map (pathData t)) with
          | Except.error _ => (none : Option (List (List Item × Nat)))
          | Except.ok pt =>
            match fpSearch fuel pt eps (i :: suffix) with
            | none => none
            | some sub =>
              match fpSearchKeys (fun pt suf => fpSearch fuel pt eps suf)
                  t eps suffix ks with
              | none => none
              | some rest => some ((i :: suffix,
                  chainSupport t (t.chainFrom t.nodes.size h0)) ::
                    sub ++ rest)).isSome = true
        rw [hproj]
        have hbct : Built ct := Built.proj t i _ ct hb hpp hproj
        have hctwf : WF ct := wf_built ct hbct
        have hlt : liveKeys ct (i :: suffix) < liveKeys t suffix :=
          liveKeys_lt t ct i suffix hwf.hyper_keys hctwf.hyper_keys hctsub
            hik hcond.2
        have hsub := hrec ct (i :: suffix) hbct (by omega)
        show (match fpSearch fuel ct eps (i :: suffix) with
          | none => (none : Option (List (List Item × Nat)))
          | some sub =>
            match fpSearchKeys (fun pt suf => fpSearch fuel pt eps suf)
                t eps suffix ks with
            | none => none
            | some rest => some ((i :: suffix,
                chainSupport t (t.chainFrom t.nodes.size h0)) ::
                  sub ++ rest)).isSome = true
        rcases hsubv : fpSearch fuel ct eps (i :: suffix) with _ | sub
        · rw [hsubv] at hsub
          simp at hsub
        · have hrest := ih (fun j hj => hmem j (List.mem_cons_of_mem _ hj))
          show (match fpSearchKeys (fun pt suf => fpSearch fuel pt eps suf)
              t eps suffix ks with
            | none => (none : Option (List (List Item × Nat)))
            | some rest => some ((i :: suffix,
                chainSupport t (t.chainFrom t.nodes.size h0)) ::
                  sub ++ rest)).isSome = true
          rcases hrestv : fpSearchKeys
              (fun pt suf => fpSearch fuel pt eps suf) t eps suffix ks
              with _ | rest
          · rw [hrestv] at hrest
            simp at hrest
          · rfl
      · rw [if_neg hcond]
        exact ih (fun j hj => hmem j (List.mem_cons_of_mem _ hj))

theorem fpSearch_isSome : ∀ (fuel : Nat) (t : FPTree) (eps : Nat)
    (suffix : List Item), Built t → liveKeys t suffix < fuel →
    (fpSearch fuel t eps suffix).isSome := by
  intro fuel
  induction fuel with
  | zero =>
    intro t eps suffix _ h
    omega
  | succ f ih =>
    intro t eps suffix hb hc
    show (fpSearchKeys (fun pt suf => fpSearch f pt eps suf) t eps suffix
      t.itemKeys).isSome
    exact fpSearchKeys_isSome f eps t hb suffix
      (fun pt suf hbp hlt => ih pt eps suf hbp hlt) (by omega)
      t.itemKeys (fun j hj => hj)

/-- C6, counterexample to the claim as stated.  The claim justifies
termination by "each recursive call operates on a conditional tree with
strictly fewer distinct items".  That is false: for the tree built from the
single transaction `[1, 2]`, the conditional tree `project`ed for item `2`
carries the items `[1, 2]` — exactly as many distinct items (2) as the
parent tree, because the projected paths include the nodes of the target
item itself. -/
theorem c6_not_fewer_items_counterexample :
    (buildTree [[1, 2]]).itemKeys = [1, 2] ∧
    ((buildTree [[1, 2]]).prefix_paths 2).map (fun ps =>
        (project (ps.map (pathData (buildTree [[1, 2]])))).map
          (fun ct => ct.itemKeys)) = .ok (.ok [1, 2]) := by
  decide

/-- C6 (amended): for every reachable tree and every epsilon, the recursive
search terminates — any fuel exceeding the number of distinct items of the
tree not already fixed in the suffix suffices, because the target item joins
the suffix of the recursive call while the conditional tree introduces no
item outside the parent tree's — and a tree with zero items yields the empty
result list and recurses no further.  (The claim's stated measure, "strictly
fewer distinct items in the conditional tree", is refuted by
`c6_not_fewer_items_counterexample`; the conditional tree keeps the target
item's nodes, so only the suffix-aware count strictly decreases.) -/
theorem c6_search_terminates (t : FPTree) (eps fuel : Nat)
    (suffix : List Item) (hb : Built t)
    (hfuel : liveKeys t suffix < fuel) :
    (fpSearch fuel t eps suffix).isSome ∧
      (t.hyperlinks = [] → fpSearch fuel t eps suffix = some []) := by
  refine ⟨fpSearch_isSome fuel t eps suffix hb hfuel, fun hempty => ?_⟩
  rcases fuel with _ | f
  · omega
  · show fpSearchKeys (fun pt suf => fpSearch f pt eps suf) t eps suffix
      t.itemKeys = some []
    have hkeys : t.itemKeys = [] := by
      unfold FPTree.itemKeys
      rw [hempty]
      rfl
    rw [hkeys]
    rfl

/-- C6, witness: the demo tree is reachable, has 3 live items, and the
search at fuel 4 returns a (finite) result list. -/
theorem c6_search_terminates_witness :
    (fpSearch 4 demoTree 3 []).isSome ∧
      (liveKeys demoTree [] < 4 ∧ Built demoTree) :=
  ⟨(c6_search_terminates demoTree 3 4 [] built_demoTree (by decide)).1,
    by decide, built_demoTree⟩

theorem isPre_iff (q l : List Item) : isPre q l = true ↔ l.take q.length = q := by
  unfold isPre
  simp

theorem isPre_take (l : List Item) (d : Nat) : isPre (l.take d) l = true := by
  rw [isPre_iff]
  rcases Nat.le_total d l.length with h | h
  · rw [List.length_take, Nat.min_eq_left h]
  · rw [List.take_of_length_le h, List.take_length]

theorem isPre_length_le (q l : List Item) (h : isPre q l = true) :
    q.length ≤ l.length := by
  rw [isPre_iff] at h
  have := congrArg List.length h
  rw [List.length_take] at this
  omega

theorem isPre_ext_iff (w u l : List Item) :
    (isPre w (u ++ l) = true ∧ u.length < w.length) ↔
      ∃ d, 0 < d ∧ d ≤ l.length ∧ w = u ++ l.take d := by
  constructor
  · rintro ⟨h1, h2⟩
    have hle := isPre_length_le _ _ h1
    rw [List.length_append] at hle
    rw [isPre_iff] at h1
    refine ⟨w.length - u.length, by omega, by omega, ?_⟩
    have h3 : (u ++ l).take (u.length + (w.length - u.length)) =
        u ++ l.take (w.length - u.length) := List.take_append ..
    rw [show u.length + (w.length - u.length) = w.length from by omega] at h3
    rw [← h3, h1]
  · rintro ⟨d, hd0, hdl, rfl⟩
    constructor
    · rw [isPre_iff, List.length_append, List.length_take,
        Nat.min_eq_left hdl]
      exact List.take_append ..
    · rw [List.length_append, List.length_take, Nat.min_eq_left hdl]
      omega

theorem cond_step (w u : List Item) (i : Item) (l : List Item) :
    (isPre w (u ++ i :: l) = true ∧ u.length < w.length) ↔
      (w = u ++ [i] ∨
        (isPre w ((u ++ [i]) ++ l) = true ∧ (u ++ [i]).length < w.length)) := by
  rw [isPre_ext_iff, isPre_ext_iff]
  constructor
  · rintro ⟨d, hd0, hdl, rfl⟩
    rcases d with _ | d2
    · omega
    · rcases d2 with _ | d3
      · left
        rfl
      · right
        refine ⟨d3 + 1, by omega, by simp at hdl ⊢; omega, ?_⟩
        rw [List.append_assoc]
        rfl
  · rintro (rfl | ⟨d, hd0, hdl, rfl⟩)
    · exact ⟨1, by omega, by simp, rfl⟩
    · refine ⟨d + 1, by omega, by simp; omega, ?_⟩
      rw [List.append_assoc]
      rfl

theorem mem_of_isPre (w l : List Item) (x : Item) (h : isPre w l = true)
    (hx : x ∈ w) : x ∈ l := by
  rw [isPre_iff] at h
  rw [← h] at hx
  exact List.mem_of_mem_take hx

theorem pairwise_isPre {r : Item → Item → Prop} (w l : List Item)
    (h : isPre w l = true) (hp : l.Pairwise r) : w.Pairwise r := by
  rw [isPre_iff] at h
  rw [← h]
  exact hp.sublist (List.take_sublist ..)

theorem getLast?_take_eq (l : List Item) (d : Nat) (hd0 : 0 < d)
    (hdl : d ≤ l.length) : (l.take d).getLast? = l[d - 1]? := by
  rw [List.getLast?_eq_getElem?, List.length_take, Nat.min_eq_left hdl,
    List.getElem?_take]
  rw [if_pos (by omega)]

theorem take_ends_unique (tr : List Item) (hnd : tr.Nodup) (i : Item)
    (d1 d2 : Nat) (h1l : d1 ≤ tr.length) (h2l : d2 ≤ tr.length)
    (h1 : (tr.take d1).getLast? = some i)
    (h2 : (tr.take d2).getLast? = some i) : d1 = d2 := by
  have hd10 : 0 < d1 := by
    rcases Nat.eq_zero_or_pos d1 with h | h
    · rw [h] at h1
      simp at h1
    · exact h
  have hd20 : 0 < d2 := by
    rcases Nat.eq_zero_or_pos d2 with h | h
    · rw [h] at h2
      simp at h2
    · exact h
  rw [getLast?_take_eq tr d1 hd10 h1l] at h1
  rw [getLast?_take_eq tr d2 hd20 h2l] at h2
  have he : tr[d1 - 1]? = tr[d2 - 1]? := by rw [h1, h2]
  have h1lt : d1 - 1 < tr.length := by omega
  have h2lt : d2 - 1 < tr.length := by omega
  rw [List.getElem?_eq_getElem h1lt, List.getElem?_eq_getElem h2lt] at he
  injection he with he
  have := List.Nodup.getElem_inj_iff hnd |>.mp he
  omega

theorem exists_take_ends (tr : List Item) (i : Item) (hi : i ∈ tr) :
    ∃ d, 0 < d ∧ d ≤ tr.length ∧ (tr.take d).getLast? = some i := by
  induction tr with
  | nil => simp at hi
  | cons x rest ih =>
    by_cases hx : i = x
    · refine ⟨1, by omega, by simp, ?_⟩
      rw [hx]
      rfl
    · have hr : i ∈ rest := by
        rcases List.mem_cons.mp hi with h | h
        · exact absurd h hx
        · exact h
      obtain ⟨d, hd0, hdl, hlast⟩ := ih hr
      refine ⟨d + 1, by omega, by simp; omega, ?_⟩
      rw [List.take_succ_cons]
      have hne : rest.take d ≠ [] := by
        intro hc
        rw [hc] at hlast
        simp at hlast
      rcases htd : rest.take d with _ | ⟨y, ys⟩
      · exact absurd htd hne
      · rw [htd] at hlast
        rw [List.getLast?_cons_cons]
        exact hlast

theorem sum_map_add {α : Type} (l : List α) (f g : α → Nat) :
    (l.map (fun b => f b + g b)).sum = (l.map f).sum + (l.map g).sum := by
  induction l with
  | nil => rfl
  | cons x xs ih =>
    simp only [List.map_cons, List.sum_cons, ih]
    omega

theorem countP_eq_sum_map {α : Type} (l : List α) (p : α → Bool) :
    l.countP p = (l.map (fun b => if p b then 1 else 0)).sum := by
  induction l with
  | nil => rfl
  | cons x xs ih =>
    rw [List.countP_cons, List.map_cons, List.sum_cons, ih]
    by_cases h : p x
    · rw [if_pos h]
      omega
    · rw [if_neg h]
      omega

theorem sum_sum_swap {α β : Type} (A : List α) (B : List β)
    (f : α → β → Nat) :
    (A.map (fun a => (B.map (f a)).sum)).sum =
      (B.map (fun b => (A.map (fun a => f a b)).sum)).sum := by
  induction A with
  | nil =>
    simp
  | cons x xs ih =>
    rw [List.map_cons, List.sum_cons, ih, ← sum_map_add]
    rfl

theorem countP_eq_one_of_unique {α : Type} (l : List α) (p : α → Bool)
    (a : α) (hnd : l.Nodup) (ha : a ∈ l) (hpa : p a = true)
    (huniq : ∀ b ∈ l, p b = true → b = a) : l.countP p = 1 := by
  induction l with
  | nil => simp at ha
  | cons x xs ih =>
    rw [List.nodup_cons] at hnd
    rw [List.countP_cons]
    rcases List.mem_cons.mp ha with rfl | h
    · rw [if_pos hpa]
      have hz : xs.countP p = 0 := by
        rw [List.countP_eq_zero]
        intro b hb hpb
        rw [huniq b (List.mem_cons_of_mem _ hb) hpb] at hb
        exact hnd.1 hb
      omega
    · have hxa : x ≠ a := by
        intro hc
        rw [hc] at hnd
        exact hnd.1 h
      have hpx : ¬ p x = true := by
        intro hc
        exact hxa (huniq x (List.mem_cons_self ..) hc)
      rw [if_neg hpx]
      rw [ih hnd.2 h (fun b hb hpb => huniq b (List.mem_cons_of_mem _ hb)
        hpb)]

theorem pairwise_nodup_of_irrefl {r : Item → Item → Prop} (l : List Item)
    (hp : l.Pairwise r) (hirr : ∀ a, ¬ r a a) : l.Nodup :=
  hp.imp (fun h => by
    intro heq
    rw [heq] at h
    exact hirr _ h)

theorem sum_forall2 {α β : Type} (R : α → β → Prop) (f : α → Nat)
    (g : β → Nat) : ∀ (A : List α) (B : List β), List.Forall₂ R A B →
    (∀ a b, R a b → f a = g b) → (A.map f).sum = (B.map g).sum := by
  intro A
  induction A with
  | nil =>
    intro B h _
    cases h
    rfl
  | cons x xs ih =>
    intro B h hfg
    cases h with
    | cons hxy htail =>
      rw [List.map_cons, List.map_cons, List.sum_cons, List.sum_cons,
        hfg _ _ hxy, ih _ htail hfg]

theorem ends_sorted_no_prefix (w1 w2 : List Item) (i : Item)
    (h1 : w1.getLast? = some i) (h2 : w2.getLast? = some i)
    (hnd : w2.Nodup) (hpre : isPre w1 w2 = true) : w1 = w2 := by
  have hlen := isPre_length_le _ _ hpre
  rw [isPre_iff] at hpre
  have h1' : (w2.take w1.length).getLast? = some i := by
    rw [hpre]
    exact h1
  have h2' : (w2.take w2.length).getLast? = some i := by
    rw [List.take_length]
    exact h2
  have := take_ends_unique w2 hnd i w1.length w2.length hlen (le_refl _)
    h1' h2'
  rw [← hpre, this, List.take_length]

theorem pathTo_mem_le (t : FPTree) (hwf : WF t) :
    ∀ (fuel nid : Nat), nid < t.nodes.size →
    ∀ m ∈ t.pathTo fuel nid, m ≤ nid := by
  intro fuel
  induction fuel with
  | zero =>
    intro nid _ m hm
    simp [FPTree.pathTo] at hm
  | succ f ih =>
    intro nid hnid m hm
    replace hm : m ∈ (if (t.nodeAt nid).isRoot then ([] : List Nat)
        else match (t.nodeAt nid).parent with
          | none => [nid]
          | some p => t.pathTo f p ++ [nid]) := hm
    by_cases hr : (t.nodeAt nid).isRoot
    · rw [if_pos hr] at hm
      simp at hm
    · rw [if_neg hr] at hm
      have hnid0 : 0 < nid := by
        rcases Nat.eq_zero_or_pos nid with h0 | h0
        · rw [h0] at hr
          exact absurd (root_isRoot t hwf) hr
        · exact h0
      rcases hp : (t.nodeAt nid).parent with _ | p
      · rw [hp] at hm
        simp at hm
        omega
      · rw [hp] at hm
        rcases List.mem_append.mp hm with h1 | h1
        · obtain ⟨q, hq1, hq2⟩ := hwf.nonroot_parent nid hnid0 hnid
          rw [hp] at hq1
          injection hq1 with hq1
          have := ih p (by omega) m h1
          omega
        · simp at h1
          omega

theorem pathTo_sorted (t : FPTree) (hwf : WF t) :
    ∀ (fuel nid : Nat), nid < t.nodes.size →
    (t.pathTo fuel nid).Pairwise (· < ·) := by
  intro fuel
  induction fuel with
  | zero =>
    intro nid _
    exact List.Pairwise.nil
  | succ f ih =>
    intro nid hnid
    show (if (t.nodeAt nid).isRoot then ([] : List Nat)
        else match (t.nodeAt nid).parent with
          | none => [nid]
          | some p => t.pathTo f p ++ [nid]).Pairwise (· < ·)
    by_cases hr : (t.nodeAt nid).isRoot
    · rw [if_pos hr]
      exact List.Pairwise.nil
    · rw [if_neg hr]
      have hnid0 : 0 < nid := by
        rcases Nat.eq_zero_or_pos nid with h0 | h0
        · rw [h0] at hr
          exact absurd (root_isRoot t hwf) hr
        · exact h0
      rcases hp : (t.nodeAt nid).parent with _ | p
      · exact List.pairwise_singleton ..
      · obtain ⟨q, hq1, hq2⟩ := hwf.nonroot_parent nid hnid0 hnid
        rw [hp] at hq1
        injection hq1 with hq1
        rw [List.pairwise_append]
        refine ⟨ih p (by omega), List.pairwise_singleton .., ?_⟩
        intro m hm b hb
        rw [List.mem_singleton] at hb
        rw [hb]
        have := pathTo_mem_le t hwf f p (by omega) m hm
        omega

theorem pathTo_stable (t : FPTree) (hwf : WF t) :
    ∀ (nid : Nat), nid < t.nodes.size → ∀ f1 f2, nid < f1 → nid < f2 →
    t.pathTo f1 nid = t.pathTo f2 nid := by
  intro nid
  induction nid using Nat.strong_induction_on with
  | _ nid ih =>
    intro hlt f1 f2 h1 h2
    rcases f1 with _ | g1
    · omega
    rcases f2 with _ | g2
    · omega
    show (if (t.nodeAt nid).isRoot then ([] : List Nat)
        else match (t.nodeAt nid).parent with
          | none => [nid]
          | some p => t.pathTo g1 p ++ [nid]) =
      (if (t.nodeAt nid).isRoot then ([] : List Nat)
        else match (t.nodeAt nid).parent with
          | none => [nid]
          | some p => t.pathTo g2 p ++ [nid])
    by_cases hr : (t.nodeAt nid).isRoot
    · rw [if_pos hr, if_pos hr]
    · rw [if_neg hr, if_neg hr]
      have hnid0 : 0 < nid := by
        rcases Nat.eq_zero_or_pos nid with h0 | h0
        · rw [h0] at hr
          exact absurd (root_isRoot t hwf) hr
        · exact h0
      obtain ⟨p, hp, hplt⟩ := hwf.nonroot_parent nid hnid0 hlt
      rw [hp]
      show t.pathTo g1 p ++ [nid] = t.pathTo g2 p ++ [nid]
      rw [ih p hplt (by omega) g1 g2 (by omega) (by omega)]

theorem pathTo_succ (t : FPTree) (hwf : WF t) (nid p : Nat)
    (h0 : 0 < nid) (hlt : nid < t.nodes.size)
    (hp : (t.nodeAt nid).parent = some p) :
    t.pathTo t.nodes.size nid = t.pathTo t.nodes.size p ++ [nid] := by
  obtain ⟨q, hq1, hq2⟩ := hwf.nonroot_parent nid h0 hlt
  rw [hp] at hq1
  injection hq1 with hq1
  have hx := hwf.nonroot_item nid h0 hlt
  obtain ⟨x, hxv⟩ := Option.isSome_iff_exists.mp hx
  have hr : (t.nodeAt nid).isRoot = false := isRoot_false_of_item _ x hxv
  have hstep : t.pathTo (nid + 1) nid = t.pathTo nid p ++ [nid] := by
    show (if (t.nodeAt nid).isRoot then ([] : List Nat)
        else match (t.nodeAt nid).parent with
          | none => [nid]
          | some p2 => t.pathTo nid p2 ++ [nid]) = _
    rw [if_neg (by rw [hr]; exact Bool.false_ne_true), hp]
  rw [pathTo_stable t hwf nid hlt t.nodes.size (nid + 1) hlt (by omega),
    hstep,
    pathTo_stable t hwf p (by omega) nid t.nodes.size (by omega) (by omega)]

theorem pathTo_root (t : FPTree) (hwf : WF t) (fuel : Nat) :
    t.pathTo fuel 0 = [] := by
  rcases fuel with _ | f
  · rfl
  · show (if (t.nodeAt 0).isRoot then ([] : List Nat)
        else match (t.nodeAt 0).parent with
          | none => [0]
          | some p => t.pathTo f p ++ [0]) = []
    rw [if_pos (root_isRoot t hwf)]

theorem itemPath_root (t : FPTree) (hwf : WF t) : itemPath t 0 = [] := by
  unfold itemPath
  rw [pathTo_root t hwf]
  rfl

theorem itemPath_succ (t : FPTree) (hwf : WF t) (nid p : Nat) (x : Item)
    (h0 : 0 < nid) (hlt : nid < t.nodes.size)
    (hp : (t.nodeAt nid).parent = some p)
    (hx : (t.nodeAt nid).item = some x) :
    itemPath t nid = itemPath t p ++ [x] := by
  unfold itemPath
  rw [pathTo_succ t hwf nid p h0 hlt hp, List.map_append]
  congr 1
  simp only [List.map_cons, List.map_nil]
  rw [hx]
  rfl

theorem itemPath_ne_nil (t : FPTree) (hwf : WF t) (nid : Nat)
    (h0 : 0 < nid) (hlt : nid < t.nodes.size) : itemPath t nid ≠ [] := by
  obtain ⟨p, hp, _⟩ := hwf.nonroot_parent nid h0 hlt
  obtain ⟨x, hx⟩ := Option.isSome_iff_exists.mp (hwf.nonroot_item nid h0 hlt)
  rw [itemPath_succ t hwf nid p x h0 hlt hp hx]
  simp

theorem itemPath_getLast (t : FPTree) (hwf : WF t) (nid : Nat) (x : Item)
    (h0 : 0 < nid) (hlt : nid < t.nodes.size)
    (hx : (t.nodeAt nid).item = some x) :
    (itemPath t nid).getLast? = some x := by
  obtain ⟨p, hp, _⟩ := hwf.nonroot_parent nid h0 hlt
  rw [itemPath_succ t hwf nid p x h0 hlt hp hx]
  exact List.getLast?_concat _

theorem trieFind_append (t : FPTree) :
    ∀ (u v : List Item) (s : Nat), trieFind t s (u ++ v) =
      match trieFind t s u with
      | some n => trieFind t n v
      | none => none := by
  intro u
  induction u with
  | nil => intro v s; rfl
  | cons x rest ih =>
    intro v s
    show (match (t.nodeAt s).search x with
      | some c => trieFind t c (rest ++ v)
      | none => none) =
      match (match (t.nodeAt s).search x with
        | some c => trieFind t c rest
        | none => none) with
      | some n => trieFind t n v
      | none => none
    rcases (t.nodeAt s).search x with _ | c
    · rfl
    · exact ih v c

theorem trieFind_singleton (t : FPTree) (s : Nat) (x : Item) :
    trieFind t s [x] = (t.nodeAt s).search x := by
  show (match (t.nodeAt s).search x with
    | some c => trieFind t c []
    | none => none) = (t.nodeAt s).search x
  rcases (t.nodeAt s).search x with _ | c
  · rfl
  · rfl

theorem trieFind_lt (t : FPTree) (hwf : WF t) :
    ∀ (u : List Item) (s n : Nat), s < t.nodes.size →
    trieFind t s u = some n → n < t.nodes.size ∧ s ≤ n ∧ (u ≠ [] → s < n) := by
  intro u
  induction u with
  | nil =>
    intro s n hs h
    injection h with h
    rw [← h]
    exact ⟨hs, le_refl _, fun hc => absurd rfl hc⟩
  | cons x rest ih =>
    intro s n hs h
    replace h : (match (t.nodeAt s).search x with
      | some c => trieFind t c rest
      | none => none) = some n := h
    rcases hsx : (t.nodeAt s).search x with _ | c
    · rw [hsx] at h
      exact Option.noConfusion h
    · rw [hsx] at h
      obtain ⟨hc1, hc2, _, _⟩ :=
        hwf.children_wf s hs x c (lookup_mem _ _ _ hsx)
      obtain ⟨hn1, hn2, _⟩ := ih c n hc2 h
      exact ⟨hn1, by omega, fun _ => by omega⟩

theorem trieFind_itemPath (t : FPTree) (hwf : WF t) :
    ∀ (nid : Nat), nid < t.nodes.size →
    trieFind t 0 (itemPath t nid) = some nid := by
  intro nid
  induction nid using Nat.strong_induction_on with
  | _ nid ih =>
    intro hlt
    rcases Nat.eq_zero_or_pos nid with h0 | h0
    · rw [h0, itemPath_root t hwf]
      rfl
    · obtain ⟨p, hp, hplt⟩ := hwf.nonroot_parent nid h0 hlt
      obtain ⟨x, hx⟩ := Option.isSome_iff_exists.mp
        (hwf.nonroot_item nid h0 hlt)
      rw [itemPath_succ t hwf nid p x h0 hlt hp hx, trieFind_append,
        ih p hplt (by omega)]
      show trieFind t p [x] = some nid
      rw [trieFind_singleton]
      exact hwf.parent_lookup nid h0 hlt x p hx hp

theorem trieFind_word (t : FPTree) (hwf : WF t) :
    ∀ (u : List Item) (n : Nat), trieFind t 0 u = some n →
    itemPath t n = u := by
  intro u
  induction u using List.reverseRecOn with
  | nil =>
    intro n h
    injection h with h
    rw [← h]
    exact itemPath_root t hwf
  | append_singleton u x ih =>
    intro n h
    rw [trieFind_append] at h
    rcases hu : trieFind t 0 u with _ | q
    · rw [hu] at h
      exact Option.noConfusion h
    · rw [hu] at h
      replace h : trieFind t q [x] = some n := h
      rw [trieFind_singleton] at h
      have hq := trieFind_lt t hwf u 0 q hwf.size_pos hu
      obtain ⟨hc1, hc2, hc3, hc4⟩ :=
        hwf.children_wf q hq.1 x n (lookup_mem _ _ _ h)
      rw [itemPath_succ t hwf n q x (by omega) hc2 hc4 hc3, ih q hu]

theorem itemPath_inj (t : FPTree) (hwf : WF t) (m1 m2 : Nat)
    (h1 : m1 < t.nodes.size) (h2 : m2 < t.nodes.size)
    (h : itemPath t m1 = itemPath t m2) : m1 = m2 := by
  have e1 := trieFind_itemPath t hwf m1 h1
  have e2 := trieFind_itemPath t hwf m2 h2
  rw [h, e2] at e1
  injection e1 with e1
  exact e1.symm

theorem pathTo_word_prefix (t : FPTree) (hwf : WF t) :
    ∀ (nid : Nat), nid < t.nodes.size →
    ∀ a ∈ t.pathTo t.nodes.size nid,
    ∃ v, itemPath t nid = itemPath t a ++ v := by
  intro nid
  induction nid using Nat.strong_induction_on with
  | _ nid ih =>
    intro hlt a ha
    rcases Nat.eq_zero_or_pos nid with h0 | h0
    · rw [h0, pathTo_root t hwf] at ha
      simp at ha
    · obtain ⟨p, hp, hplt⟩ := hwf.nonroot_parent nid h0 hlt
      obtain ⟨x, hx⟩ := Option.isSome_iff_exists.mp
        (hwf.nonroot_item nid h0 hlt)
      rw [pathTo_succ t hwf nid p h0 hlt hp] at ha
      rcases List.mem_append.mp ha with h1 | h1
      · obtain ⟨v, hv⟩ := ih p hplt (by omega) a h1
        refine ⟨v ++ [x], ?_⟩
        rw [itemPath_succ t hwf nid p x h0 hlt hp hx, hv,
          List.append_assoc]
      · rw [List.mem_singleton] at h1
        rw [h1]
        exact ⟨[], by rw [List.append_nil]⟩

theorem ancestor_of_prefix (t : FPTree) (hwf : WF t) :
    ∀ (nid : Nat), nid < t.nodes.size → ∀ (w v : List Item), w ≠ [] →
    itemPath t nid = w ++ v →
    ∃ a ∈ t.pathTo t.nodes.size nid, itemPath t a = w := by
  intro nid
  induction nid using Nat.strong_induction_on with
  | _ nid ih =>
    intro hlt w v hwne hwv
    rcases Nat.eq_zero_or_pos nid with h0 | h0
    · rw [h0, itemPath_root t hwf] at hwv
      exact absurd (List.append_eq_nil.mp hwv.symm).1 hwne
    · obtain ⟨p, hp, hplt⟩ := hwf.nonroot_parent nid h0 hlt
      obtain ⟨x, hx⟩ := Option.isSome_iff_exists.mp
        (hwf.nonroot_item nid h0 hlt)
      have hsucc := itemPath_succ t hwf nid p x h0 hlt hp hx
      have hmem_self : nid ∈ t.pathTo t.nodes.size nid := by
        rw [pathTo_succ t hwf nid p h0 hlt hp]
        exact List.mem_append_right _ (List.mem_singleton.mpr rfl)
      rcases hv : v with _ | ⟨y, ys⟩
      · refine ⟨nid, hmem_self, ?_⟩
        rw [hwv, hv, List.append_nil]
      · have hvne : v ≠ [] := by rw [hv]; simp
        have hsplit : itemPath t p = w ++ v.dropLast := by
          have e1 : w ++ v.dropLast ++ [v.getLast hvne] =
              itemPath t p ++ [x] := by
            rw [List.append_assoc, List.dropLast_append_getLast hvne,
              ← hwv, hsucc]
          have e2 := List.append_inj e1 (by
            have := congrArg List.length e1
            simp at this
            simp
            omega)
          exact e2.1.symm
        obtain ⟨a, ha1, ha2⟩ := ih p hplt (by omega) w v.dropLast hwne
          hsplit
        refine ⟨a, ?_, ha2⟩
        rw [pathTo_succ t hwf nid p h0 hlt hp]
        exact List.mem_append_left _ ha1

theorem attachSpecNode_isRoot (t : FPTree) (pid : Nat) (i : Item) (m : Nat) :
    (attachSpecNode t pid i m).isRoot = (t.nodeAt m).isRoot := by
  unfold FPNode.isRoot
  rw [attachSpecNode_item, attachSpecNode_support]

theorem pathTo_congr (t1 t2 : FPTree) (hwf1 : WF t1)
    (hagree : ∀ k, k < t1.nodes.size →
      ((t2.nodeAt k).isRoot = (t1.nodeAt k).isRoot ∧
       (t2.nodeAt k).parent = (t1.nodeAt k).parent)) :
    ∀ (fuel nid : Nat), nid < t1.nodes.size →
    t2.pathTo fuel nid = t1.pathTo fuel nid := by
  intro fuel
  induction fuel with
  | zero => intro nid _; rfl
  | succ f ih =>
    intro nid hnid
    show (if (t2.nodeAt nid).isRoot then ([] : List Nat)
        else match (t2.nodeAt nid).parent with
          | none => [nid]
          | some p => t2.pathTo f p ++ [nid]) =
      (if (t1.nodeAt nid).isRoot then ([] : List Nat)
        else match (t1.nodeAt nid).parent with
          | none => [nid]
          | some p => t1.pathTo f p ++ [nid])
    rw [(hagree nid hnid).1, (hagree nid hnid).2]
    by_cases hr : (t1.nodeAt nid).isRoot
    · rw [if_pos hr, if_pos hr]
    · rw [if_neg hr, if_neg hr]
      have hnid0 : 0 < nid := by
        rcases Nat.eq_zero_or_pos nid with h0 | h0
        · rw [h0] at hr
          exact absurd (root_isRoot t1 hwf1) hr
        · exact h0
      obtain ⟨p, hp, hplt⟩ := hwf1.nonroot_parent nid hnid0 hnid
      rw [hp]
      show t2.pathTo f p ++ [nid] = t1.pathTo f p ++ [nid]
      rw [ih p (by omega)]

theorem itemPath_congr (t1 t2 : FPTree) (hwf1 : WF t1) (hwf2 : WF t2)
    (hsz : t1.nodes.size ≤ t2.nodes.size)
    (hagree : ∀ k, k < t1.nodes.size →
      ((t2.nodeAt k).item = (t1.nodeAt k).item ∧
       (t2.nodeAt k).isRoot = (t1.nodeAt k).isRoot ∧
       (t2.nodeAt k).parent = (t1.nodeAt k).parent)) :
    ∀ nid, nid < t1.nodes.size → itemPath t2 nid = itemPath t1 nid := by
  intro nid hnid
  unfold itemPath
  rw [pathTo_stable t2 hwf2 nid (by omega) t2.nodes.size t1.nodes.size
    (by omega) (by omega)]
  rw [pathTo_congr t1 t2 hwf1
    (fun k hk => ⟨(hagree k hk).2.1, (hagree k hk).2.2⟩) t1.nodes.size nid
    hnid]
  apply List.map_congr_left
  intro m hm
  have hmlt := pathTo_mem t1 hwf1 t1.nodes.size nid hnid m hm
  rw [(hagree m hmlt.2).1]

theorem trieFind_congr_children (t1 t2 : FPTree)
    (h : ∀ k, (t2.nodeAt k).children = (t1.nodeAt k).children) :
    ∀ (u : List Item) (s : Nat), trieFind t2 s u = trieFind t1 s u := by
  intro u
  induction u with
  | nil => intro s; rfl
  | cons x rest ih =>
    intro s
    show (match (t2.nodeAt s).search x with
      | some c => trieFind t2 c rest
      | none => none) =
      (match (t1.nodeAt s).search x with
        | some c => trieFind t1 c rest
        | none => none)
    have he : (t2.nodeAt s).search x = (t1.nodeAt s).search x := by
      unfold FPNode.search
      rw [h s]
    rw [he]
    rcases (t1.nodeAt s).search x with _ | c
    · rfl
    · exact ih c

theorem setSupport_children (t : FPTree) (nid : Nat) (X : Option Nat)
    (k : Nat) :
    ((t.setNode nid { t.nodeAt nid with support := X }).nodeAt k).children =
      (t.nodeAt k).children := by
  rw [FPTree.nodeAt_setNode]
  by_cases h : nid = k ∧ nid < t.nodes.size
  · rw [if_pos h, ← h.1]
  · rw [if_neg h]

theorem attach_trieFind_mono (t : FPTree) (hwf : WF t) (pid : Nat)
    (i : Item) (s : Nat) (hpid : pid < t.nodes.size)
    (hmiss : (t.nodeAt pid).children.lookup i = none) :
    ∀ (u : List Item) (st n : Nat), st < t.nodes.size →
    trieFind t st u = some n → trieFind (t.attach pid i s).1 st u = some n := by
  obtain ⟨ha1, ha2, ha3, ha4, ha5⟩ :=
    attach_spec t pid i s hpid hmiss (wf_htl t hwf i)
  intro u
  induction u with
  | nil => intro st n _ h; exact h
  | cons x rest ih =>
    intro st n hst h
    replace h : (match (t.nodeAt st).search x with
      | some c => trieFind t c rest
      | none => none) = some n := h
    rcases hsx : (t.nodeAt st).search x with _ | c
    · rw [hsx] at h
      exact Option.noConfusion h
    · rw [hsx] at h
      have hc := (hwf.children_wf st hst x c (lookup_mem _ _ _ hsx)).2.1
      have hsearch2 : ((t.attach pid i s).1.nodeAt st).search x = some c := by
        unfold FPNode.search
        rw [ha4 st hst, attachSpecNode_children]
        by_cases hsp : st = pid
        · rw [if_pos hsp, lookup_append]
          unfold FPNode.search at hsx
          rw [hsx]
        · rw [if_neg hsp]
          exact hsx
      show (match ((t.attach pid i s).1.nodeAt st).search x with
        | some c2 => trieFind (t.attach pid i s).1 c2 rest
        | none => none) = some n
      rw [hsearch2]
      exact ih c n hc h

theorem attach_trieFind_new (t : FPTree) (hwf : WF t) (pid : Nat)
    (i : Item) (s : Nat) (u : List Item) (hpid : pid < t.nodes.size)
    (hmiss : (t.nodeAt pid).children.lookup i = none)
    (hu : trieFind t 0 u = some pid) :
    trieFind (t.attach pid i s).1 0 (u ++ [i]) = some t.nodes.size := by
  obtain ⟨ha1, ha2, ha3, ha4, ha5⟩ :=
    attach_spec t pid i s hpid hmiss (wf_htl t hwf i)
  rw [trieFind_append,
    attach_trieFind_mono t hwf pid i s hpid hmiss u 0 pid hwf.size_pos hu]
  show trieFind (t.attach pid i s).1 pid [i] = some t.nodes.size
  rw [trieFind_singleton]
  unfold FPNode.search
  rw [ha4 pid hpid, attachSpecNode_children, if_pos rfl, lookup_append,
    hmiss, lookup_cons, if_pos rfl]

theorem addFrom_trie (l : List Item) : ∀ (t : FPTree) (p : Nat)
    (u : List Item), WF t → p < t.nodes.size → trieFind t 0 u = some p →
    t.nodes.size ≤ (t.addTransactionFrom p l).nodes.size ∧
    (∀ m, m < t.nodes.size →
      ((t.addTransactionFrom p l).nodeAt m).item = (t.nodeAt m).item ∧
      ((t.addTransactionFrom p l).nodeAt m).parent = (t.nodeAt m).parent ∧
      ((t.addTransactionFrom p l).nodeAt m).isRoot = (t.nodeAt m).isRoot) ∧
    (∀ m, 0 < m → m < t.nodes.size →
      supAt (t.addTransactionFrom p l) m = supAt t m +
        (if isPre (itemPath t m) (u ++ l) = true ∧
            u.length < (itemPath t m).length then 1 else 0)) ∧
    (∀ m, t.nodes.size ≤ m → m < (t.addTransactionFrom p l).nodes.size →
      supAt (t.addTransactionFrom p l) m = 1 ∧
      isPre (itemPath (t.addTransactionFrom p l) m) (u ++ l) = true ∧
      u.length < (itemPath (t.addTransactionFrom p l) m).length ∧
      trieFind t 0 (itemPath (t.addTransactionFrom p l) m) = none) ∧
    (∀ (w : List Item) (n : Nat), trieFind t 0 w = some n →
      trieFind (t.addTransactionFrom p l) 0 w = some n) ∧
    (∀ d, d ≤ l.length →
      ∃ n, trieFind (t.addTransactionFrom p l) 0 (u ++ l.take d) = some n) := by
  induction l with
  | nil =>
    intro t p u hwf hp hu
    refine ⟨le_refl _, fun m _ => ⟨rfl, rfl, rfl⟩, ?_, ?_, ?_, ?_⟩
    · intro m hm0 hm
      rw [if_neg (by
        intro hc
        obtain ⟨d, hd0, hdl, _⟩ := (isPre_ext_iff _ _ _).mp hc
        simp at hdl
        omega)]
      rfl
    · intro m hm1 hm2
      have hm3 : m < t.nodes.size := hm2
      omega
    · intro w n h
      exact h
    · intro d hd
      refine ⟨p, ?_⟩
      have hd0 : d = 0 := by simp at hd; omega
      rw [hd0]
      show trieFind t 0 (u ++ []) = some p
      rw [List.append_nil]
      exact hu
  | cons x rest ih =>
    intro t p u hwf hp hu
    have hup : itemPath t p = u := trieFind_word t hwf u p hu
    rcases hsearch : (t.nodeAt p).search x with _ | c
    · -- miss: attach a fresh node
      have hstep : t.addTransactionFrom p (x :: rest) =
          (t.attach p x 1).1.addTransactionFrom (t.attach p x 1).2 rest := by
        show (match (t.nodeAt p).search x with
          | some nxt =>
            (t.setNode nxt { t.nodeAt nxt with
                support := (t.nodeAt nxt).support.map
                  (· + 1) }).addTransactionFrom nxt rest
          | none =>
            ((t.attach p x 1).1).addTransactionFrom (t.attach p x 1).2
              rest) = _
        rw [hsearch]
      have hwf1 := wf_attach t hwf p x 1 hp hsearch
      obtain ⟨ha1, ha2, ha3, ha4, ha5⟩ :=
        attach_spec t p x 1 hp hsearch (wf_htl t hwf x)
      have hagree : ∀ k, k < t.nodes.size →
          (((t.attach p x 1).1.nodeAt k).item = (t.nodeAt k).item ∧
           ((t.attach p x 1).1.nodeAt k).isRoot = (t.nodeAt k).isRoot ∧
           ((t.attach p x 1).1.nodeAt k).parent = (t.nodeAt k).parent) := by
        intro k hk
        rw [ha4 k hk]
        exact ⟨attachSpecNode_item .., attachSpecNode_isRoot ..,
          attachSpecNode_parent ..⟩
      have hIP : ∀ m, m < t.nodes.size →
          itemPath (t.attach p x 1).1 m = itemPath t m :=
        itemPath_congr t (t.attach p x 1).1 hwf hwf1 (by omega) hagree
      have hnxt : (t.attach p x 1).2 = t.nodes.size := ha1
      have hIPnxt : itemPath (t.attach p x 1).1 t.nodes.size = u ++ [x] := by
        rw [itemPath_succ (t.attach p x 1).1 hwf1 t.nodes.size p x
          hwf.size_pos (by omega)
          (by rw [ha3])
          (by rw [ha3]), hIP p hp, hup]
      have htf1 : trieFind (t.attach p x 1).1 0 (u ++ [x]) =
          some t.nodes.size :=
        attach_trieFind_new t hwf p x 1 u hp hsearch hu
      have htfux : trieFind t 0 (u ++ [x]) = none := by
        rw [trieFind_append, hu]
        show trieFind t p [x] = none
        rw [trieFind_singleton]
        exact hsearch
      obtain ⟨ih1, ih2, ih3, ih4, ih5, ih6⟩ := ih (t.attach p x 1).1
        (t.attach p x 1).2 (u ++ [x]) hwf1 (by omega) (by rw [hnxt]; exact htf1)
      rw [hstep]
      have hsup1 : ∀ m, m < t.nodes.size →
          supAt (t.attach p x 1).1 m = supAt t m := by
        intro m hm
        unfold supAt
        rw [ha4 m hm, attachSpecNode_support]
      refine ⟨by omega, ?_, ?_, ?_, ?_, ?_⟩
      · intro m hm
        obtain ⟨j1, j2, j3⟩ := ih2 m (by omega)
        obtain ⟨k1, k2, k3⟩ := hagree m hm
        exact ⟨by rw [j1, k1], by rw [j2, k3], by rw [j3, k2]⟩
      · intro m hm0 hm
        rw [ih3 m hm0 (by omega), hIP m hm, hsup1 m hm]
        have hmne : itemPath t m ≠ u ++ [x] := by
          intro hc
          have := trieFind_itemPath t hwf m (by omega)
          rw [hc, htfux] at this
          exact Option.noConfusion this
        by_cases hC1 : isPre (itemPath t m) ((u ++ [x]) ++ rest) = true ∧
            (u ++ [x]).length < (itemPath t m).length
        · rw [if_pos hC1, if_pos ((cond_step ..).mpr (Or.inr hC1))]
        · rw [if_neg hC1, if_neg (by
            intro hc
            rcases (cond_step ..).mp hc with hc2 | hc2
            · exact hmne hc2
            · exact hC1 hc2)]
      · intro m hm1 hm2
        by_cases hm : m = t.nodes.size
        · rw [hm]
          have hsz1 : t.nodes.size < (t.attach p x 1).1.nodes.size := by
            omega
          have hsupn : supAt (t.attach p x 1).1 t.nodes.size = 1 := by
            unfold supAt
            rw [ha3]
            rfl
          have hIP2 : itemPath
              ((t.attach p x 1).1.addTransactionFrom (t.attach p x 1).2
                rest) t.nodes.size = u ++ [x] := by
            rw [← hIPnxt]
            exact itemPath_congr (t.attach p x 1).1 _ hwf1
              (by
                have := wf_addTransactionFrom rest (t.attach p x 1).1
                  (t.attach p x 1).2 hwf1 (by omega)
                exact this)
              ih1 (fun k hk => by
                obtain ⟨j1, j2, j3⟩ := ih2 k hk
                exact ⟨j1, j3, j2⟩) t.nodes.size hsz1
          refine ⟨?_, ?_, ?_, ?_⟩
          · rw [ih3 t.nodes.size hwf.size_pos hsz1, hIPnxt, hsupn,
              if_neg (by
                rintro ⟨-, hc⟩
                omega)]
          · rw [hIP2]
            have : u ++ [x] = u ++ (x :: rest).take 1 := rfl
            rw [this]
            exact ((isPre_ext_iff _ _ _).mpr ⟨1, by omega, by simp, rfl⟩).1
          · rw [hIP2]
            rw [List.length_append]
            simp
          · rw [hIP2]
            exact htfux
        · obtain ⟨j1, j2, j3, j4⟩ := ih4 m (by omega) hm2
          refine ⟨j1, ?_, ?_, ?_⟩
          · rw [List.append_assoc] at j2
            exact j2
          · rw [List.length_append] at j3
            simp at j3
            omega
          · rcases htn : trieFind t 0 (itemPath
                ((t.attach p x 1).1.addTransactionFrom (t.attach p x 1).2
                  rest) m) with _ | n2
            · rfl
            · exfalso
              have := attach_trieFind_mono t hwf p x 1 hp hsearch _ 0 n2
                hwf.size_pos htn
              rw [j4] at this
              exact Option.noConfusion this
      · intro w n h
        exact ih5 w n
          (attach_trieFind_mono t hwf p x 1 hp hsearch w 0 n hwf.size_pos h)
      · intro d hd
        rcases d with _ | d2
        · refine ⟨p, ?_⟩
          show trieFind _ 0 (u ++ []) = some p
          rw [List.append_nil]
          exact ih5 u p (attach_trieFind_mono t hwf p x 1 hp hsearch u 0 p
            hwf.size_pos hu)
        · have := ih6 d2 (by simp at hd ⊢; omega)
          obtain ⟨n, hn⟩ := this
          refine ⟨n, ?_⟩
          rw [show u ++ (x :: rest).take (d2 + 1) =
            (u ++ [x]) ++ rest.take d2 from by
              rw [List.take_succ_cons, List.append_assoc]
              rfl]
          exact hn
    · -- hit: increment the existing child's support
      have hstep : t.addTransactionFrom p (x :: rest) =
          (t.setNode c { t.nodeAt c with
            support := (t.nodeAt c).support.map
              (· + 1) }).addTransactionFrom c rest := by
        show (match (t.nodeAt p).search x with
          | some nxt =>
            (t.setNode nxt { t.nodeAt nxt with
                support := (t.nodeAt nxt).support.map
                  (· + 1) }).addTransactionFrom nxt rest
          | none =>
            ((t.attach p x 1).1).addTransactionFrom (t.attach p x 1).2
              rest) = _
        rw [hsearch]
      obtain ⟨hc1, hc2, hc3, hc4⟩ :=
        hwf.children_wf p hp x c (lookup_mem _ _ _ hsearch)
      have hc0 : 0 < c := by omega
      obtain ⟨s0, hs0⟩ := Option.isSome_iff_exists.mp
        (hwf.nonroot_support c hc0 hc2)
      have hwf1 := wf_setSupportMap t hwf c (· + 1)
      have hsz1 : (t.setNode c { t.nodeAt c with
          support := (t.nodeAt c).support.map (· + 1) }).nodes.size =
            t.nodes.size := FPTree.size_setNode ..
      have hagree : ∀ k,
          (((t.setNode c { t.nodeAt c with
              support := (t.nodeAt c).support.map (· + 1) }).nodeAt k).item =
            (t.nodeAt k).item ∧
           ((t.setNode c { t.nodeAt c with
              support := (t.nodeAt c).support.map (· + 1) }).nodeAt k).isRoot =
            (t.nodeAt k).isRoot ∧
           ((t.setNode c { t.nodeAt c with
              support := (t.nodeAt c).support.map (· + 1) }).nodeAt k).parent =
            (t.nodeAt k).parent ∧
           ((t.setNode c { t.nodeAt c with
              support := (t.nodeAt c).support.map
                (· + 1) }).nodeAt k).children =
            (t.nodeAt k).children) := by
        intro k
        rw [FPTree.nodeAt_setNode]
        by_cases hk : c = k ∧ c < t.nodes.size
        · rw [if_pos hk, ← hk.1]
          refine ⟨rfl, ?_, rfl, rfl⟩
          unfold FPNode.isRoot
          rw [hs0]
          rfl
        · rw [if_neg hk]
          exact ⟨rfl, rfl, rfl, rfl⟩
      have hIP : ∀ m, m < t.nodes.size →
          itemPath (t.setNode c { t.nodeAt c with
            support := (t.nodeAt c).support.map (· + 1) }) m =
              itemPath t m :=
        itemPath_congr t _ hwf hwf1 (by omega)
          (fun k hk => ⟨(hagree k).1, (hagree k).2.1, (hagree k).2.2.1⟩)
      have htfc : ∀ (w : List Item) (st : Nat),
          trieFind (t.setNode c { t.nodeAt c with
            support := (t.nodeAt c).support.map (· + 1) }) st w =
              trieFind t st w :=
        fun w st => trieFind_congr_children t _
          (fun k => (hagree k).2.2.2) w st
      have hwc : itemPath t c = u ++ [x] := by
        rw [itemPath_succ t hwf c p x hc0 hc2 hc4 hc3, hup]
      have htf1 : trieFind (t.setNode c { t.nodeAt c with
          support := (t.nodeAt c).support.map (· + 1) }) 0 (u ++ [x]) =
            some c := by
        rw [htfc, trieFind_append, hu]
        show trieFind t p [x] = some c
        rw [trieFind_singleton]
        exact hsearch
      have hsup1 : ∀ m, m < t.nodes.size →
          supAt (t.setNode c { t.nodeAt c with
            support := (t.nodeAt c).support.map (· + 1) }) m =
              supAt t m + (if m = c then 1 else 0) := by
        intro m hm
        unfold supAt
        rw [FPTree.nodeAt_setNode]
        by_cases hk : c = m ∧ c < t.nodes.size
        · rw [if_pos hk, if_pos hk.1.symm]
          show ((t.nodeAt c).support.map (· + 1)).getD 0 = _
          rw [← hk.1, hs0]
          rfl
        · rw [if_neg hk, if_neg (by
            intro hc5
            exact hk ⟨hc5.symm, hc2⟩)]
          rfl
      obtain ⟨ih1, ih2, ih3, ih4, ih5, ih6⟩ := ih
        (t.setNode c { t.nodeAt c with
          support := (t.nodeAt c).support.map (· + 1) }) c (u ++ [x]) hwf1
        (by omega) htf1
      rw [hstep]
      refine ⟨by omega, ?_, ?_, ?_, ?_, ?_⟩
      · intro m hm
        obtain ⟨j1, j2, j3⟩ := ih2 m (by omega)
        exact ⟨by rw [j1, (hagree m).1], by rw [j2, (hagree m).2.2.1],
          by rw [j3, (hagree m).2.1]⟩
      · intro m hm0 hm
        rw [ih3 m hm0 (by omega), hIP m (by omega), hsup1 m hm]
        by_cases hmc : m = c
        · rw [hmc, hwc]
          rw [if_pos rfl]
          rw [if_neg (by
            rintro ⟨-, hc5⟩
            omega)]
          rw [if_pos ((cond_step ..).mpr (Or.inl rfl))]
        · rw [if_neg hmc]
          have hmne : itemPath t m ≠ u ++ [x] := by
            intro hc5
            rw [← hwc] at hc5
            exact hmc (itemPath_inj t hwf m c (by omega) hc2 hc5)
          by_cases hC1 : isPre (itemPath t m) ((u ++ [x]) ++ rest) = true ∧
              (u ++ [x]).length < (itemPath t m).length
          · rw [if_pos hC1, if_pos ((cond_step ..).mpr (Or.inr hC1))]
          · rw [if_neg hC1, if_neg (by
              intro hc5
              rcases (cond_step ..).mp hc5 with hc6 | hc6
              · exact hmne hc6
              · exact hC1 hc6)]
      · intro m hm1 hm2
        obtain ⟨j1, j2, j3, j4⟩ := ih4 m (by omega) hm2
        refine ⟨j1, ?_, ?_, ?_⟩
        · rw [List.append_assoc] at j2
          exact j2
        · rw [List.length_append, List.length_singleton] at j3
          omega
        · rw [← htfc _ 0]
          exact j4
      · intro w n h
        exact ih5 w n (by rw [htfc]; exact h)
      · intro d hd
        rcases d with _ | d2
        · refine ⟨p, ?_⟩
          show trieFind _ 0 (u ++ []) = some p
          rw [List.append_nil]
          exact ih5 u p (by rw [htfc]; exact hu)
        · obtain ⟨n, hn⟩ := ih6 d2 (by simp at hd ⊢; omega)
          refine ⟨n, ?_⟩
          rw [show u ++ (x :: rest).take (d2 + 1) =
            (u ++ [x]) ++ rest.take d2 from by
              rw [List.take_succ_cons, List.append_assoc]
              rfl]
          exact hn

theorem prefixCount_append_one (done : List (List Item)) (tr w : List Item) :
    prefixCount (done ++ [tr]) w =
      prefixCount done w + (if isPre w tr = true then 1 else 0) := by
  unfold prefixCount
  rw [List.countP_append, List.countP_cons, List.countP_nil]
  omega

theorem foldl_add_trie (ts : List (List Item)) : ∀ (done : List (List Item))
    (t : FPTree), WF t →
    (∀ m, 0 < m → m < t.nodes.size →
      supAt t m = prefixCount done (itemPath t m) ∧
      itemPath t m ≠ [] ∧
      ∃ tr ∈ done, isPre (itemPath t m) tr = true) →
    (∀ tr ∈ done, ∀ d, d ≤ tr.length →
      ∃ n, trieFind t 0 (tr.take d) = some n) →
    (∀ m, 0 < m → m < (ts.foldl FPTree.add_transaction t).nodes.size →
      supAt (ts.foldl FPTree.add_transaction t) m =
        prefixCount (done ++ ts)
          (itemPath (ts.foldl FPTree.add_transaction t) m) ∧
      itemPath (ts.foldl FPTree.add_transaction t) m ≠ [] ∧
      ∃ tr ∈ done ++ ts,
        isPre (itemPath (ts.foldl FPTree.add_transaction t) m) tr = true) ∧
    (∀ tr ∈ done ++ ts, ∀ d, d ≤ tr.length →
      ∃ n, trieFind (ts.foldl FPTree.add_transaction t) 0 (tr.take d) =
        some n) := by
  induction ts with
  | nil =>
    intro done t hwf hsup hcomp
    rw [List.foldl_nil, List.append_nil]
    exact ⟨hsup, hcomp⟩
  | cons tr rest ihl =>
    intro done t hwf hsup hcomp
    rw [List.foldl_cons]
    obtain ⟨a1, a2, a3, a4, a5, a6⟩ :=
      addFrom_trie tr t 0 [] hwf hwf.size_pos rfl
    replace a1 : t.nodes.size ≤ (t.add_transaction tr).nodes.size := a1
    replace a2 : ∀ m, m < t.nodes.size →
        ((t.add_transaction tr).nodeAt m).item = (t.nodeAt m).item ∧
        ((t.add_transaction tr).nodeAt m).parent = (t.nodeAt m).parent ∧
        ((t.add_transaction tr).nodeAt m).isRoot = (t.nodeAt m).isRoot := a2
    replace a3 : ∀ m, 0 < m → m < t.nodes.size →
        supAt (t.add_transaction tr) m = supAt t m +
          (if isPre (itemPath t m) ([] ++ tr) = true ∧
              (0 : Nat) < (itemPath t m).length then 1 else 0) := a3
    replace a4 : ∀ m, t.nodes.size ≤ m →
        m < (t.add_transaction tr).nodes.size →
        supAt (t.add_transaction tr) m = 1 ∧
        isPre (itemPath (t.add_transaction tr) m) ([] ++ tr) = true ∧
        (0 : Nat) < (itemPath (t.add_transaction tr) m).length ∧
        trieFind t 0 (itemPath (t.add_transaction tr) m) = none := a4
    replace a5 : ∀ (w : List Item) (n : Nat), trieFind t 0 w = some n →
        trieFind (t.add_transaction tr) 0 w = some n := a5
    replace a6 : ∀ d, d ≤ tr.length →
        ∃ n, trieFind (t.add_transaction tr) 0 ([] ++ tr.take d) =
          some n := a6
    have hwf1 : WF (t.add_transaction tr) := wf_add_transaction t hwf tr
    have hsup1 : ∀ m, 0 < m → m < (t.add_transaction tr).nodes.size →
        supAt (t.add_transaction tr) m =
          prefixCount (done ++ [tr]) (itemPath (t.add_transaction tr) m) ∧
        itemPath (t.add_transaction tr) m ≠ [] ∧
        ∃ tr2 ∈ done ++ [tr],
          isPre (itemPath (t.add_transaction tr) m) tr2 = true := by
      intro m hm0 hm
      by_cases hold : m < t.nodes.size
      · have hIPm : itemPath (t.add_transaction tr) m = itemPath t m :=
          itemPath_congr t _ hwf hwf1 a1 (fun k hk => by
            obtain ⟨j1, j2, j3⟩ := a2 k hk
            exact ⟨j1, j3, j2⟩) m hold
        obtain ⟨s1, s2, s3⟩ := hsup m hm0 hold
        refine ⟨?_, by rw [hIPm]; exact s2, ?_⟩
        · rw [hIPm, a3 m hm0 hold, s1, prefixCount_append_one]
          congr 1
          have hlen : 0 < (itemPath t m).length := by
            rcases h : itemPath t m with _ | _
            · exact absurd h s2
            · simp
          by_cases hPre : isPre (itemPath t m) tr = true
          · rw [if_pos ⟨by rw [List.nil_append]; exact hPre, hlen⟩,
              if_pos hPre]
          · rw [if_neg (by
              rintro ⟨hc, -⟩
              rw [List.nil_append] at hc
              exact hPre hc), if_neg hPre]
        · obtain ⟨tr2, ht2, ht3⟩ := s3
          exact ⟨tr2, List.mem_append_left _ ht2, by rw [hIPm]; exact ht3⟩
      · obtain ⟨j1, j2, j3, j4⟩ := a4 m (by omega) hm
        rw [List.nil_append] at j2
        refine ⟨?_, ?_, ?_⟩
        · rw [j1, prefixCount_append_one]
          have hz : prefixCount done
              (itemPath (t.add_transaction tr) m) = 0 := by
            unfold prefixCount
            rw [List.countP_eq_zero]
            intro tr2 htr2 hpre
            have hlen := isPre_length_le _ _ hpre
            obtain ⟨n, hn⟩ := hcomp tr2 htr2
              (itemPath (t.add_transaction tr) m).length hlen
            rw [(isPre_iff _ _).mp hpre] at hn
            rw [j4] at hn
            exact Option.noConfusion hn
          rw [hz, if_pos j2]
        · intro hc
          rw [hc] at j3
          simp at j3
        · exact ⟨tr, List.mem_append_right _ (List.mem_singleton.mpr rfl),
            j2⟩
    have hcomp1 : ∀ tr2 ∈ done ++ [tr], ∀ d, d ≤ tr2.length →
        ∃ n, trieFind (t.add_transaction tr) 0 (tr2.take d) = some n := by
      intro tr2 htr2 d hd
      rcases List.mem_append.mp htr2 with h | h
      · obtain ⟨n, hn⟩ := hcomp tr2 h d hd
        exact ⟨n, a5 _ n hn⟩
      · rw [List.mem_singleton] at h
        rw [h] at hd ⊢
        obtain ⟨n, hn⟩ := a6 d hd
        rw [List.nil_append] at hn
        exact ⟨n, hn⟩
    have hres := ihl (done ++ [tr]) (t.add_transaction tr) hwf1 hsup1 hcomp1
    rw [List.append_assoc] at hres
    exact hres

theorem buildTree_trie (ts : List (List Item)) :
    (∀ m, 0 < m → m < (buildTree ts).nodes.size →
      supAt (buildTree ts) m = prefixCount ts (itemPath (buildTree ts) m) ∧
      itemPath (buildTree ts) m ≠ [] ∧
      ∃ tr ∈ ts, isPre (itemPath (buildTree ts) m) tr = true) ∧
    (∀ tr ∈ ts, ∀ d, d ≤ tr.length →
      ∃ n, trieFind (buildTree ts) 0 (tr.take d) = some n) := by
  have hres := foldl_add_trie ts [] FPTree.new wf_new
    (by
      intro m hm0 hm
      have hsz : FPTree.new.nodes.size = 1 := rfl
      omega)
    (by
      intro tr htr
      simp at htr)
  rw [List.nil_append] at hres
  exact hres

theorem insertPath_trie (q : List PathNode) : ∀ (t : FPTree) (seed : Item)
    (cur : Nat) (u : List Item), WF t → cur < t.nodes.size →
    trieFind t 0 u = some cur →
    t.nodes.size ≤ (t.insertPath seed cur q).nodes.size ∧
    (∀ m, m < t.nodes.size →
      ((t.insertPath seed cur q).nodeAt m).item = (t.nodeAt m).item ∧
      ((t.insertPath seed cur q).nodeAt m).parent = (t.nodeAt m).parent ∧
      ((t.insertPath seed cur q).nodeAt m).isRoot = (t.nodeAt m).isRoot) ∧
    (∀ m, m < t.nodes.size →
      ((t.insertPath seed cur q).nodeAt m).support = (t.nodeAt m).support) ∧
    (∀ m, t.nodes.size ≤ m → m < (t.insertPath seed cur q).nodes.size →
      ∃ q1 pn q2, q = q1 ++ pn :: q2 ∧
        itemPath (t.insertPath seed cur q) m =
          u ++ q1.map PathNode.item ++ [pn.item] ∧
        ((t.insertPath seed cur q).nodeAt m).item = some pn.item ∧
        ((t.insertPath seed cur q).nodeAt m).support =
          some (if pn.item == seed then pn.support else 0) ∧
        trieFind t 0 (itemPath (t.insertPath seed cur q) m) = none) ∧
    (∀ (w : List Item) (n : Nat), trieFind t 0 w = some n →
      trieFind (t.insertPath seed cur q) 0 w = some n) ∧
    (∃ n, trieFind (t.insertPath seed cur q) 0
        (u ++ q.map PathNode.item) = some n ∧
      (trieFind t 0 (u ++ q.map PathNode.item) = none →
        t.nodes.size ≤ n)) := by
  induction q with
  | nil =>
    intro t seed cur u hwf hcur hu
    refine ⟨le_refl _, fun m _ => ⟨rfl, rfl, rfl⟩, fun m _ => rfl,
      ?_, fun w n h => h, ?_⟩
    · intro m hm1 hm2
      have hm3 : m < t.nodes.size := hm2
      omega
    · refine ⟨cur, ?_, ?_⟩
      · show trieFind t 0 (u ++ []) = some cur
        rw [List.append_nil]
        exact hu
      · intro hc
        rw [List.map_nil, List.append_nil, hu] at hc
        exact Option.noConfusion hc
  | cons pn rest ih =>
    intro t seed cur u hwf hcur hu
    have hup : itemPath t cur = u := trieFind_word t hwf u cur hu
    rcases hsearch : (t.nodeAt cur).search pn.item with _ | c
    · -- miss: attach a fresh node with the project-assigned support
      have hstep : t.insertPath seed cur (pn :: rest) =
          (t.attach cur pn.item
            (if pn.item == seed then pn.support else 0)).1.insertPath seed
            (t.attach cur pn.item
              (if pn.item == seed then pn.support else 0)).2 rest := by
        show (match (t.nodeAt cur).search pn.item with
          | some nxt => t.insertPath seed nxt rest
          | none =>
            ((t.attach cur pn.item
              (if pn.item == seed then pn.support else 0)).1).insertPath
              seed
              (t.attach cur pn.item
                (if pn.item == seed then pn.support else 0)).2 rest) = _
        rw [hsearch]
      have hwf1 := wf_attach t hwf cur pn.item
        (if pn.item == seed then pn.support else 0) hcur hsearch
      obtain ⟨ha1, ha2, ha3, ha4, ha5⟩ := attach_spec t cur pn.item
        (if pn.item == seed then pn.support else 0) hcur hsearch
        (wf_htl t hwf pn.item)
      have hagree : ∀ k, k < t.nodes.size →
          (((t.attach cur pn.item
              (if pn.item == seed then pn.support else 0)).1.nodeAt k).item =
            (t.nodeAt k).item ∧
           ((t.attach cur pn.item
              (if pn.item == seed then pn.support else 0)).1.nodeAt
                k).isRoot = (t.nodeAt k).isRoot ∧
           ((t.attach cur pn.item
              (if pn.item == seed then pn.support else 0)).1.nodeAt
                k).parent = (t.nodeAt k).parent) := by
        intro k hk
        rw [ha4 k hk]
        exact ⟨attachSpecNode_item .., attachSpecNode_isRoot ..,
          attachSpecNode_parent ..⟩
      have hIP : ∀ m, m < t.nodes.size →
          itemPath (t.attach cur pn.item
            (if pn.item == seed then pn.support else 0)).1 m =
              itemPath t m :=
        itemPath_congr t _ hwf hwf1 (by omega) hagree
      have hIPnxt : itemPath (t.attach cur pn.item
          (if pn.item == seed then pn.support else 0)).1 t.nodes.size =
            u ++ [pn.item] := by
        rw [itemPath_succ _ hwf1 t.nodes.size cur pn.item hwf.size_pos
          (by omega) (by rw [ha3]) (by rw [ha3]), hIP cur hcur, hup]
      have htf1 : trieFind (t.attach cur pn.item
          (if pn.item == seed then pn.support else 0)).1 0
            (u ++ [pn.item]) = some t.nodes.size :=
        attach_trieFind_new t hwf cur pn.item _ u hcur hsearch hu
      have htfux : trieFind t 0 (u ++ [pn.item]) = none := by
        rw [trieFind_append, hu]
        show trieFind t cur [pn.item] = none
        rw [trieFind_singleton]
        exact hsearch
      obtain ⟨ih1, ih2, ih3, ih4, ih5, ih6⟩ := ih
        (t.attach cur pn.item
          (if pn.item == seed then pn.support else 0)).1
        seed
        (t.attach cur pn.item
          (if pn.item == seed then pn.support else 0)).2
        (u ++ [pn.item]) hwf1 (by rw [ha1]; omega) (by rw [ha1]; exact htf1)
      rw [hstep]
      refine ⟨by omega, ?_, ?_, ?_, ?_, ?_⟩
      · intro m hm
        obtain ⟨j1, j2, j3⟩ := ih2 m (by omega)
        obtain ⟨k1, k2, k3⟩ := hagree m hm
        exact ⟨by rw [j1, k1], by rw [j2, k3], by rw [j3, k2]⟩
      · intro m hm
        rw [ih3 m (by omega), ha4 m hm, attachSpecNode_support]
      · intro m hm1 hm2
        by_cases hm : m = t.nodes.size
        · refine ⟨[], pn, rest, rfl, ?_, ?_, ?_, ?_⟩
          · rw [hm]
            have hIP2 : itemPath
                ((t.attach cur pn.item
                  (if pn.item == seed then pn.support else 0)).1.insertPath
                    seed
                    (t.attach cur pn.item
                      (if pn.item == seed then pn.support
                        else 0)).2 rest) t.nodes.size =
                  u ++ [pn.item] := by
              rw [← hIPnxt]
              exact itemPath_congr _ _ hwf1
                (wf_insertPath rest _ seed _ hwf1 (by omega)) ih1
                (fun k hk => by
                  obtain ⟨j1, j2, j3⟩ := ih2 k hk
                  exact ⟨j1, j3, j2⟩) t.nodes.size (by omega)
            rw [hIP2, List.map_nil, List.append_nil]
          · rw [hm, (ih2 t.nodes.size (by omega)).1, ha3]
          · rw [hm, ih3 t.nodes.size (by omega), ha3]
          · rw [hm]
            have hIP2 : itemPath
                ((t.attach cur pn.item
                  (if pn.item == seed then pn.support else 0)).1.insertPath
                    seed
                    (t.attach cur pn.item
                      (if pn.item == seed then pn.support
                        else 0)).2 rest) t.nodes.size =
                  u ++ [pn.item] := by
              rw [← hIPnxt]
              exact itemPath_congr _ _ hwf1
                (wf_insertPath rest _ seed _ hwf1 (by omega)) ih1
                (fun k hk => by
                  obtain ⟨j1, j2, j3⟩ := ih2 k hk
                  exact ⟨j1, j3, j2⟩) t.nodes.size (by omega)
            rw [hIP2]
            exact htfux
        · obtain ⟨q1, pn2, q2, j0, j1, j2, j3, j4⟩ := ih4 m (by omega) hm2
          refine ⟨pn :: q1, pn2, q2, by rw [j0, List.cons_append], ?_, j2, j3, ?_⟩
          · rw [j1, List.map_cons]
            rw [show u ++ pn.item :: q1.map PathNode.item =
              (u ++ [pn.item]) ++ q1.map PathNode.item from by
                rw [List.append_assoc]
                rfl]
          · rcases htn : trieFind t 0 (itemPath
                ((t.attach cur pn.item
                  (if pn.item == seed then pn.support else 0)).1.insertPath
                    seed
                    (t.attach cur pn.item
                      (if pn.item == seed then pn.support else 0)).2 rest)
                  m) with _ | n2
            · rfl
            · exfalso
              have := attach_trieFind_mono t hwf cur pn.item
                (if pn.item == seed then pn.support else 0) hcur hsearch
                _ 0 n2 hwf.size_pos htn
              rw [j4] at this
              exact Option.noConfusion this
      · intro w n h
        exact ih5 w n (attach_trieFind_mono t hwf cur pn.item
          (if pn.item == seed then pn.support else 0) hcur hsearch
          w 0 n hwf.size_pos h)
      · obtain ⟨n, hn1, hn2⟩ := ih6
        refine ⟨n, ?_, ?_⟩
        · rw [show u ++ (pn :: rest).map PathNode.item =
            (u ++ [pn.item]) ++ rest.map PathNode.item from by
              rw [List.map_cons, List.append_assoc]
              rfl]
          exact hn1
        · intro h9
          rcases htf2 : trieFind (t.attach cur pn.item
              (if pn.item == seed then pn.support else 0)).1 0
                ((u ++ [pn.item]) ++ rest.map PathNode.item) with _ | n2
          · have := hn2 htf2
            omega
          · have hn2x : n2 = n := by
              have h11 := ih5 _ n2 htf2
              rw [h11] at hn1
              injection hn1 with h12
            rw [trieFind_append, htf1] at htf2
            replace htf2 : trieFind (t.attach cur pn.item
                (if pn.item == seed then pn.support else 0)).1
                  t.nodes.size (rest.map PathNode.item) = some n2 := htf2
            obtain ⟨w1, w2, w3⟩ := trieFind_lt _ hwf1
              (rest.map PathNode.item) t.nodes.size n2 (by omega) htf2
            omega
    · -- hit: descend into the existing child
      have hstep : t.insertPath seed cur (pn :: rest) =
          t.insertPath seed c rest := by
        show (match (t.nodeAt cur).search pn.item with
          | some nxt => t.insertPath seed nxt rest
          | none =>
            ((t.attach cur pn.item
              (if pn.item == seed then pn.support else 0)).1).insertPath
              seed
              (t.attach cur pn.item
                (if pn.item == seed then pn.support else 0)).2 rest) = _
        rw [hsearch]
      obtain ⟨hc1, hc2, hc3, hc4⟩ :=
        hwf.children_wf cur hcur pn.item c (lookup_mem _ _ _ hsearch)
      have hc0 : 0 < c := by omega
      have hwc : itemPath t c = u ++ [pn.item] := by
        rw [itemPath_succ t hwf c cur pn.item hc0 hc2 hc4 hc3, hup]
      have htfc : trieFind t 0 (u ++ [pn.item]) = some c := by
        rw [trieFind_append, hu]
        show trieFind t cur [pn.item] = some c
        rw [trieFind_singleton]
        exact hsearch
      obtain ⟨ih1, ih2, ih3, ih4, ih5, ih6⟩ := ih t seed c (u ++ [pn.item])
        hwf hc2 htfc
      rw [hstep]
      refine ⟨ih1, ih2, ih3, ?_, ih5, ?_⟩
      · intro m hm1 hm2
        obtain ⟨q1, pn2, q2, j0, j1, j2, j3, j4⟩ := ih4 m hm1 hm2
        refine ⟨pn :: q1, pn2, q2, by rw [j0, List.cons_append], ?_, j2, j3, j4⟩
        rw [j1, List.map_cons]
        rw [show u ++ pn.item :: q1.map PathNode.item =
          (u ++ [pn.item]) ++ q1.map PathNode.item from by
            rw [List.append_assoc]
            rfl]
      · obtain ⟨n, hn1, hn2⟩ := ih6
        refine ⟨n, ?_, ?_⟩
        · rw [show u ++ (pn :: rest).map PathNode.item =
            (u ++ [pn.item]) ++ rest.map PathNode.item from by
              rw [List.map_cons, List.append_assoc]
              rfl]
          exact hn1
        · intro hc5
          apply hn2
          rw [show u ++ (pn :: rest).map PathNode.item =
            (u ++ [pn.item]) ++ rest.map PathNode.item from by
              rw [List.map_cons, List.append_assoc]
              rfl] at hc5
          exact hc5

theorem isPre_append_self (w v : List Item) : isPre w (w ++ v) = true := by
  rw [isPre_iff]
  have h3 : (w ++ v).take (w.length + 0) = w ++ v.take 0 := List.take_append ..
  rw [Nat.add_zero, List.take_zero, List.append_nil] at h3
  exact h3

theorem mem_dropLast_append {α : Type} (l1 : List α) (a c : α)
    (l2 : List α) : a ∈ (l1 ++ a :: c :: l2).dropLast := by
  induction l1 with
  | nil =>
    show a ∈ (a :: c :: l2).dropLast
    rw [List.dropLast_cons₂]
    exact List.mem_cons_self ..
  | cons x l1t ih =>
    show a ∈ ((x :: (l1t ++ a :: c :: l2))).dropLast
    rcases hM : l1t ++ a :: c :: l2 with _ | ⟨m0, mrest⟩
    · exact absurd hM (by simp)
    · rw [List.dropLast_cons₂]
      rw [← hM]
      exact List.mem_cons_of_mem _ ih

theorem filter_map_comm (l : List Nat) (f : Nat → Nat) (p : Nat → Bool) :
    (l.map f).filter p = (l.filter (fun c => p (f c))).map f := by
  induction l with
  | nil => rfl
  | cons x xs ih =>
    rw [List.map_cons, List.filter_cons, List.filter_cons]
    by_cases h : p (f x)
    · rw [if_pos h, if_pos h, List.map_cons, ih]
    · rw [if_neg h, if_neg h, ih]

theorem range_filter_eq : ∀ (k c0 : Nat), c0 < k →
    (List.range k).filter (fun c => decide (c = c0)) = [c0] := by
  intro k
  induction k with
  | zero => intro c0 h; omega
  | succ k2 ih =>
    intro c0 h
    rw [List.range_succ, List.filter_append]
    by_cases hc : c0 < k2
    · rw [ih c0 hc]
      have : (([k2] : List Nat)).filter (fun c => decide (c = c0)) = [] := by
        rw [List.filter_cons, if_neg (by simp; omega)]
        rfl
      rw [this, List.append_nil]
    · have hc0 : c0 = k2 := by omega
      have h1 : (List.range k2).filter (fun c => decide (c = c0)) = [] := by
        rw [List.filter_eq_nil_iff]
        intro c hcm
        rw [List.mem_range] at hcm
        simp
        omega
      rw [h1, List.nil_append, List.filter_cons, if_pos (by simp; omega)]
      rw [hc0]
      rfl

theorem itemIds_ext_one (t t' : FPTree) (i : Item) (k : Nat)
    (hsz : t'.nodes.size = t.nodes.size + k)
    (hold : ∀ m, m < t.nodes.size →
      (t'.nodeAt m).item = (t.nodeAt m).item)
    (nT : Nat) (hnT1 : t.nodes.size ≤ nT) (hnT2 : nT < t'.nodes.size)
    (hitem : (t'.nodeAt nT).item = some i)
    (hothers : ∀ m, t.nodes.size ≤ m → m < t'.nodes.size → m ≠ nT →
      (t'.nodeAt m).item ≠ some i) :
    itemIds t' i = itemIds t i ++ [nT] := by
  unfold itemIds
  rw [hsz, List.range_add, List.filter_append]
  congr 1
  · apply List.filter_congr
    intro m hm
    rw [List.mem_range] at hm
    rw [hold m hm]
  · rw [filter_map_comm]
    have hc0 : nT - t.nodes.size < k := by omega
    have hcong : (List.range k).filter
        (fun c => (t'.nodeAt (t.nodes.size + c)).item == some i) =
        (List.range k).filter (fun c => decide (c = nT - t.nodes.size)) := by
      apply List.filter_congr
      intro c hcm
      rw [List.mem_range] at hcm
      by_cases hc : t.nodes.size + c = nT
      · rw [show c = nT - t.nodes.size from by omega,
          show t.nodes.size + (nT - t.nodes.size) = nT from by omega,
          hitem]
        rw [beq_self_eq_true]
        exact (decide_eq_true rfl).symm
      · have hne := hothers (t.nodes.size + c) (by omega) (by omega) hc
        have h1 : ((t'.nodeAt (t.nodes.size + c)).item == some i) = false := by
          rw [beq_eq_false_iff_ne]
          exact hne
        have h2 : decide (c = nT - t.nodes.size) = false := by
          rw [decide_eq_false_iff_not]
          omega
        rw [h1, h2]
    rw [hcong, range_filter_eq k (nT - t.nodes.size) hc0, List.map_cons,
      List.map_nil]
    rw [show t.nodes.size + (nT - t.nodes.size) = nT from by omega]

theorem forall2_imp_mem {α β : Type} (R S : α → β → Prop) :
    ∀ (A : List α) (B : List β), List.Forall₂ R A B →
    (∀ a b, a ∈ A → R a b → S a b) → List.Forall₂ S A B := by
  intro A
  induction A with
  | nil =>
    intro B h _
    cases h
    exact List.Forall₂.nil
  | cons x xs ih =>
    intro B h himp
    cases h with
    | cons hxy htail =>
      exact List.Forall₂.cons
        (himp _ _ (List.mem_cons_self ..) hxy)
        (ih _ htail (fun a b ha => himp a b (List.mem_cons_of_mem _ ha)))

theorem word_getLast (q : List PathNode) (i : Item)
    (h : (q.getLast?).map PathNode.item = some i) :
    (q.map PathNode.item).getLast? = some i := by
  rw [List.getLast?_map]
  exact h

theorem isPre_refl (w : List Item) : isPre w w = true := by
  rw [isPre_iff, List.take_length]

theorem forall2_append {α β : Type} (R : α → β → Prop) :
    ∀ (A1 : List α) (B1 : List β), List.Forall₂ R A1 B1 →
    ∀ (A2 : List α) (B2 : List β), List.Forall₂ R A2 B2 →
    List.Forall₂ R (A1 ++ A2) (B1 ++ B2) := by
  intro A1
  induction A1 with
  | nil =>
    intro B1 h A2 B2 h2
    cases h
    exact h2
  | cons x xs ih =>
    intro B1 h A2 B2 h2
    cases h with
    | cons hxy htail =>
      exact List.Forall₂.cons hxy (ih _ htail _ _ h2)

theorem projectBuild_fold_inv (i : Item) :
    ∀ (remaining done : List (List PathNode)) (t : FPTree),
    (∀ q ∈ done ++ remaining, q ≠ []) →
    (∀ q ∈ done ++ remaining, (q.getLast?).map PathNode.item = some i) →
    (∀ q1 ∈ done ++ remaining, ∀ q2 ∈ done ++ remaining,
      isPre (q1.map PathNode.item) (q2.map PathNode.item) = true →
      q1.map PathNode.item = q2.map PathNode.item) →
    ((done ++ remaining).map (fun q => q.map PathNode.item)).Nodup →
    (∀ q ∈ done ++ remaining, ∀ pn ∈ q.dropLast, pn.item ≠ i) →
    WF t →
    (∀ m, 0 < m → m < t.nodes.size →
      ∃ q ∈ done, isPre (itemPath t m) (q.map PathNode.item) = true) →
    (∀ m, 0 < m → m < t.nodes.size → (t.nodeAt m).support =
      some (((done.filter (fun q =>
        decide (q.map PathNode.item = itemPath t m))).map lastSup).sum)) →
    List.Forall₂ (fun m q => itemPath t m = q.map PathNode.item ∧
      (t.nodeAt m).support = some (lastSup q)) (itemIds t i) done →
    ((∀ m, 0 < m →
       m < (remaining.foldl (fun t2 p => t2.insertPath i 0 p) t).nodes.size →
       ∃ q ∈ done ++ remaining, isPre
         (itemPath (remaining.foldl (fun t2 p => t2.insertPath i 0 p) t) m)
         (q.map PathNode.item) = true) ∧
     (∀ m, 0 < m →
       m < (remaining.foldl (fun t2 p => t2.insertPath i 0 p) t).nodes.size →
       ((remaining.foldl (fun t2 p => t2.insertPath i 0 p) t).nodeAt
         m).support = some ((((done ++ remaining).filter (fun q =>
           decide (q.map PathNode.item = itemPath
             (remaining.foldl (fun t2 p => t2.insertPath i 0 p) t)
               m))).map lastSup).sum)) ∧
     List.Forall₂ (fun m q =>
       itemPath (remaining.foldl (fun t2 p => t2.insertPath i 0 p) t) m =
         q.map PathNode.item ∧
       ((remaining.foldl (fun t2 p => t2.insertPath i 0 p) t).nodeAt
         m).support = some (lastSup q))
       (itemIds (remaining.foldl (fun t2 p => t2.insertPath i 0 p) t) i)
       (done ++ remaining)) := by
  intro remaining
  induction remaining with
  | nil =>
    intro done t h1 h2 h3 h4 h5 hwf hB hC hD
    rw [List.foldl_nil, List.append_nil]
    exact ⟨hB, hC, hD⟩
  | cons qnew rem2 ih =>
    intro done t h1 h2 h3 h4 h5 hwf hB hC hD
    rw [List.foldl_cons]
    obtain ⟨b1, b2, b3, b4, b5, b6⟩ :=
      insertPath_trie qnew t i 0 [] hwf hwf.size_pos rfl
    have hwf1 : WF (t.insertPath i 0 qnew) :=
      wf_insertPath qnew t i 0 hwf hwf.size_pos
    have hIP : ∀ m, m < t.nodes.size →
        itemPath (t.insertPath i 0 qnew) m = itemPath t m :=
      itemPath_congr t _ hwf hwf1 b1 (fun k hk => by
        obtain ⟨j1, j2, j3⟩ := b2 k hk
        exact ⟨j1, j3, j2⟩)
    have hqnew_mem : qnew ∈ done ++ qnew :: rem2 :=
      List.mem_append_right _ (List.mem_cons_self ..)
    have hqne : qnew ≠ [] := h1 qnew hqnew_mem
    have hqlast := h2 qnew hqnew_mem
    obtain ⟨pnL, hpnL1, hpnL2⟩ : ∃ pnL, qnew.getLast? = some pnL ∧
        pnL.item = i := by
      rcases hg : qnew.getLast? with _ | pnL
      · rw [hg] at hqlast
        exact Option.noConfusion hqlast
      · rw [hg] at hqlast
        injection hqlast with hq
        exact ⟨pnL, rfl, hq⟩
    have hwne : qnew.map PathNode.item ≠ [] := by
      intro hc
      rw [List.map_eq_nil_iff] at hc
      exact hqne hc
    have h4' := h4
    rw [List.map_append] at h4'
    have hdisj := List.disjoint_of_nodup_append h4'
    have hfresh : trieFind t 0 (qnew.map PathNode.item) = none := by
      rcases htf : trieFind t 0 (qnew.map PathNode.item) with _ | n
      · rfl
      · exfalso
        obtain ⟨hn1, hn2, hn3⟩ := trieFind_lt t hwf _ 0 n hwf.size_pos htf
        have hn0 : 0 < n := hn3 hwne
        obtain ⟨q0, hq01, hq02⟩ := hB n hn0 hn1
        have hword : itemPath t n = qnew.map PathNode.item :=
          trieFind_word t hwf _ n htf
        rw [hword] at hq02
        have heqw := h3 qnew hqnew_mem q0 (List.mem_append_left _ hq01) hq02
        apply hdisj (List.mem_map.mpr ⟨q0, hq01, rfl⟩)
        rw [← heqw]
        exact List.mem_map.mpr ⟨qnew, List.mem_cons_self .., rfl⟩
    obtain ⟨nT, hT1, hT2⟩ := b6
    rw [List.nil_append] at hT1
    have hTfresh : t.nodes.size ≤ nT := hT2 (by
      rw [List.nil_append]
      exact hfresh)
    obtain ⟨hTlt, hT3, hT4⟩ := trieFind_lt _ hwf1 _ 0 nT hwf1.size_pos hT1
    have hTword : itemPath (t.insertPath i 0 qnew) nT =
        qnew.map PathNode.item := trieFind_word _ hwf1 _ nT hT1
    obtain ⟨q1, pn, q2, j0, j1, j2, j3, j4⟩ := b4 nT hTfresh hTlt
    rw [List.nil_append] at j1
    have heq : q1.map PathNode.item ++ [pn.item] =
        q1.map PathNode.item ++ pn.item :: q2.map PathNode.item := by
      rw [← j1, hTword, j0, List.map_append, List.map_cons]
    have hq2m : q2.map PathNode.item = [] := by
      have h9 := List.append_cancel_left heq
      injection h9 with h9a h9b
      exact h9b.symm
    have hq2 : q2 = [] := List.map_eq_nil_iff.mp hq2m
    have hpn : pn = pnL := by
      rw [j0, hq2] at hpnL1
      rw [List.getLast?_concat] at hpnL1
      injection hpnL1 with h9
    have hpnitem : pn.item = i := by
      rw [hpn, hpnL2]
    have hls : lastSup qnew = pnL.support := by
      simp [lastSup, hpnL1]
    have hTsup : ((t.insertPath i 0 qnew).nodeAt nT).support =
        some (lastSup qnew) := by
      rw [j3, hpnitem, if_pos (beq_self_eq_true i), hpn, hls]
    have hnew : ∀ m, t.nodes.size ≤ m →
        m < (t.insertPath i 0 qnew).nodes.size → m ≠ nT →
        ((t.insertPath i 0 qnew).nodeAt m).item ≠ some i ∧
        ((t.insertPath i 0 qnew).nodeAt m).support = some 0 ∧
        (∃ v, v ≠ [] ∧ qnew.map PathNode.item =
          itemPath (t.insertPath i 0 qnew) m ++ v) := by
      intro m hm1 hm2 hmne
      obtain ⟨q1', pn', q2', k0, k1, k2, k3, k4⟩ := b4 m hm1 hm2
      rw [List.nil_append] at k1
      have hq2' : q2' ≠ [] := by
        intro hc
        apply hmne
        apply itemPath_inj _ hwf1 m nT hm2 hTlt
        rw [k1, hTword, k0, hc, List.map_append, List.map_cons,
          List.map_nil]
      rcases hq2c : q2' with _ | ⟨c0, c0t⟩
      · exact absurd hq2c hq2'
      · have hmem : pn' ∈ qnew.dropLast := by
          rw [k0, hq2c]
          exact mem_dropLast_append q1' pn' c0 c0t
        have hpn'ne : pn'.item ≠ i := h5 qnew hqnew_mem pn' hmem
        refine ⟨?_, ?_, ?_⟩
        · rw [k2]
          intro hc
          injection hc with hc
          exact hpn'ne hc
        · rw [k3, if_neg (by
            intro hc
            exact hpn'ne ((beq_iff_eq ..).mp hc))]
        · refine ⟨q2'.map PathNode.item, by rw [hq2c]; simp, ?_⟩
          rw [k1, k0, List.map_append, List.map_cons, List.append_assoc]
          rfl
    have hids1 : itemIds (t.insertPath i 0 qnew) i = itemIds t i ++ [nT] := by
      apply itemIds_ext_one t _ i
        ((t.insertPath i 0 qnew).nodes.size - t.nodes.size) (by omega)
        (fun m hm => (b2 m hm).1) nT hTfresh hTlt (by rw [j2, hpnitem])
      intro m hm1 hm2 hmne
      exact (hnew m hm1 hm2 hmne).1
    have hB1 : ∀ m, 0 < m → m < (t.insertPath i 0 qnew).nodes.size →
        ∃ q ∈ done ++ [qnew],
          isPre (itemPath (t.insertPath i 0 qnew) m)
            (q.map PathNode.item) = true := by
      intro m hm0 hm
      by_cases hold : m < t.nodes.size
      · obtain ⟨q0, hq01, hq02⟩ := hB m hm0 hold
        rw [hIP m hold]
        exact ⟨q0, List.mem_append_left _ hq01, hq02⟩
      · by_cases hmT : m = nT
        · rw [hmT, hTword]
          exact ⟨qnew,
            List.mem_append_right _ (List.mem_singleton.mpr rfl),
            isPre_refl _⟩
        · obtain ⟨hne1, hsup0, v, hv1, hv2⟩ := hnew m (by omega) hm hmT
          refine ⟨qnew,
            List.mem_append_right _ (List.mem_singleton.mpr rfl), ?_⟩
          rw [hv2]
          exact isPre_append_self ..
    have hC1 : ∀ m, 0 < m → m < (t.insertPath i 0 qnew).nodes.size →
        ((t.insertPath i 0 qnew).nodeAt m).support =
        some ((((done ++ [qnew]).filter (fun q =>
          decide (q.map PathNode.item =
            itemPath (t.insertPath i 0 qnew) m))).map lastSup).sum) := by
      intro m hm0 hm
      by_cases hold : m < t.nodes.size
      · rw [hIP m hold, b3 m hold, hC m hm0 hold, List.filter_append]
        have hql : ([qnew].filter (fun q =>
            decide (q.map PathNode.item = itemPath t m))) = [] := by
          rw [List.filter_cons, if_neg ?_]
          · rfl
          · intro hc
            rw [decide_eq_true_eq] at hc
            have h9 := trieFind_itemPath t hwf m hold
            rw [← hc, hfresh] at h9
            exact Option.noConfusion h9
        rw [hql, List.append_nil]
      · by_cases hmT : m = nT
        · rw [hmT, hTword, hTsup]
          have hdone0 : done.filter (fun q =>
              decide (q.map PathNode.item = qnew.map PathNode.item)) =
                [] := by
            rw [List.filter_eq_nil_iff]
            intro q0 hq0 hdec
            rw [decide_eq_true_eq] at hdec
            apply hdisj (List.mem_map.mpr ⟨q0, hq0, rfl⟩)
            rw [hdec]
            exact List.mem_map.mpr ⟨qnew, List.mem_cons_self .., rfl⟩
          rw [List.filter_append, hdone0, List.nil_append, List.filter_cons,
            if_pos (decide_eq_true rfl)]
          rfl
        · obtain ⟨hne1, hsup0, v, hv1, hv2⟩ := hnew m (by omega) hm hmT
          rw [hsup0]
          have hlenlt : (itemPath (t.insertPath i 0 qnew) m).length <
              (qnew.map PathNode.item).length := by
            rw [hv2, List.length_append]
            rcases v with _ | ⟨v0, vt⟩
            · exact absurd rfl hv1
            · simp
          rw [show (done ++ [qnew]).filter (fun q =>
              decide (q.map PathNode.item =
                itemPath (t.insertPath i 0 qnew) m)) = [] from by
            rw [List.filter_eq_nil_iff]
            intro q0 hq0 hdec
            rw [decide_eq_true_eq] at hdec
            have hpre : isPre (q0.map PathNode.item)
                (qnew.map PathNode.item) = true := by
              rw [hdec, hv2]
              exact isPre_append_self ..
            have hq0mem : q0 ∈ done ++ qnew :: rem2 := by
              rcases List.mem_append.mp hq0 with hz | hz
              · exact List.mem_append_left _ hz
              · rw [List.mem_singleton] at hz
                rw [hz]
                exact hqnew_mem
            have heq2 := h3 q0 hq0mem qnew hqnew_mem hpre
            rw [hdec] at heq2
            rw [heq2] at hlenlt
            omega]
          rfl
    have hD1 : List.Forall₂ (fun m q =>
        itemPath (t.insertPath i 0 qnew) m = q.map PathNode.item ∧
        ((t.insertPath i 0 qnew).nodeAt m).support = some (lastSup q))
        (itemIds (t.insertPath i 0 qnew) i) (done ++ [qnew]) := by
      rw [hids1]
      apply forall2_append
      · apply forall2_imp_mem _ _ _ _ hD
        intro m q0 hmA hr
        obtain ⟨r1, r2⟩ := hr
        obtain ⟨hmlt, hmitem⟩ := (mem_itemIds t i m).mp hmA
        have hm0 : 0 < m := by
          rcases Nat.eq_zero_or_pos m with hz | hz
          · rw [hz, hwf.root_item] at hmitem
            exact Option.noConfusion hmitem
          · exact hz
        exact ⟨by rw [hIP m hmlt]; exact r1, by rw [b3 m hmlt]; exact r2⟩
      · exact List.Forall₂.cons ⟨hTword, hTsup⟩ List.Forall₂.nil
    have hperm : (done ++ [qnew]) ++ rem2 = done ++ qnew :: rem2 := by
      rw [List.append_assoc]
      rfl
    have hres := ih (done ++ [qnew]) (t.insertPath i 0 qnew)
      (by rw [hperm]; exact h1)
      (by rw [hperm]; exact h2)
      (by rw [hperm]; exact h3)
      (by rw [hperm]; exact h4)
      (by rw [hperm]; exact h5)
      hwf1 hB1 hC1 hD1
    rw [hperm] at hres
    exact hres

theorem optmap_add_add (o : Option Nat) (a b : Nat) :
    ((o.map (· + a)).map (· + b)) = o.map (· + (a + b)) := by
  cases o with
  | none => rfl
  | some v =>
    show some (v + a + b) = some (v + (a + b))
    rw [Nat.add_assoc]

theorem optmap_add_zero (o : Option Nat) : o.map (· + 0) = o := by
  cases o with
  | none => rfl
  | some v => rfl

theorem foldl_addsup_size (ids : List Nat) : ∀ (t : FPTree) (s : Nat),
    (ids.foldl (fun t2 nid => t2.setNode nid
      { t2.nodeAt nid with
        support := (t2.nodeAt nid).support.map (· + s) }) t).nodes.size =
      t.nodes.size := by
  induction ids with
  | nil => intro t s; rfl
  | cons x xs ih =>
    intro t s
    rw [List.foldl_cons, ih, FPTree.size_setNode]

theorem foldl_addsup_fields (ids : List Nat) : ∀ (t : FPTree) (s : Nat)
    (k : Nat),
    (((ids.foldl (fun t2 nid => t2.setNode nid
      { t2.nodeAt nid with
        support := (t2.nodeAt nid).support.map (· + s) }) t)).nodeAt k).item =
      (t.nodeAt k).item ∧
    (((ids.foldl (fun t2 nid => t2.setNode nid
      { t2.nodeAt nid with
        support := (t2.nodeAt nid).support.map (· + s) }) t)).nodeAt
        k).parent = (t.nodeAt k).parent ∧
    (((ids.foldl (fun t2 nid => t2.setNode nid
      { t2.nodeAt nid with
        support := (t2.nodeAt nid).support.map (· + s) }) t)).nodeAt
        k).children = (t.nodeAt k).children ∧
    (((ids.foldl (fun t2 nid => t2.setNode nid
      { t2.nodeAt nid with
        support := (t2.nodeAt nid).support.map (· + s) }) t)).nodeAt
        k).isRoot = (t.nodeAt k).isRoot := by
  induction ids with
  | nil => intro t s k; exact ⟨rfl, rfl, rfl, rfl⟩
  | cons x xs ih =>
    intro t s k
    rw [List.foldl_cons]
    obtain ⟨j1, j2, j3, j4⟩ := ih (t.setNode x
      { t.nodeAt x with support := (t.nodeAt x).support.map (· + s) }) s k
    rw [j1, j2, j3, j4, FPTree.nodeAt_setNode]
    by_cases hk : x = k ∧ x < t.nodes.size
    · rw [if_pos hk, ← hk.1]
      refine ⟨rfl, rfl, rfl, ?_⟩
      unfold FPNode.isRoot
      rcases hsup : (t.nodeAt x).support with _ | v
      · rfl
      · rfl
    · rw [if_neg hk]
      exact ⟨rfl, rfl, rfl, rfl⟩

theorem foldl_addsup_support (ids : List Nat) : ∀ (t : FPTree) (s : Nat),
    ids.Nodup → (∀ b ∈ ids, b < t.nodes.size) →
    ∀ k, (((ids.foldl (fun t2 nid => t2.setNode nid
      { t2.nodeAt nid with
        support := (t2.nodeAt nid).support.map (· + s) }) t)).nodeAt
        k).support =
      if k ∈ ids then (t.nodeAt k).support.map (· + s)
      else (t.nodeAt k).support := by
  induction ids with
  | nil =>
    intro t s _ _ k
    rw [if_neg (by simp)]
    rfl
  | cons x xs ih =>
    intro t s hnd hb k
    rw [List.nodup_cons] at hnd
    rw [List.foldl_cons]
    have hb2 : ∀ b ∈ xs, b < (t.setNode x
        { t.nodeAt x with
          support := (t.nodeAt x).support.map (· + s) }).nodes.size := by
      intro b hbm
      rw [FPTree.size_setNode]
      exact hb b (List.mem_cons_of_mem _ hbm)
    rw [ih _ s hnd.2 hb2 k]
    by_cases hk : k ∈ xs
    · rw [if_pos hk, if_pos (List.mem_cons_of_mem _ hk)]
      have hkx : ¬ (x = k ∧ x < t.nodes.size) := by
        rintro ⟨rfl, -⟩
        exact hnd.1 hk
      rw [FPTree.nodeAt_setNode, if_neg hkx]
    · rw [if_neg hk, FPTree.nodeAt_setNode]
      by_cases hkx : k = x
      · rw [if_pos ⟨hkx.symm, hb x (List.mem_cons_self ..)⟩,
          if_pos (by rw [hkx]; exact List.mem_cons_self ..)]
        rw [hkx]
      · rw [if_neg (by
          rintro ⟨hc, -⟩
          exact hkx hc.symm),
          if_neg (by
            rw [List.mem_cons]
            rintro (hc | hc)
            · exact hkx hc
            · exact hk hc)]

theorem propagateOne_size (t : FPTree) (path : List Nat) :
    (propagateOne t path).nodes.size = t.nodes.size := by
  unfold propagateOne
  rcases path.getLast? with _ | lastId
  · rfl
  · exact foldl_addsup_size ..

theorem propagateOne_fields (t : FPTree) (path : List Nat) (k : Nat) :
    ((propagateOne t path).nodeAt k).item = (t.nodeAt k).item ∧
    ((propagateOne t path).nodeAt k).parent = (t.nodeAt k).parent ∧
    ((propagateOne t path).nodeAt k).children = (t.nodeAt k).children ∧
    ((propagateOne t path).nodeAt k).isRoot = (t.nodeAt k).isRoot := by
  unfold propagateOne
  rcases path.getLast? with _ | lastId
  · exact ⟨rfl, rfl, rfl, rfl⟩
  · exact foldl_addsup_fields ..

theorem propagateOne_support (t : FPTree) (path : List Nat)
    (hnd : path.dropLast.Nodup)
    (hb : ∀ b ∈ path.dropLast, b < t.nodes.size) (k : Nat) :
    ((propagateOne t path).nodeAt k).support =
      if k ∈ path.dropLast then
        (t.nodeAt k).support.map
          (· + ((path.getLast?).map (fun lid => supAt t lid)).getD 0)
      else (t.nodeAt k).support := by
  unfold propagateOne
  rcases hlast : path.getLast? with _ | lastId
  · rw [List.getLast?_eq_none_iff] at hlast
    rw [hlast]
    rw [if_neg (by simp)]
  · rw [foldl_addsup_support path.dropLast.reverse t _
      (by rw [List.nodup_reverse]; exact hnd)
      (by intro b hbm; rw [List.mem_reverse] at hbm; exact hb b hbm) k]
    simp only [List.mem_reverse]
    rfl

theorem propagate_paths_fields (paths : List (List Nat)) : ∀ (t : FPTree)
    (k : Nat),
    ((paths.foldl propagateOne t).nodeAt k).item = (t.nodeAt k).item ∧
    ((paths.foldl propagateOne t).nodeAt k).parent = (t.nodeAt k).parent ∧
    ((paths.foldl propagateOne t).nodeAt k).children =
      (t.nodeAt k).children ∧
    ((paths.foldl propagateOne t).nodeAt k).isRoot = (t.nodeAt k).isRoot := by
  induction paths with
  | nil => intro t k; exact ⟨rfl, rfl, rfl, rfl⟩
  | cons p ps ih =>
    intro t k
    rw [List.foldl_cons]
    obtain ⟨j1, j2, j3, j4⟩ := ih (propagateOne t p) k
    obtain ⟨k1, k2, k3, k4⟩ := propagateOne_fields t p k
    exact ⟨by rw [j1, k1], by rw [j2, k2], by rw [j3, k3], by rw [j4, k4]⟩

theorem propagate_paths_size (paths : List (List Nat)) : ∀ (t : FPTree),
    (paths.foldl propagateOne t).nodes.size = t.nodes.size := by
  induction paths with
  | nil => intro t; rfl
  | cons p ps ih =>
    intro t
    rw [List.foldl_cons, ih, propagateOne_size]

theorem propagate_paths_support (paths : List (List Nat)) : ∀ (t : FPTree),
    (∀ p ∈ paths, p.dropLast.Nodup) →
    (∀ p ∈ paths, ∀ b ∈ p.dropLast, b < t.nodes.size) →
    (∀ p ∈ paths, ∀ p2 ∈ paths, ∀ lid, p2.getLast? = some lid →
      lid ∉ p.dropLast) →
    ∀ k, ((paths.foldl propagateOne t).nodeAt k).support =
      (t.nodeAt k).support.map (· + (paths.map (fun p =>
        if k ∈ p.dropLast then
          ((p.getLast?).map (fun lid => supAt t lid)).getD 0
        else 0)).sum) := by
  induction paths with
  | nil =>
    intro t _ _ _ k
    rw [List.foldl_nil, List.map_nil, List.sum_nil, optmap_add_zero]
  | cons p ps ih =>
    intro t hnd hb hdl k
    rw [List.foldl_cons]
    have hone := propagateOne_support t p (hnd p (List.mem_cons_self ..))
      (hb p (List.mem_cons_self ..))
    have hsupAt_pres : ∀ lid (p2 : List Nat), p2 ∈ p :: ps →
        p2.getLast? = some lid →
        supAt (propagateOne t p) lid = supAt t lid := by
      intro lid p2 hp2 hl2
      unfold supAt
      rw [hone lid, if_neg (hdl p (List.mem_cons_self ..) p2 hp2 lid hl2)]
    rw [ih (propagateOne t p)
      (fun q hq => hnd q (List.mem_cons_of_mem _ hq))
      (by
        intro q hq b hbm
        rw [propagateOne_size]
        exact hb q (List.mem_cons_of_mem _ hq) b hbm)
      (fun q hq q2 hq2 lid hl =>
        hdl q (List.mem_cons_of_mem _ hq) q2 (List.mem_cons_of_mem _ hq2)
          lid hl) k]
    have hsum_eq : (ps.map (fun q =>
        if k ∈ q.dropLast then
          ((q.getLast?).map (fun lid => supAt (propagateOne t p) lid)).getD 0
        else 0)).sum =
        (ps.map (fun q =>
          if k ∈ q.dropLast then
            ((q.getLast?).map (fun lid => supAt t lid)).getD 0
          else 0)).sum := by
      congr 1
      apply List.map_congr_left
      intro q hq
      by_cases hkq : k ∈ q.dropLast
      · rw [if_pos hkq, if_pos hkq]
        rcases hlq : q.getLast? with _ | lid
        · rfl
        · show supAt (propagateOne t p) lid = supAt t lid
          exact hsupAt_pres lid q (List.mem_cons_of_mem _ hq) hlq
      · rw [if_neg hkq, if_neg hkq]
    rw [hsum_eq, hone k]
    by_cases hkp : k ∈ p.dropLast
    · rw [if_pos hkp, optmap_add_add, List.map_cons, List.sum_cons,
        if_pos hkp]
    · rw [if_neg hkp, List.map_cons, List.sum_cons, if_neg hkp,
        Nat.zero_add]

theorem mem_of_dropLast {α : Type} (l : List α) (a : α)
    (h : a ∈ l.dropLast) : a ∈ l := by
  induction l with
  | nil => simp at h
  | cons x rest ih =>
    rcases hr : rest with _ | ⟨y, ys⟩
    · subst hr
      simp at h
    · subst hr
      rw [List.dropLast_cons₂] at h
      rcases List.mem_cons.mp h with rfl | h2
      · exact List.mem_cons_self ..
      · exact List.mem_cons_of_mem _ (ih h2)

theorem mem_dropLast_lt_getLast (l : List Nat) (tl : Nat) :
    l.Pairwise (· < ·) → l.getLast? = some tl →
    ∀ a ∈ l.dropLast, a < tl := by
  induction l with
  | nil => intro _ _ a ha; simp at ha
  | cons x rest ih =>
    intro hs h a ha
    rcases hr : rest with _ | ⟨y, ys⟩
    · subst hr
      simp at ha
    · subst hr
      rw [List.getLast?_cons_cons] at h
      rw [List.dropLast_cons₂] at ha
      rw [List.pairwise_cons] at hs
      rcases List.mem_cons.mp ha with rfl | ha2
      · exact hs.1 tl (getLast?_mem _ _ h)
      · exact ih hs.2 h a ha2

theorem mem_dropLast_of_ne_last {α : Type} (l : List α) (a tl : α) :
    l.getLast? = some tl → a ∈ l → a ≠ tl → a ∈ l.dropLast := by
  induction l with
  | nil => intro _ ha _; simp at ha
  | cons x rest ih =>
    intro h ha hne
    rcases hr : rest with _ | ⟨y, ys⟩
    · subst hr
      simp at h
      rcases List.mem_cons.mp ha with rfl | h2
      · exact absurd h hne
      · simp at h2
    · subst hr
      rw [List.getLast?_cons_cons] at h
      rw [List.dropLast_cons₂]
      rcases List.mem_cons.mp ha with rfl | h2
      · exact List.mem_cons_self ..
      · exact List.mem_cons_of_mem _ (ih h h2 hne)

theorem dropLast_nodup_of_sorted (l : List Nat)
    (hs : l.Pairwise (· < ·)) : l.dropLast.Nodup := by
  have hs2 : l.dropLast.Pairwise (· < ·) :=
    List.Pairwise.sublist (List.dropLast_sublist l) hs
  exact hs2.imp (fun h => Nat.ne_of_lt h)

theorem forall2_mem_left {α β : Type} (R : α → β → Prop) :
    ∀ (A : List α) (B : List β), List.Forall₂ R A B →
    ∀ a ∈ A, ∃ b ∈ B, R a b := by
  intro A
  induction A with
  | nil => intro B h a ha; simp at ha
  | cons x xs ih =>
    intro B h a ha
    cases h with
    | cons hxy htail =>
      rcases List.mem_cons.mp ha with rfl | ha2
      · exact ⟨_, List.mem_cons_self .., hxy⟩
      · obtain ⟨b, hb, hr⟩ := ih _ htail a ha2
        exact ⟨b, List.mem_cons_of_mem _ hb, hr⟩

theorem sum_if_count {α : Type} (p : α → Prop) [DecidablePred p] (c : Nat) :
    ∀ (L : List α),
    (L.map (fun a => if p a then c else 0)).sum =
      (L.countP (fun a => decide (p a))) * c := by
  intro L
  induction L with
  | nil =>
    rw [List.map_nil, List.sum_nil, List.countP_nil, Nat.zero_mul]
  | cons x xs ih =>
    rw [List.map_cons, List.sum_cons, List.countP_cons, ih]
    by_cases h : p x
    · rw [if_pos h, if_pos (decide_eq_true h), Nat.add_mul, Nat.one_mul]
      exact Nat.add_comm ..
    · rw [if_neg h, if_neg (fun hc => h (of_decide_eq_true hc)),
        Nat.add_zero, Nat.zero_add]

theorem sum_map_map {α β : Type} (L : List α) (f : α → β) (g : β → Nat) :
    ((L.map f).map g).sum = (L.map (fun a => g (f a))).sum := by
  induction L with
  | nil => rfl
  | cons x xs ih =>
    rw [List.map_cons, List.map_cons, List.map_cons, List.sum_cons,
      List.sum_cons, ih]

theorem sum_map_zero' {α : Type} (L : List α) :
    (L.map (fun _ => (0 : Nat))).sum = 0 := by
  induction L with
  | nil => rfl
  | cons x xs ih =>
    rw [List.map_cons, List.sum_cons, ih]

theorem pathData_word (t : FPTree) (p : List Nat) :
    (pathData t p).map PathNode.item =
      p.map (fun m => ((t.nodeAt m).item).getD 0) := by
  unfold pathData
  rw [List.map_map]
  rfl

theorem lastSup_pathData (t : FPTree) (p : List Nat) (n : Nat)
    (h : p.getLast? = some n) :
    lastSup (pathData t p) = supAt t n := by
  unfold lastSup supAt
  rw [pathData_getLast t p n h]
  rfl

theorem dropLast_pathTo_word (t : FPTree) (hwf : WF t) (nid : Nat)
    (h0 : 0 < nid) (hlt : nid < t.nodes.size)
    (a : Nat) (ha : a ∈ (t.pathTo t.nodes.size nid).dropLast) :
    0 < a ∧ a < t.nodes.size ∧
    ∃ v, v ≠ [] ∧ itemPath t nid = itemPath t a ++ v := by
  have hmem : a ∈ t.pathTo t.nodes.size nid := mem_of_dropLast _ _ ha
  obtain ⟨ha0, halt⟩ := pathTo_mem t hwf t.nodes.size nid hlt a hmem
  obtain ⟨v, hv⟩ := pathTo_word_prefix t hwf nid hlt a hmem
  refine ⟨ha0, halt, v, ?_, hv⟩
  intro hc
  rw [hc, List.append_nil] at hv
  have heq := itemPath_inj t hwf nid a hlt halt hv
  obtain ⟨x, hx⟩ := Option.isSome_iff_exists.mp
    (hwf.nonroot_item nid h0 hlt)
  have hroot : (t.nodeAt nid).isRoot = false := isRoot_false_of_item _ x hx
  have hlast := pathTo_getLast t t.nodes.size nid hwf.size_pos hroot
  have hlt2 := mem_dropLast_lt_getLast (t.pathTo t.nodes.size nid) nid
    (pathTo_sorted t hwf t.nodes.size nid hlt) hlast a ha
  omega

theorem project_sum_core (i : Item) (P : List (List PathNode)) (T : FPTree)
    (hwfT : WF T)
    (h2 : ∀ q ∈ P, (q.getLast?).map PathNode.item = some i)
    (h6 : ∀ q ∈ P, (q.map PathNode.item).Nodup)
    (HC : ∀ m, 0 < m → m < T.nodes.size → (T.nodeAt m).support =
      some (((P.filter (fun q =>
        decide (q.map PathNode.item = itemPath T m))).map lastSup).sum))
    (HD : List.Forall₂ (fun m q => itemPath T m = q.map PathNode.item ∧
      (T.nodeAt m).support = some (lastSup q)) (itemIds T i) P)
    (ps' : List (List Nat))
    (hps : ps' = (itemIds T i).map (T.pathTo T.nodes.size))
    (j : Item) (hji : j ≠ i) :
    supSum (ps'.foldl propagateOne T) j =
      (P.map (fun q =>
        if j ∈ q.map PathNode.item then lastSup q else 0)).sum := by
  have hnidfacts : ∀ nid ∈ itemIds T i, 0 < nid ∧ nid < T.nodes.size ∧
      (T.nodeAt nid).item = some i := by
    intro nid hm
    obtain ⟨hlt2, hitem⟩ := (mem_itemIds T i nid).mp hm
    refine ⟨?_, hlt2, hitem⟩
    rcases Nat.eq_zero_or_pos nid with hz | hz
    · rw [hz, hwfT.root_item] at hitem
      exact Option.noConfusion hitem
    · exact hz
  have hword_nodup : ∀ nid ∈ itemIds T i, (itemPath T nid).Nodup := by
    intro nid hnm
    obtain ⟨q, hq, hqr⟩ := forall2_mem_left _ _ _ HD nid hnm
    rw [hqr.1]
    exact h6 q hq
  have hno_i_anc : ∀ nid ∈ itemIds T i,
      ∀ a ∈ (T.pathTo T.nodes.size nid).dropLast,
      (T.nodeAt a).item ≠ some i := by
    intro nid hnm a ha hc
    obtain ⟨hn0, hnlt, hni⟩ := hnidfacts nid hnm
    obtain ⟨ha0, halt, v, hvne, hv⟩ :=
      dropLast_pathTo_word T hwfT nid hn0 hnlt a ha
    have hea : (itemPath T a).getLast? = some i :=
      itemPath_getLast T hwfT a i ha0 halt hc
    have hen : (itemPath T nid).getLast? = some i :=
      itemPath_getLast T hwfT nid i hn0 hnlt hni
    have hndw : (itemPath T nid).Nodup := hword_nodup nid hnm
    have hpre : isPre (itemPath T a) (itemPath T nid) = true := by
      rw [hv]
      exact isPre_append_self ..
    have heq := ends_sorted_no_prefix _ _ i hea hen hndw hpre
    have hlen := congrArg List.length hv
    rw [heq, List.length_append] at hlen
    have hv0 : v.length = 0 := by omega
    exact hvne (List.eq_nil_of_length_eq_zero hv0)
  have hA : ∀ p ∈ ps', p.dropLast.Nodup := by
    intro p hp
    rw [hps] at hp
    obtain ⟨nid, hnid, rfl⟩ := List.mem_map.mp hp
    obtain ⟨hn0, hnlt, hni⟩ := hnidfacts nid hnid
    exact dropLast_nodup_of_sorted _
      (pathTo_sorted T hwfT T.nodes.size nid hnlt)
  have hBnd : ∀ p ∈ ps', ∀ b ∈ p.dropLast, b < T.nodes.size := by
    intro p hp b hb
    rw [hps] at hp
    obtain ⟨nid, hnid, rfl⟩ := List.mem_map.mp hp
    obtain ⟨hn0, hnlt, hni⟩ := hnidfacts nid hnid
    exact (pathTo_mem T hwfT T.nodes.size nid hnlt b
      (mem_of_dropLast _ _ hb)).2
  have hCc : ∀ p ∈ ps', ∀ p2 ∈ ps', ∀ lid, p2.getLast? = some lid →
      lid ∉ p.dropLast := by
    intro p hp p2 hp2 lid hl hmem2
    rw [hps] at hp hp2
    obtain ⟨nid, hnid, rfl⟩ := List.mem_map.mp hp
    obtain ⟨nid2, hnid2, rfl⟩ := List.mem_map.mp hp2
    obtain ⟨hn0, hnlt, hni⟩ := hnidfacts nid hnid
    obtain ⟨hn20, hn2lt, hn2i⟩ := hnidfacts nid2 hnid2
    have hroot2 : (T.nodeAt nid2).isRoot = false :=
      isRoot_false_of_item _ i hn2i
    have hlast2 := pathTo_getLast T T.nodes.size nid2 hwfT.size_pos hroot2
    rw [hlast2] at hl
    injection hl with hl
    subst hl
    exact hno_i_anc nid hnid nid2 hmem2 hn2i
  have hmain := propagate_paths_support ps' T hA hBnd hCc
  have hids : itemIds (ps'.foldl propagateOne T) j = itemIds T j := by
    apply itemIds_congr
    · exact propagate_paths_size ps' T
    · intro m _
      exact (propagate_paths_fields ps' T m).1
  have hsupJ : ∀ a ∈ itemIds T j, (T.nodeAt a).support = some 0 := by
    intro a ham
    obtain ⟨halt, haj⟩ := (mem_itemIds T j a).mp ham
    have ha0 : 0 < a := by
      rcases Nat.eq_zero_or_pos a with hz | hz
      · rw [hz, hwfT.root_item] at haj
        exact Option.noConfusion haj
      · exact hz
    have hHC := HC a ha0 halt
    have hfe : P.filter (fun q =>
        decide (q.map PathNode.item = itemPath T a)) = [] := by
      rw [List.filter_eq_nil_iff]
      intro q hq hdq
      have hw : q.map PathNode.item = itemPath T a := of_decide_eq_true hdq
      have hqi : (q.map PathNode.item).getLast? = some i :=
        word_getLast q i (h2 q hq)
      have haj2 : (itemPath T a).getLast? = some j :=
        itemPath_getLast T hwfT a j ha0 halt haj
      rw [hw, haj2] at hqi
      injection hqi with hqi
      exact hji hqi
    rw [hfe] at hHC
    simpa using hHC
  have hsupF : ∀ a ∈ itemIds T j, supAt (ps'.foldl propagateOne T) a =
      (ps'.map (fun p =>
        if a ∈ p.dropLast then
          ((p.getLast?).map (fun lid => supAt T lid)).getD 0
        else 0)).sum := by
    intro a ham
    unfold supAt
    rw [hmain a, hsupJ a ham, Option.map_some', Option.getD_some]
    exact Nat.zero_add _
  have hcount : ∀ nid ∈ itemIds T i,
      (itemIds T j).countP (fun a =>
        decide (a ∈ (T.pathTo T.nodes.size nid).dropLast)) =
      if j ∈ itemPath T nid then 1 else 0 := by
    intro nid hnm
    obtain ⟨hn0, hnlt, hni⟩ := hnidfacts nid hnm
    by_cases hjw : j ∈ itemPath T nid
    · rw [if_pos hjw]
      obtain ⟨d, hd0, hdl, hde⟩ := exists_take_ends (itemPath T nid) j hjw
      have hfull : (itemPath T nid).getLast? = some i :=
        itemPath_getLast T hwfT nid i hn0 hnlt hni
      have hdlt : d < (itemPath T nid).length := by
        rcases Nat.lt_or_ge d (itemPath T nid).length with h | h
        · exact h
        · exfalso
          have hdeq : d = (itemPath T nid).length := by omega
          rw [hdeq, List.take_length] at hde
          rw [hde] at hfull
          injection hfull with hf
          exact hji hf
      have hsplit : itemPath T nid = (itemPath T nid).take d ++
          (itemPath T nid).drop d := (List.take_append_drop ..).symm
      have hwne : (itemPath T nid).take d ≠ [] := by
        intro hc
        rw [hc] at hde
        simp at hde
      obtain ⟨a, hamem, haw⟩ := ancestor_of_prefix T hwfT nid hnlt
        ((itemPath T nid).take d) ((itemPath T nid).drop d) hwne hsplit
      obtain ⟨ha0, halt⟩ := pathTo_mem T hwfT T.nodes.size nid hnlt a hamem
      obtain ⟨xa, hxa⟩ := Option.isSome_iff_exists.mp
        (hwfT.nonroot_item a ha0 halt)
      have haj : (T.nodeAt a).item = some j := by
        have hge := itemPath_getLast T hwfT a xa ha0 halt hxa
        rw [haw, hde] at hge
        injection hge with hge
        rw [hxa, ← hge]
      have hanid : a ≠ nid := by
        intro hc
        rw [hc, hni] at haj
        injection haj with hx3
        exact hji hx3.symm
      have hroot : (T.nodeAt nid).isRoot = false :=
        isRoot_false_of_item _ i hni
      have hlastn := pathTo_getLast T T.nodes.size nid hwfT.size_pos hroot
      have hadrop : a ∈ (T.pathTo T.nodes.size nid).dropLast :=
        mem_dropLast_of_ne_last _ a nid hlastn hamem hanid
      have haids : a ∈ itemIds T j := (mem_itemIds T j a).mpr ⟨halt, haj⟩
      refine countP_eq_one_of_unique _ _ a (itemIds_nodup T j) haids
        (decide_eq_true hadrop) ?_
      intro b hb hpb
      have hbdrop : b ∈ (T.pathTo T.nodes.size nid).dropLast :=
        of_decide_eq_true hpb
      obtain ⟨hblt0, hbj⟩ := (mem_itemIds T j b).mp hb
      obtain ⟨hb0, hblt, v, hvne, hv⟩ :=
        dropLast_pathTo_word T hwfT nid hn0 hnlt b hbdrop
      have hbe : (itemPath T b).getLast? = some j :=
        itemPath_getLast T hwfT b j hb0 hblt hbj
      have hbpre : (itemPath T nid).take (itemPath T b).length
          = itemPath T b := by
        rw [hv]
        exact (isPre_iff _ _).mp (isPre_append_self _ _)
      have hlenle : (itemPath T b).length ≤ (itemPath T nid).length := by
        have hlen2 := congrArg List.length hv
        rw [List.length_append] at hlen2
        omega
      have hndw := hword_nodup nid hnm
      have hdeq2 := take_ends_unique (itemPath T nid) hndw j
        (itemPath T b).length d hlenle (by omega)
        (by rw [hbpre]; exact hbe) hde
      have hwords : itemPath T b = itemPath T a := by
        rw [← hbpre, hdeq2, ← haw]
      exact itemPath_inj T hwfT b a hblt halt hwords
    · rw [if_neg hjw]
      rw [List.countP_eq_zero]
      intro b hb hpb
      have hbdrop : b ∈ (T.pathTo T.nodes.size nid).dropLast :=
        of_decide_eq_true hpb
      obtain ⟨hblt0, hbj⟩ := (mem_itemIds T j b).mp hb
      obtain ⟨hb0, hblt, v, hvne, hv⟩ :=
        dropLast_pathTo_word T hwfT nid hn0 hnlt b hbdrop
      have hbe : (itemPath T b).getLast? = some j :=
        itemPath_getLast T hwfT b j hb0 hblt hbj
      have hjb : j ∈ itemPath T b := getLast?_mem _ _ hbe
      apply hjw
      rw [hv]
      exact List.mem_append_left _ hjb
  have hinner : ∀ nid ∈ itemIds T i,
      ((itemIds T j).map (fun a =>
        if a ∈ (T.pathTo T.nodes.size nid).dropLast then
          (((T.pathTo T.nodes.size nid).getLast?).map
            (fun lid => supAt T lid)).getD 0
        else 0)).sum =
      (if j ∈ itemPath T nid then supAt T nid else 0) := by
    intro nid hnm
    obtain ⟨hn0, hnlt, hni⟩ := hnidfacts nid hnm
    have hroot : (T.nodeAt nid).isRoot = false :=
      isRoot_false_of_item _ i hni
    have hlastn := pathTo_getLast T T.nodes.size nid hwfT.size_pos hroot
    have hmapc : ∀ a ∈ itemIds T j,
        (if a ∈ (T.pathTo T.nodes.size nid).dropLast then
          (((T.pathTo T.nodes.size nid).getLast?).map
            (fun lid => supAt T lid)).getD 0
        else 0) =
        (if a ∈ (T.pathTo T.nodes.size nid).dropLast then supAt T nid
        else 0) := by
      intro a _
      rw [hlastn]
      rfl
    rw [List.map_congr_left hmapc]
    have hsc := sum_if_count (fun a =>
        a ∈ (T.pathTo T.nodes.size nid).dropLast)
      (supAt T nid) (itemIds T j)
    rw [hcount nid hnm] at hsc
    refine hsc.trans ?_
    by_cases hjw : j ∈ itemPath T nid
    · rw [if_pos hjw, if_pos hjw, Nat.one_mul]
    · rw [if_neg hjw, if_neg hjw, Nat.zero_mul]
  calc supSum (ps'.foldl propagateOne T) j
      = ((itemIds T j).map (supAt (ps'.foldl propagateOne T))).sum := by
        unfold supSum
        rw [hids]
    _ = ((itemIds T j).map (fun a => (ps'.map (fun p =>
          if a ∈ p.dropLast then
            ((p.getLast?).map (fun lid => supAt T lid)).getD 0
          else 0)).sum)).sum := by
        rw [List.map_congr_left hsupF]
    _ = (ps'.map (fun p => ((itemIds T j).map (fun a =>
          if a ∈ p.dropLast then
            ((p.getLast?).map (fun lid => supAt T lid)).getD 0
          else 0)).sum)).sum :=
        sum_sum_swap (itemIds T j) ps' (fun a p =>
          if a ∈ p.dropLast then
            ((p.getLast?).map (fun lid => supAt T lid)).getD 0
          else 0)
    _ = (((itemIds T i).map (T.pathTo T.nodes.size)).map (fun p =>
          ((itemIds T j).map (fun a =>
            if a ∈ p.dropLast then
              ((p.getLast?).map (fun lid => supAt T lid)).getD 0
            else 0)).sum)).sum := by
        rw [hps]
    _ = ((itemIds T i).map (fun nid => ((itemIds T j).map (fun a =>
          if a ∈ (T.pathTo T.nodes.size nid).dropLast then
            (((T.pathTo T.nodes.size nid).getLast?).map
              (fun lid => supAt T lid)).getD 0
          else 0)).sum)).sum :=
        sum_map_map (itemIds T i) (T.pathTo T.nodes.size) _
    _ = ((itemIds T i).map (fun nid =>
          if j ∈ itemPath T nid then supAt T nid else 0)).sum := by
        rw [List.map_congr_left hinner]
    _ = (P.map (fun q =>
          if j ∈ q.map PathNode.item then lastSup q else 0)).sum := by
        refine sum_forall2 (fun m q => itemPath T m = q.map PathNode.item ∧
          (T.nodeAt m).support = some (lastSup q)) _ _ _ _ HD ?_
        intro a q hr
        by_cases hjq : j ∈ q.map PathNode.item
        · rw [hr.1, if_pos hjq, if_pos hjq]
          unfold supAt
          rw [hr.2]
          rfl
        · rw [hr.1, if_neg hjq, if_neg hjq]

theorem itemIds_facts (t : FPTree) (hwf : WF t) (i : Item) (nid : Nat)
    (hm : nid ∈ itemIds t i) :
    0 < nid ∧ nid < t.nodes.size ∧ (t.nodeAt nid).item = some i := by
  obtain ⟨hlt, hitem⟩ := (mem_itemIds t i nid).mp hm
  refine ⟨?_, hlt, hitem⟩
  rcases Nat.eq_zero_or_pos nid with hz | hz
  · rw [hz, hwf.root_item] at hitem
    exact Option.noConfusion hitem
  · exact hz

theorem dropLast_map {α β : Type} (f : α → β) (l : List α) :
    (l.map f).dropLast = l.dropLast.map f := by
  induction l with
  | nil => rfl
  | cons x rest ih =>
    rcases hr : rest with _ | ⟨y, ys⟩
    · subst hr
      rfl
    · subst hr
      rw [List.map_cons, List.map_cons, List.dropLast_cons₂,
        ← List.map_cons f y ys, ih, List.dropLast_cons₂, List.map_cons]

theorem dropLast_ne_last {α : Type} (l : List α) (i : α) (hnd : l.Nodup)
    (hl : l.getLast? = some i) : ∀ x ∈ l.dropLast, x ≠ i := by
  induction l with
  | nil => intro x hx; simp at hx
  | cons a rest ih =>
    intro x hx
    rcases hr : rest with _ | ⟨y, ys⟩
    · subst hr
      simp at hx
    · subst hr
      rw [List.getLast?_cons_cons] at hl
      rw [List.dropLast_cons₂] at hx
      rw [List.nodup_cons] at hnd
      rcases List.mem_cons.mp hx with rfl | hx2
      · intro hc
        subst hc
        exact hnd.1 (getLast?_mem _ _ hl)
      · exact ih hnd.2 hl x hx2

theorem mem_dropLast_rel_getLast {α : Type} (R : α → α → Prop)
    (l : List α) (tl : α) :
    l.Pairwise R → l.getLast? = some tl → ∀ a ∈ l.dropLast, R a tl := by
  induction l with
  | nil => intro _ _ a ha; simp at ha
  | cons x rest ih =>
    intro hs h a ha
    rcases hr : rest with _ | ⟨y, ys⟩
    · subst hr
      simp at ha
    · subst hr
      rw [List.getLast?_cons_cons] at h
      rw [List.dropLast_cons₂] at ha
      rw [List.pairwise_cons] at hs
      rcases List.mem_cons.mp ha with rfl | ha2
      · exact hs.1 tl (getLast?_mem _ _ h)
      · exact ih hs.2 h a ha2

theorem project_eq_propagate (P : List (List PathNode)) (i : Item)
    (T : FPTree) (hwfT : WF T)
    (hpb : projectBuild P = .ok (T, some i))
    (ct : FPTree) (hproj : project P = .ok ct) :
    ∃ ps2, ps2 = (itemIds T i).map (T.pathTo T.nodes.size) ∧
      ct = ps2.foldl propagateOne T := by
  unfold project at hproj
  rw [hpb] at hproj
  replace hproj : (match T.prefix_paths i with
    | .error _ => (Except.error () : Except Unit FPTree)
    | .ok ps2 => Except.ok (ps2.foldl propagateOne T)) = Except.ok ct :=
    hproj
  rcases hl2 : T.hyperlinks.lookup i with _ | ⟨g0, gl⟩
  · exfalso
    unfold FPTree.prefix_paths FPTree.nodesOf at hproj
    rw [hl2] at hproj
    exact Except.noConfusion (show (Except.error () : Except Unit FPTree) =
      Except.ok ct from hproj)
  · have hpsX : T.prefix_paths i = .ok ((T.chainFrom T.nodes.size g0).map
        (T.pathTo T.nodes.size)) := by
      unfold FPTree.prefix_paths FPTree.nodesOf
      rw [hl2]
      rfl
    rw [hpsX] at hproj
    replace hproj : Except.ok (((T.chainFrom T.nodes.size g0).map
        (T.pathTo T.nodes.size)).foldl propagateOne T) = Except.ok ct :=
      hproj
    injection hproj with hproj
    refine ⟨(T.chainFrom T.nodes.size g0).map (T.pathTo T.nodes.size),
      ?_, hproj.symm⟩
    rw [chain_eq_itemIds T hwfT i g0 gl hl2]

theorem orig_sum_count (r : Item → Item → Prop)
    (htrans : ∀ a b c, r a b → r b c → r a c)
    (hirr : ∀ a, ¬ r a a)
    (ts : List (List Item))
    (hsorted : ∀ tr ∈ ts, tr.Pairwise r)
    (i j : Item)
    (hrji : r j i) :
    ((itemIds (buildTree ts) i).map (fun nid =>
      if j ∈ itemPath (buildTree ts) nid
      then supAt (buildTree ts) nid else 0)).sum =
    ts.countP (fun tr => decide (i ∈ tr) && decide (j ∈ tr)) := by
  have hwf : WF (buildTree ts) := wf_buildTree ts
  obtain ⟨hT1, hT2⟩ := buildTree_trie ts
  have hkey : ∀ tr ∈ ts,
      ((itemIds (buildTree ts) i).map (fun nid =>
        if j ∈ itemPath (buildTree ts) nid ∧
            isPre (itemPath (buildTree ts) nid) tr = true
        then 1 else 0)).sum =
      (if i ∈ tr ∧ j ∈ tr then 1 else 0) := by
    intro tr htr
    have hndtr : tr.Nodup :=
      pairwise_nodup_of_irrefl tr (hsorted tr htr) hirr
    have hsc := sum_if_count (fun nid =>
        j ∈ itemPath (buildTree ts) nid ∧
          isPre (itemPath (buildTree ts) nid) tr = true) 1
      (itemIds (buildTree ts) i)
    refine hsc.trans ?_
    rw [Nat.mul_one]
    by_cases hc : i ∈ tr ∧ j ∈ tr
    · rw [if_pos hc]
      obtain ⟨d, hd0, hdl, hde⟩ := exists_take_ends tr i hc.1
      obtain ⟨n, htf⟩ := hT2 tr htr d hdl
      have hword : itemPath (buildTree ts) n = tr.take d :=
        trieFind_word (buildTree ts) hwf (tr.take d) n htf
      obtain ⟨hnlt, -, -⟩ := trieFind_lt (buildTree ts) hwf (tr.take d) 0 n
        hwf.size_pos htf
      have hwne : itemPath (buildTree ts) n ≠ [] := by
        rw [hword]
        intro hcc
        rw [hcc] at hde
        simp at hde
      have hn0 : 0 < n := by
        rcases Nat.eq_zero_or_pos n with hz | hz
        · exfalso
          rw [hz, itemPath_root (buildTree ts) hwf] at hwne
          exact hwne rfl
        · exact hz
      obtain ⟨x, hx⟩ := Option.isSome_iff_exists.mp
        (hwf.nonroot_item n hn0 hnlt)
      have hni : ((buildTree ts).nodeAt n).item = some i := by
        have hge := itemPath_getLast (buildTree ts) hwf n x hn0 hnlt hx
        rw [hword, hde] at hge
        injection hge with hge
        rw [hx, ← hge]
      have hnm : n ∈ itemIds (buildTree ts) i :=
        (mem_itemIds _ i n).mpr ⟨hnlt, hni⟩
      have hsplit : tr = tr.take d ++ tr.drop d :=
        (List.take_append_drop ..).symm
      have hpw : (tr.take d ++ tr.drop d).Pairwise r := by
        rw [← hsplit]
        exact hsorted tr htr
      have hja : j ∈ tr.take d := by
        have hj2 : j ∈ tr.take d ++ tr.drop d := by
          rw [← hsplit]
          exact hc.2
        rcases List.mem_append.mp hj2 with h | h
        · exact h
        · exfalso
          have hri : i ∈ tr.take d := getLast?_mem _ _ hde
          have hrij : r i j := (List.pairwise_append.mp hpw).2.2 i hri j h
          exact hirr j (htrans j i j hrji hrij)
      have hpn : j ∈ itemPath (buildTree ts) n ∧
          isPre (itemPath (buildTree ts) n) tr = true := by
        constructor
        · rw [hword]
          exact hja
        · rw [hword]
          exact isPre_take tr d
      refine countP_eq_one_of_unique _ _ n (itemIds_nodup _ i) hnm
        (decide_eq_true hpn) ?_
      intro b hb hpb
      obtain ⟨hjb, hprb⟩ := of_decide_eq_true hpb
      obtain ⟨hb0, hblt, hbi⟩ := itemIds_facts _ hwf i b hb
      have hbe : (itemPath (buildTree ts) b).getLast? = some i :=
        itemPath_getLast _ hwf b i hb0 hblt hbi
      have hbtake : tr.take (itemPath (buildTree ts) b).length =
          itemPath (buildTree ts) b := (isPre_iff _ _).mp hprb
      have hblen : (itemPath (buildTree ts) b).length ≤ tr.length :=
        isPre_length_le _ _ hprb
      have hdeq := take_ends_unique tr hndtr i
        (itemPath (buildTree ts) b).length d hblen hdl
        (by rw [hbtake]; exact hbe) hde
      have hwords : itemPath (buildTree ts) b =
          itemPath (buildTree ts) n := by
        rw [← hbtake, hdeq, ← hword]
      exact itemPath_inj _ hwf b n hblt hnlt hwords
    · rw [if_neg hc]
      rw [List.countP_eq_zero]
      intro b hb hpb
      obtain ⟨hjb, hprb⟩ := of_decide_eq_true hpb
      obtain ⟨hb0, hblt, hbi⟩ := itemIds_facts _ hwf i b hb
      have hbe : (itemPath (buildTree ts) b).getLast? = some i :=
        itemPath_getLast _ hwf b i hb0 hblt hbi
      have hitr : i ∈ tr := mem_of_isPre _ _ i hprb (getLast?_mem _ _ hbe)
      have hjtr : j ∈ tr := mem_of_isPre _ _ j hprb hjb
      exact hc ⟨hitr, hjtr⟩
  calc ((itemIds (buildTree ts) i).map (fun nid =>
        if j ∈ itemPath (buildTree ts) nid
        then supAt (buildTree ts) nid else 0)).sum
      = ((itemIds (buildTree ts) i).map (fun nid => (ts.map (fun tr =>
          if j ∈ itemPath (buildTree ts) nid ∧
              isPre (itemPath (buildTree ts) nid) tr = true
          then 1 else 0)).sum)).sum := by
        apply congrArg
        apply List.map_congr_left
        intro nid hnm
        obtain ⟨hn0, hnlt, hni⟩ := itemIds_facts _ hwf i nid hnm
        obtain ⟨hsup, -, -⟩ := hT1 nid hn0 hnlt
        by_cases hjw : j ∈ itemPath (buildTree ts) nid
        · rw [if_pos hjw, hsup]
          unfold prefixCount
          rw [countP_eq_sum_map]
          apply congrArg
          apply List.map_congr_left
          intro tr htr
          by_cases hp : isPre (itemPath (buildTree ts) nid) tr = true
          · rw [if_pos hp, if_pos ⟨hjw, hp⟩]
          · rw [if_neg hp, if_neg (fun hcc => hp hcc.2)]
        · rw [if_neg hjw]
          have hz : (ts.map (fun tr =>
              if j ∈ itemPath (buildTree ts) nid ∧
                  isPre (itemPath (buildTree ts) nid) tr = true
              then 1 else 0)) = ts.map (fun _ => 0) := by
            apply List.map_congr_left
            intro tr htr
            rw [if_neg (fun hcc => hjw hcc.1)]
          rw [hz, sum_map_zero']
    _ = (ts.map (fun tr => ((itemIds (buildTree ts) i).map (fun nid =>
          if j ∈ itemPath (buildTree ts) nid ∧
              isPre (itemPath (buildTree ts) nid) tr = true
          then 1 else 0)).sum)).sum :=
        sum_sum_swap (itemIds (buildTree ts) i) ts (fun nid tr =>
          if j ∈ itemPath (buildTree ts) nid ∧
              isPre (itemPath (buildTree ts) nid) tr = true
          then 1 else 0)
    _ = (ts.map (fun tr => if i ∈ tr ∧ j ∈ tr then 1 else 0)).sum := by
        apply congrArg
        exact List.map_congr_left hkey
    _ = ts.countP (fun tr => decide (i ∈ tr) && decide (j ∈ tr)) := by
        rw [countP_eq_sum_map]
        apply congrArg
        apply List.map_congr_left
        intro tr htr
        by_cases hc : i ∈ tr ∧ j ∈ tr
        · rw [if_pos hc, if_pos (by
            rw [decide_eq_true hc.1, decide_eq_true hc.2]
            rfl)]
        · rw [if_neg hc, if_neg (fun hb => by
            rw [Bool.and_eq_true] at hb
            exact hc ⟨of_decide_eq_true hb.1, of_decide_eq_true hb.2⟩)]

/-- C2: for a tree built from transactions that are each sorted by one
fixed strict order (transitive and irreflexive, the frequency order of the
caller), projecting the prefix paths of an item `i` yields a conditional
tree in which every other item `j` that appears on some path to an
occurrence of `i` carries a total support (summed over all of `j`'s nodes)
equal to the number of input transactions containing both `i` and `j`. -/
theorem c2_projection_correctness (r : Item → Item → Prop)
    (htrans : ∀ a b c, r a b → r b c → r a c)
    (hirr : ∀ a, ¬ r a a)
    (ts : List (List Item))
    (hsorted : ∀ tr ∈ ts, tr.Pairwise r)
    (i j : Item) (hji : j ≠ i)
    (ps : List (List Nat))
    (hpp : (buildTree ts).prefix_paths i = .ok ps)
    (hj : ∃ p ∈ ps, ∃ m ∈ p, ((buildTree ts).nodeAt m).item = some j)
    (ct : FPTree)
    (hproj : project (ps.map (pathData (buildTree ts))) = .ok ct) :
    supSum ct j =
      ts.countP (fun tr => decide (i ∈ tr) && decide (j ∈ tr)) := by
  have hwf : WF (buildTree ts) := wf_buildTree ts
  obtain ⟨hT1, hT2⟩ := buildTree_trie ts
  rcases hl : (buildTree ts).hyperlinks.lookup i with _ | ⟨h0, tl⟩
  · exfalso
    unfold FPTree.prefix_paths FPTree.nodesOf at hpp
    rw [hl] at hpp
    exact Except.noConfusion hpp
  have hpseq : ps = (itemIds (buildTree ts) i).map
      ((buildTree ts).pathTo (buildTree ts).nodes.size) := by
    unfold FPTree.prefix_paths FPTree.nodesOf at hpp
    rw [hl] at hpp
    replace hpp : Except.ok (((buildTree ts).chainFrom
        (buildTree ts).nodes.size h0).map
        ((buildTree ts).pathTo (buildTree ts).nodes.size)) =
        Except.ok ps := hpp
    injection hpp with hpp
    rw [← hpp, chain_eq_itemIds (buildTree ts) hwf i h0 tl hl]
  have hhead := (hwf.hyper_lookup i h0 tl hl).1
  have hPeq : ps.map (pathData (buildTree ts)) =
      (itemIds (buildTree ts) i).map (fun nid =>
        pathData (buildTree ts)
          ((buildTree ts).pathTo (buildTree ts).nodes.size nid)) := by
    rw [hpseq, List.map_map]
    rfl
  have hword : ∀ nid ∈ itemIds (buildTree ts) i,
      (pathData (buildTree ts)
        ((buildTree ts).pathTo (buildTree ts).nodes.size nid)).map
        PathNode.item = itemPath (buildTree ts) nid := by
    intro nid hnm
    exact pathData_word (buildTree ts) _
  have hword2 : ∀ q ∈ ps.map (pathData (buildTree ts)),
      ∃ nid ∈ itemIds (buildTree ts) i,
        q = pathData (buildTree ts)
          ((buildTree ts).pathTo (buildTree ts).nodes.size nid) ∧
        q.map PathNode.item = itemPath (buildTree ts) nid := by
    intro q hq
    rw [hPeq] at hq
    obtain ⟨nid, hnid, rfl⟩ := List.mem_map.mp hq
    exact ⟨nid, hnid, rfl, hword nid hnid⟩
  have hplast : ∀ nid ∈ itemIds (buildTree ts) i,
      (((buildTree ts)).pathTo (buildTree ts).nodes.size nid).getLast? =
        some nid := by
    intro nid hnm
    obtain ⟨hn0, hnlt, hni⟩ := itemIds_facts _ hwf i nid hnm
    exact pathTo_getLast _ _ nid hwf.size_pos (isRoot_false_of_item _ i hni)
  have hP2 : ∀ q ∈ ps.map (pathData (buildTree ts)),
      (q.getLast?).map PathNode.item = some i := by
    intro q hq
    obtain ⟨nid, hnid, rfl, hw⟩ := hword2 q hq
    obtain ⟨hn0, hnlt, hni⟩ := itemIds_facts _ hwf i nid hnid
    rw [pathData_getLast _ _ nid (hplast nid hnid), hni]
    rfl
  have hP6 : ∀ q ∈ ps.map (pathData (buildTree ts)),
      (q.map PathNode.item).Nodup := by
    intro q hq
    obtain ⟨nid, hnid, rfl, hw⟩ := hword2 q hq
    rw [hw]
    obtain ⟨hn0, hnlt, hni⟩ := itemIds_facts _ hwf i nid hnid
    obtain ⟨-, -, tr, htr, hpre⟩ := hT1 nid hn0 hnlt
    exact pairwise_nodup_of_irrefl _
      (pairwise_isPre _ _ hpre (hsorted tr htr)) hirr
  have hP1 : ∀ q ∈ ps.map (pathData (buildTree ts)), q ≠ [] := by
    intro q hq hcq
    have hgot := hP2 q hq
    rw [hcq] at hgot
    simp at hgot
  have hP3 : ∀ q1 ∈ ps.map (pathData (buildTree ts)),
      ∀ q2 ∈ ps.map (pathData (buildTree ts)),
      isPre (q1.map PathNode.item) (q2.map PathNode.item) = true →
      q1.map PathNode.item = q2.map PathNode.item := by
    intro q1 hq1 q2 hq2 hpre
    exact ends_sorted_no_prefix _ _ i
      (word_getLast q1 i (hP2 q1 hq1))
      (word_getLast q2 i (hP2 q2 hq2))
      (hP6 q2 hq2) hpre
  have hP4 : ((ps.map (pathData (buildTree ts))).map
      (fun q => q.map PathNode.item)).Nodup := by
    have hwl : (ps.map (pathData (buildTree ts))).map
        (fun q => q.map PathNode.item) =
        (itemIds (buildTree ts) i).map
          (fun nid => itemPath (buildTree ts) nid) := by
      rw [hPeq, List.map_map]
      apply List.map_congr_left
      intro nid hnid
      exact hword nid hnid
    rw [hwl]
    apply List.Nodup.map_on
    · intro x hx y hy hxy
      obtain ⟨hx0, hxlt, -⟩ := itemIds_facts _ hwf i x hx
      obtain ⟨hy0, hylt, -⟩ := itemIds_facts _ hwf i y hy
      exact itemPath_inj _ hwf x y hxlt hylt hxy
    · exact itemIds_nodup _ i
  have hP5 : ∀ q ∈ ps.map (pathData (buildTree ts)),
      ∀ pn ∈ q.dropLast, pn.item ≠ i := by
    intro q hq pn hpn
    have hmemw : pn.item ∈ (q.map PathNode.item).dropLast := by
      rw [dropLast_map]
      exact List.mem_map_of_mem _ hpn
    exact dropLast_ne_last (q.map PathNode.item) i (hP6 q hq)
      (word_getLast q i (hP2 q hq)) pn.item hmemw
  have hrji : r j i := by
    obtain ⟨p, hpm, m, hmm, hmj⟩ := hj
    rw [hpseq] at hpm
    obtain ⟨nid, hnid, rfl⟩ := List.mem_map.mp hpm
    obtain ⟨hn0, hnlt, hni⟩ := itemIds_facts _ hwf i nid hnid
    obtain ⟨hm0, hmlt⟩ := pathTo_mem _ hwf _ nid hnlt m hmm
    obtain ⟨v, hv⟩ := pathTo_word_prefix _ hwf nid hnlt m hmm
    have hme : (itemPath (buildTree ts) m).getLast? = some j :=
      itemPath_getLast _ hwf m j hm0 hmlt hmj
    have hjw : j ∈ itemPath (buildTree ts) nid := by
      rw [hv]
      exact List.mem_append_left _ (getLast?_mem _ _ hme)
    obtain ⟨-, -, tr, htr, hpre⟩ := hT1 nid hn0 hnlt
    have hwp : (itemPath (buildTree ts) nid).Pairwise r :=
      pairwise_isPre _ _ hpre (hsorted tr htr)
    have hwe : (itemPath (buildTree ts) nid).getLast? = some i :=
      itemPath_getLast _ hwf nid i hn0 hnlt hni
    have hjd : j ∈ (itemPath (buildTree ts) nid).dropLast :=
      mem_dropLast_of_ne_last _ j i hwe hjw hji
    exact mem_dropLast_rel_getLast r _ i hwp hwe j hjd
  rcases hPcase : ps.map (pathData (buildTree ts)) with _ | ⟨q0, qrest⟩
  · exfalso
    rw [hPeq] at hPcase
    rcases hids0 : itemIds (buildTree ts) i with _ | ⟨n0, ns⟩
    · rw [hids0] at hhead
      simp at hhead
    · rw [hids0] at hPcase
      simp at hPcase
  rw [hPcase] at hproj hP1 hP2 hP3 hP4 hP5 hP6
  obtain ⟨pn0, hpn0, hpn0i⟩ : ∃ pn0, q0.getLast? = some pn0 ∧
      pn0.item = i := by
    have hg2 := hP2 q0 (List.mem_cons_self ..)
    rcases hg : q0.getLast? with _ | pn0
    · rw [hg] at hg2
      exact Option.noConfusion hg2
    · rw [hg] at hg2
      injection hg2 with hg2
      exact ⟨pn0, rfl, hg2⟩
  have hpb := projectBuild_all_end q0 qrest i pn0 hpn0 hpn0i
    (fun p hp => hP2 p (List.mem_cons_of_mem _ hp))
  have hwf2 : WF ((q0 :: qrest).foldl (fun t2 p => t2.insertPath i 0 p)
      FPTree.new) := foldl_insertPath_wf (q0 :: qrest) i FPTree.new wf_new
  obtain ⟨-, HC, HD⟩ := projectBuild_fold_inv i (q0 :: qrest) [] FPTree.new
    hP1 hP2 hP3 hP4 hP5 wf_new
    (by
      intro m hm0 hmlt
      exfalso
      have hsz : FPTree.new.nodes.size = 1 := rfl
      omega)
    (by
      intro m hm0 hmlt
      exfalso
      have hsz : FPTree.new.nodes.size = 1 := rfl
      omega)
    (by
      rw [itemIds_new]
      exact List.Forall₂.nil)
  simp only [List.nil_append] at HC HD
  obtain ⟨ps2, hps2eq, hct⟩ := project_eq_propagate (q0 :: qrest) i
    ((q0 :: qrest).foldl (fun t2 p => t2.insertPath i 0 p) FPTree.new)
    hwf2 hpb ct hproj
  have hcore := project_sum_core i (q0 :: qrest)
    ((q0 :: qrest).foldl (fun t2 p => t2.insertPath i 0 p) FPTree.new)
    hwf2 hP2 hP6 HC HD ps2 hps2eq j hji
  have hback : ((q0 :: qrest).map (fun q =>
      if j ∈ q.map PathNode.item then lastSup q else 0)).sum =
      ((itemIds (buildTree ts) i).map (fun nid =>
        if j ∈ itemPath (buildTree ts) nid
        then supAt (buildTree ts) nid else 0)).sum := by
    rw [← hPcase, hPeq]
    refine (sum_map_map (itemIds (buildTree ts) i)
      (fun nid => pathData (buildTree ts)
        ((buildTree ts).pathTo (buildTree ts).nodes.size nid))
      (fun q => if j ∈ q.map PathNode.item then lastSup q else 0)).trans ?_
    apply congrArg
    apply List.map_congr_left
    intro nid hnid
    rw [hword nid hnid, lastSup_pathData _ _ nid (hplast nid hnid)]
  rw [hct, hcore, hback]
  exact orig_sum_count r htrans hirr ts hsorted i j hrji

theorem c2_projection_correctness_witness :
    supSum ((project (([[1, 2]] : List (List Nat)).map
      (pathData (buildTree [[1, 2]])))).toOption.getD FPTree.new) 1 =
    ([[ (1 : Item), 2 ]]).countP
      (fun tr => decide ((2 : Item) ∈ tr) && decide ((1 : Item) ∈ tr)) :=
  c2_projection_correctness (· < ·)
    (fun a b c hab hbc => lt_trans hab hbc)
    (fun a => lt_irrefl a)
    [[1, 2]]
    (by decide)
    2 1 (by decide)
    [[1, 2]]
    (by rfl)
    ⟨[1, 2], by decide, 1, by decide, by rfl⟩
    ((project (([[1, 2]] : List (List Nat)).map
      (pathData (buildTree [[1, 2]])))).toOption.getD FPTree.new)
    (by rfl)
